import Mathlib

/-!
# BIFANG middle-end optimizer (`src/Pass/IROptimizer.cpp`)

A shallow embedding of the optimizer's three core stages (`BuildCFG`, `Constlize`,
`ScalarOpt`) and of the folding rules they use.

The C++ program graph is a graph of heap objects linked by pointers.  It is embedded as
an arena: every `ValueRef`, `Instruction` and `BasicBlock` lives in a list of the
`GlobalUnit`, and a pointer is the index of the object in its list.  An index outside
its list stands for a null (or dangling) pointer; reading through it yields an inert
default object and writing through it does nothing.

C++ `int` is the 32-bit two's-complement integer: values are `Int`s in
`[-2^31, 2^31)` and the results of `+`, `-`, `*`, `<<` are reduced with `wrap32`.  The
division of `INT_MIN` by `-1` does not return; `FoldBinaryRun` is `FoldBinary` with that
outcome.
-/

namespace Bifang

/-! ## Arena helpers -/

/-- Apply `f` to the element at index `i` (nothing happens when `i` is out of range). -/
def updAt {α : Type} (f : α → α) : List α → Nat → List α
  | [], _ => []
  | x :: xs, 0 => f x :: xs
  | x :: xs, n + 1 => x :: updAt f xs n

/-- Map over a list with the index of each element, counting from `n`. -/
def mapFrom {α : Type} (f : Nat → α → α) : Nat → List α → List α
  | _, [] => []
  | n, x :: xs => f n x :: mapFrom f (n + 1) xs

/-! ## 32-bit machine integers -/

/-- Reduce an integer to the 32-bit two's-complement range `[-2^31, 2^31)`. -/
def wrap32 (x : Int) : Int := (x + 2147483648) % 4294967296 - 2147483648

/-- The unsigned 32-bit pattern of a (signed) integer. -/
def toU32 (x : Int) : Nat := (x % 4294967296).toNat

/-- Membership in the range of a C++ `int`. -/
def In32 (x : Int) : Prop := -2147483648 ≤ x ∧ x < 2147483648

instance (x : Int) : Decidable (In32 x) := by unfold In32; infer_instance

/-- C++ `lhs & rhs` on `int`: bitwise and of the two 32-bit patterns. -/
def and32 (a b : Int) : Int := wrap32 (Int.ofNat (Nat.land (toU32 a) (toU32 b)))

/-- C++ `lhs | rhs` on `int`: bitwise or of the two 32-bit patterns. -/
def or32 (a b : Int) : Int := wrap32 (Int.ofNat (Nat.lor (toU32 a) (toU32 b)))

/-! ## Data model -/

/-- The variants of a `ValueRef` (`ref->type` and the payload of the constant classes).
A float constant is kept as sign and magnitude of its IEEE encoding. -/
inductive ValKind where
  | Named
  | IntConst (value : Int)
  | BoolConst (value : Bool)
  | FloatConst (negative : Bool) (magnitude : Nat)
  deriving DecidableEq, Repr

/-- A value: its variant and its use list (the instructions reading it). -/
structure ValueRef where
  kind : ValKind
  use : List Nat
  deriving DecidableEq, Repr

instance : Inhabited ValueRef := ⟨⟨ValKind.Named, []⟩⟩

/-- The operator tags (`instr->opTy`) named in the source; `OTHER` stands for every
tag the source does not name (they all take the `default:` branch). -/
inductive OpTy where
  | ADD | SUB | MUL | DIV | MOD | AND | OR
  | EQ | NE | LT | LE | GT | GE
  | OTHER
  deriving DecidableEq, Repr

/-- The instruction classes the optimizer dispatches on (`instr->instType`) with the
operand fields the source reads; `OTHER` is any other instruction (load, store, call,
return, ...) with its operand values. -/
inductive InstKind where
  | BINARY (opTy : OpTy) (src1 src2 dst : Nat)
  | CMP (opTy : OpTy) (src1 src2 : Nat)
  | ZEXT (src : Nat)
  | XOR (src : Nat)
  | FNEG (src : Nat)
  | SLL (src1 bits : Nat)
  | SRA (src1 bits : Nat)
  | CONDBR (condition trueLabel falseLabel : Nat)
  | BR (target : Nat)
  | OTHER (operands : List Nat)
  deriving DecidableEq, Repr

/-- An instruction: class and operands, defined values, owning block, tombstone flag. -/
structure Instruction where
  kind : InstKind
  def_list : List Nat
  block : Nat
  deleted : Bool
  deriving DecidableEq, Repr

instance : Inhabited Instruction := ⟨⟨InstKind.OTHER [], [], 0, false⟩⟩

/-- A basic block: instruction sequence, successor set and predecessor set. -/
structure BasicBlock where
  local_instr : List Nat
  succ : List Nat
  pred : List Nat
  deriving DecidableEq, Repr

instance : Inhabited BasicBlock := ⟨⟨[], [], []⟩⟩

/-- A function: optional entry block and block sequence. -/
structure Function where
  entry : Option Nat
  block_list : List Nat
  deriving DecidableEq, Repr

/-- A global symbol: array or scalar (`symbolType->type`), store sites (`def`),
load sites (`use`) and the constant value. -/
structure Symbol where
  isArrayType : Bool
  defs : List Nat
  use : List Nat
  constVal : Nat
  deriving DecidableEq, Repr

/-- The program graph: the three arenas, the function table and the global symbol
table (both tables in iteration order). -/
structure GlobalUnit where
  vals : List ValueRef
  instrs : List Instruction
  blocks : List BasicBlock
  func_table : List Function
  global_symbol_table : List Symbol
  deriving DecidableEq, Repr

/-- Dereference a value pointer. -/
def getVal (s : GlobalUnit) (v : Nat) : ValueRef := s.vals.getD v default

/-- Dereference an instruction pointer. -/
def getInstr (s : GlobalUnit) (i : Nat) : Instruction := s.instrs.getD i default

/-- Dereference a block pointer. -/
def getBlock (s : GlobalUnit) (b : Nat) : BasicBlock := s.blocks.getD b default

/-- The values an instruction reads (its result `dst` is not among them). -/
def operands : InstKind → List Nat
  | .BINARY _ src1 src2 _ => [src1, src2]
  | .CMP _ src1 src2 => [src1, src2]
  | .ZEXT src => [src]
  | .XOR src => [src]
  | .FNEG src => [src]
  | .SLL src1 bits => [src1, bits]
  | .SRA src1 bits => [src1, bits]
  | .CONDBR condition _ _ => [condition]
  | .BR _ => []
  | .OTHER ops => ops

/-- Substitute `new` for `old` in one operand slot. -/
def subst (old new v : Nat) : Nat := if v = old then new else v

/-- Substitute `new` for `old` in every operand slot of an instruction. -/
def replaceOperand (old new : Nat) : InstKind → InstKind
  | .BINARY op src1 src2 dst => .BINARY op (subst old new src1) (subst old new src2) dst
  | .CMP op src1 src2 => .CMP op (subst old new src1) (subst old new src2)
  | .ZEXT src => .ZEXT (subst old new src)
  | .XOR src => .XOR (subst old new src)
  | .FNEG src => .FNEG (subst old new src)
  | .SLL src1 bits => .SLL (subst old new src1) (subst old new bits)
  | .SRA src1 bits => .SRA (subst old new src1) (subst old new bits)
  | .CONDBR c t f => .CONDBR (subst old new c) t f
  | .BR t => .BR t
  | .OTHER ops => .OTHER (ops.map (subst old new))

/-! ## Helpers of `Pass/OptUtils.h` -/

/-- Insert an instruction into a use list, which is a set. -/
def insertUse (l : List Nat) (u : Nat) : List Nat := if u ∈ l then l else l ++ [u]

/-- Modelled from the spec: `replaceAllUsesOf` of `Pass/OptUtils.h`, whose body is not
in the sources.  "Replaces every use of the instruction's result" by the new value:
every instruction of the old value's use list gets the new value in each operand slot
that held the old one, and the users move from the old value's use list to the new
value's ("must atomically update both value's use lists"). -/
def replaceAllUsesOf (s : GlobalUnit) (old new : Nat) : GlobalUnit :=
  let users := (getVal s old).use
  let instrs1 := mapFrom (fun idx ins =>
    if idx ∈ users then { ins with kind := replaceOperand old new ins.kind } else ins) 0 s.instrs
  let vals1 := updAt (fun v => { v with use := users.foldl insertUse v.use }) s.vals new
  let vals2 := updAt (fun v => { v with use := [] }) vals1 old
  { s with instrs := instrs1, vals := vals2 }

/-- Modelled from the spec: `DeleteInstruction` of `Pass/OptUtils.h`, whose body is not
in the sources.  The instruction is removed from the use list of each of its operands
and its tombstone flag is set ("logically removed pending compaction"); the sweep of
`ScalarOpt` takes it out of the block's sequence. -/
def DeleteInstruction (s : GlobalUnit) (i : Nat) : GlobalUnit :=
  let ops := operands (getInstr s i).kind
  let vals1 := mapFrom (fun idx v =>
    if idx ∈ ops then { v with use := v.use.filter (fun u => u ≠ i) } else v) 0 s.vals
  let instrs1 := updAt (fun ins => { ins with deleted := true }) s.instrs i
  { s with vals := vals1, instrs := instrs1 }

/-- Modelled from the spec: `UnlinkBlock` of `Pass/OptUtils.h`, whose body is not in
the sources.  Detaches the edge `b → d` "from the CFG (update both endpoints' relation
sets)": `d` leaves the successor set of `b` and `b` leaves the predecessor set of `d`. -/
def UnlinkBlock (s : GlobalUnit) (b d : Nat) : GlobalUnit :=
  let blocks1 := updAt (fun blk => { blk with succ := blk.succ.filter (fun x => x ≠ d) }) s.blocks b
  let blocks2 := updAt (fun blk => { blk with pred := blk.pred.filter (fun x => x ≠ b) }) blocks1 d
  { s with blocks := blocks2 }

/-- Modelled from the spec: `ReplaceInstr` of `Pass/OptUtils.h`, whose body is not in
the sources.  The new instruction takes the place of the old one in the instruction
sequence of the block the old one belongs to. -/
def ReplaceInstr (s : GlobalUnit) (old new : Nat) : GlobalUnit :=
  let b := (getInstr s old).block
  let blocks1 := updAt (fun blk =>
    { blk with local_instr := blk.local_instr.map (fun x => if x = old then new else x) })
    s.blocks b
  { s with blocks := blocks1 }

/-- Modelled from the spec: `DelBlock` of `Pass/OptUtils.h`, whose body is not in the
sources.  The block's "edges are unlinked from every predecessor's and successor's
relation sets, its instructions are detached (their operand uses are removed from the
corresponding values' use lists), and it is removed from the function's block
sequence". -/
def DelBlock (s : GlobalUnit) (b : Nat) : GlobalUnit :=
  let blk := getBlock s b
  let blocks1 := mapFrom (fun idx x =>
    { x with succ := (if idx ∈ blk.pred then x.succ.filter (fun y => y ≠ b) else x.succ)
             pred := (if idx ∈ blk.succ then x.pred.filter (fun y => y ≠ b) else x.pred) })
    0 s.blocks
  let vals1 := mapFrom (fun idx v =>
    { v with use := v.use.filter (fun u =>
        !(decide (u ∈ blk.local_instr) && decide (idx ∈ operands (getInstr s u).kind))) })
    0 s.vals
  let funcs1 := s.func_table.map (fun f =>
    { f with block_list := f.block_list.filter (fun x => x ≠ b) })
  { s with blocks := blocks1, vals := vals1, func_table := funcs1 }

/-! ## Constant inspection and construction (anonymous namespace of the source) -/

/-- Function `IsIntConst`: the pointer is non-null and designates an integer constant. -/
def IsIntConst (s : GlobalUnit) (ref : Nat) : Bool :=
  match (getVal s ref).kind with
  | .IntConst _ => true
  | _ => false

/-- Function `IsBoolConst`: the pointer is non-null and designates a boolean constant. -/
def IsBoolConst (s : GlobalUnit) (ref : Nat) : Bool :=
  match (getVal s ref).kind with
  | .BoolConst _ => true
  | _ => false

/-- Function `GetIntConst`: the payload of an integer constant (the source only calls it on
one; the cast of anything else is undefined and reads as 0 here). -/
def GetIntConst (s : GlobalUnit) (ref : Nat) : Int :=
  match (getVal s ref).kind with
  | .IntConst v => v
  | _ => 0

/-- Function `GetBoolConst`: the payload of a boolean constant. -/
def GetBoolConst (s : GlobalUnit) (ref : Nat) : Bool :=
  match (getVal s ref).kind with
  | .BoolConst b => b
  | _ => false

/-- Function `MakeIntConst`: a new integer constant object, not yet used by anything. -/
def MakeIntConst (value : Int) : ValueRef := ⟨.IntConst value, []⟩

/-- Function `MakeBoolConst`: a new boolean constant object, not yet used by anything. -/
def MakeBoolConst (value : Bool) : ValueRef := ⟨.BoolConst value, []⟩

/-- Function `IsConstValue`: integer or boolean constant. -/
def IsConstValue (s : GlobalUnit) (ref : Nat) : Bool := IsIntConst s ref || IsBoolConst s ref

/-- Function `GetConstAsBool`: a boolean constant as it is, an integer constant as `!= 0`. -/
def GetConstAsBool (s : GlobalUnit) (ref : Nat) : Bool :=
  if IsBoolConst s ref then GetBoolConst s ref else decide (GetIntConst s ref ≠ 0)

/-! ## Folding rules -/

/-- Function `FoldBinary`: the folded constant of a binary instruction, or no fold (`nullptr`),
when the call returns.  `lhs / rhs` and `lhs % rhs` are the C++ operators (truncation
toward zero).  On `INT_MIN / -1` and `INT_MIN % -1` the operators of the source are
undefined and the call does not return (`FoldBinaryRun` below); the value given here
for that pair, the quotient and remainder reduced to 32 bits, is one the source never
produces. -/
def FoldBinary (s : GlobalUnit) (instr : Nat) : Option ValueRef :=
  match (getInstr s instr).kind with
  | .BINARY opTy src1 src2 _ =>
    if !IsIntConst s src1 || !IsIntConst s src2 then none
    else
      let lhs := GetIntConst s src1
      let rhs := GetIntConst s src2
      match opTy with
      | .ADD => some (MakeIntConst (wrap32 (lhs + rhs)))
      | .SUB => some (MakeIntConst (wrap32 (lhs - rhs)))
      | .MUL => some (MakeIntConst (wrap32 (lhs * rhs)))
      | .DIV => if rhs = 0 then none else some (MakeIntConst (wrap32 (Int.tdiv lhs rhs)))
      | .MOD => if rhs = 0 then none else some (MakeIntConst (wrap32 (Int.tmod lhs rhs)))
      | .AND => some (MakeIntConst (and32 lhs rhs))
      | .OR => some (MakeIntConst (or32 lhs rhs))
      | _ => none
  | _ => none

/-- What a call comes to when its arithmetic may be undefined: the process is killed,
or the call returns a value. -/
inductive Outcome (α : Type) where
  | killed
  | returned (value : α)
  deriving DecidableEq, Repr

/-- The C++ expression `lhs / rhs` on `int` for `rhs ≠ 0`: the quotient truncated toward
zero when an `int` holds it.  The quotient of `INT_MIN` by `-1` is `2^31`; the behaviour
is undefined and the division instruction traps. -/
def intDiv (lhs rhs : Int) : Outcome Int :=
  if In32 (Int.tdiv lhs rhs) then .returned (Int.tdiv lhs rhs) else .killed

/-- The C++ expression `lhs % rhs` on `int` for `rhs ≠ 0`: the remainder of the truncated
division; undefined where `lhs / rhs` is, and computed by the same instruction. -/
def intMod (lhs rhs : Int) : Outcome Int :=
  if In32 (Int.tdiv lhs rhs) then .returned (Int.tmod lhs rhs) else .killed

/-- Function `FoldBinary` with the outcome of the call: the same tests in the same order,
and `lhs / rhs`, `lhs % rhs` as the source evaluates them. -/
def FoldBinaryRun (s : GlobalUnit) (instr : Nat) : Outcome (Option ValueRef) :=
  match (getInstr s instr).kind with
  | .BINARY opTy src1 src2 _ =>
    if !IsIntConst s src1 || !IsIntConst s src2 then .returned none
    else
      let lhs := GetIntConst s src1
      let rhs := GetIntConst s src2
      match opTy with
      | .ADD => .returned (some (MakeIntConst (wrap32 (lhs + rhs))))
      | .SUB => .returned (some (MakeIntConst (wrap32 (lhs - rhs))))
      | .MUL => .returned (some (MakeIntConst (wrap32 (lhs * rhs))))
      | .DIV =>
        if rhs = 0 then .returned none
        else
          match intDiv lhs rhs with
          | .killed => .killed
          | .returned q => .returned (some (MakeIntConst q))
      | .MOD =>
        if rhs = 0 then .returned none
        else
          match intMod lhs rhs with
          | .killed => .killed
          | .returned r => .returned (some (MakeIntConst r))
      | .AND => .returned (some (MakeIntConst (and32 lhs rhs)))
      | .OR => .returned (some (MakeIntConst (or32 lhs rhs)))
      | _ => .returned none
  | _ => .returned none

/-- The operand of `FoldCmp` as an `int`: a boolean constant is cast to 0 or 1. -/
def cmpOperand (s : GlobalUnit) (ref : Nat) : Int :=
  if IsBoolConst s ref then (if GetBoolConst s ref then 1 else 0) else GetIntConst s ref

/-- Function `FoldCmp`: the folded boolean constant of a comparison, or no fold. -/
def FoldCmp (s : GlobalUnit) (instr : Nat) : Option ValueRef :=
  match (getInstr s instr).kind with
  | .CMP opTy src1 src2 =>
    if !IsConstValue s src1 || !IsConstValue s src2 then none
    else
      let lhs := cmpOperand s src1
      let rhs := cmpOperand s src2
      match opTy with
      | .EQ => some (MakeBoolConst (decide (lhs = rhs)))
      | .NE => some (MakeBoolConst (decide (lhs ≠ rhs)))
      | .LT => some (MakeBoolConst (decide (lhs < rhs)))
      | .LE => some (MakeBoolConst (decide (lhs ≤ rhs)))
      | .GT => some (MakeBoolConst (decide (lhs > rhs)))
      | .GE => some (MakeBoolConst (decide (lhs ≥ rhs)))
      | _ => none
  | _ => none

/-- Function `FoldZExt`: a boolean constant extends to the integer constant 1 or 0. -/
def FoldZExt (s : GlobalUnit) (instr : Nat) : Option ValueRef :=
  match (getInstr s instr).kind with
  | .ZEXT src =>
    if !IsBoolConst s src then none
    else some (MakeIntConst (if GetBoolConst s src then 1 else 0))
  | _ => none

/-- Function `FoldXor`: the negation of a boolean constant. -/
def FoldXor (s : GlobalUnit) (instr : Nat) : Option ValueRef :=
  match (getInstr s instr).kind with
  | .XOR src =>
    if !IsBoolConst s src then none
    else some (MakeBoolConst (!GetBoolConst s src))
  | _ => none

/-- Function `FoldFNeg`: the negation of a float constant (the sign of the encoding flips). -/
def FoldFNeg (s : GlobalUnit) (instr : Nat) : Option ValueRef :=
  match (getInstr s instr).kind with
  | .FNEG src =>
    match (getVal s src).kind with
    | .FloatConst neg mag => some ⟨.FloatConst (!neg) mag, []⟩
    | _ => none
  | _ => none

/-- Function `FoldSll`: shift left by the low 5 bits of the amount, reduced to 32 bits. -/
def FoldSll (s : GlobalUnit) (instr : Nat) : Option ValueRef :=
  match (getInstr s instr).kind with
  | .SLL src1 bits =>
    if !IsIntConst s src1 || !IsIntConst s bits then none
    else
      let n := and32 (GetIntConst s bits) 31
      some (MakeIntConst (wrap32 (GetIntConst s src1 * 2 ^ n.toNat)))
  | _ => none

/-- Function `FoldSra`: arithmetic shift right by the low 5 bits of the amount. -/
def FoldSra (s : GlobalUnit) (instr : Nat) : Option ValueRef :=
  match (getInstr s instr).kind with
  | .SRA src1 bits =>
    if !IsIntConst s src1 || !IsIntConst s bits then none
    else
      let n := and32 (GetIntConst s bits) 31
      some (MakeIntConst (Int.shiftRight (GetIntConst s src1) n.toNat))
  | _ => none

/-! ## Rewriting rules -/

/-- Enter a newly made value object into the graph; its pointer is the next free
index of the value arena. -/
def addValue (s : GlobalUnit) (v : ValueRef) : GlobalUnit := { s with vals := s.vals ++ [v] }

/-- Enter a newly made instruction object into the graph. -/
def addInstr (s : GlobalUnit) (i : Instruction) : GlobalUnit :=
  { s with instrs := s.instrs ++ [i] }

/-- Function `ReplaceWithConst`: nothing at all when the instruction defines no value; otherwise
the uses of its first defined value go to the replacement and it is deleted.  The
replacement object enters the graph here, when something first refers to it. -/
def ReplaceWithConst (s : GlobalUnit) (instr : Nat) (replacement : ValueRef) : GlobalUnit :=
  match (getInstr s instr).def_list with
  | [] => s
  | d :: _ =>
    DeleteInstruction (replaceAllUsesOf (addValue s replacement) d s.vals.length) instr

/-- The identity rewrite used by `SimplifyBinary`: `replaceAllUsesOf(instr->dst, keep);
DeleteInstruction(instr);`. -/
def replaceByOperand (s : GlobalUnit) (instr dst keep : Nat) : GlobalUnit :=
  DeleteInstruction (replaceAllUsesOf s dst keep) instr

/-- Function `SimplifyBinary`: the new graph and whether the rule reports a change. -/
def SimplifyBinary (s : GlobalUnit) (instr : Nat) : GlobalUnit × Bool :=
  match (getInstr s instr).kind with
  | .BINARY opTy src1 src2 dst =>
    if IsIntConst s src1 && IsIntConst s src2 then
      match FoldBinary s instr with
      | none => (s, false)
      | some folded => (ReplaceWithConst s instr folded, true)
    else if opTy = .ADD then
      if IsIntConst s src1 && decide (GetIntConst s src1 = 0) then
        (replaceByOperand s instr dst src2, true)
      else if IsIntConst s src2 && decide (GetIntConst s src2 = 0) then
        (replaceByOperand s instr dst src1, true)
      else (s, false)
    else if opTy = .SUB then
      if IsIntConst s src2 && decide (GetIntConst s src2 = 0) then
        (replaceByOperand s instr dst src1, true)
      else (s, false)
    else if opTy = .MUL then
      if IsIntConst s src1 && decide (GetIntConst s src1 = 0) then
        (ReplaceWithConst s instr (MakeIntConst 0), true)
      else if IsIntConst s src1 && decide (GetIntConst s src1 = 1) then
        (replaceByOperand s instr dst src2, true)
      else if IsIntConst s src2 && decide (GetIntConst s src2 = 0) then
        (ReplaceWithConst s instr (MakeIntConst 0), true)
      else if IsIntConst s src2 && decide (GetIntConst s src2 = 1) then
        (replaceByOperand s instr dst src1, true)
      else (s, false)
    else if opTy = .AND then
      if IsIntConst s src1 && decide (GetIntConst s src1 = 0) then
        (ReplaceWithConst s instr (MakeIntConst 0), true)
      else if IsIntConst s src2 && decide (GetIntConst s src2 = 0) then
        (ReplaceWithConst s instr (MakeIntConst 0), true)
      else (s, false)
    else if opTy = .OR then
      if IsIntConst s src1 && decide (GetIntConst s src1 = 0) then
        (replaceByOperand s instr dst src2, true)
      else if IsIntConst s src2 && decide (GetIntConst s src2 = 0) then
        (replaceByOperand s instr dst src1, true)
      else (s, false)
    else (s, false)
  | _ => (s, false)

/-- The common shape of `SimplifyCmp`, `SimplifyZExt`, `SimplifyXor`, `SimplifyFNeg`,
`SimplifySll` and `SimplifySra`: no fold is no match, a fold goes to
`ReplaceWithConst` and reports a change. -/
def simplifyWith (folded : Option ValueRef) (s : GlobalUnit) (instr : Nat) : GlobalUnit × Bool :=
  match folded with
  | none => (s, false)
  | some v => (ReplaceWithConst s instr v, true)

/-- Function `SimplifyCmp`. -/
def SimplifyCmp (s : GlobalUnit) (instr : Nat) : GlobalUnit × Bool :=
  simplifyWith (FoldCmp s instr) s instr

/-- Function `SimplifyZExt`. -/
def SimplifyZExt (s : GlobalUnit) (instr : Nat) : GlobalUnit × Bool :=
  simplifyWith (FoldZExt s instr) s instr

/-- Function `SimplifyXor`. -/
def SimplifyXor (s : GlobalUnit) (instr : Nat) : GlobalUnit × Bool :=
  simplifyWith (FoldXor s instr) s instr

/-- Function `SimplifyFNeg`. -/
def SimplifyFNeg (s : GlobalUnit) (instr : Nat) : GlobalUnit × Bool :=
  simplifyWith (FoldFNeg s instr) s instr

/-- Function `SimplifySll`. -/
def SimplifySll (s : GlobalUnit) (instr : Nat) : GlobalUnit × Bool :=
  simplifyWith (FoldSll s instr) s instr

/-- Function `SimplifySra`. -/
def SimplifySra (s : GlobalUnit) (instr : Nat) : GlobalUnit × Bool :=
  simplifyWith (FoldSra s instr) s instr

/-- Function `SimplifyCondBr`: a constant condition selects the target; the edge to the other
label is unlinked and a new `BrInstruction` of the same block replaces the branch. -/
def SimplifyCondBr (s : GlobalUnit) (instr : Nat) : GlobalUnit × Bool :=
  match (getInstr s instr).kind with
  | .CONDBR condition trueLabel falseLabel =>
    if !IsConstValue s condition then (s, false)
    else
      let taken := GetConstAsBool s condition
      let target := if taken then trueLabel else falseLabel
      let drop := if taken then falseLabel else trueLabel
      let blk := (getInstr s instr).block
      let s1 := UnlinkBlock s blk drop
      let br : Instruction := ⟨.BR target, [], blk, false⟩
      (ReplaceInstr (addInstr s1 br) instr s1.instrs.length, true)
  | _ => (s, false)

/-! ## The stages of `IROptimizer`

The loops of the source that may run forever (the breadth-first search, the scan of a
block, the repetition of sweeps) take a bound on the number of iterations of each loop;
`none` means the bound was reached.  `Constlize` has no such loop: its `none` is the
dereference of `load->def_list.begin()` on an instruction without a defined value. -/

instance : Inhabited Function := ⟨⟨none, []⟩⟩

/-- Dereference an entry of the function table. -/
def getFunc (s : GlobalUnit) (k : Nat) : Function := s.func_table.getD k default

/-- The breadth-first search of `BuildCFG`: the queue `q` and the visited set `vis`. -/
def bfs : Nat → GlobalUnit → List Nat → List Nat → Option (List Nat)
  | _, _, [], vis => some vis
  | 0, _, _ :: _, _ => none
  | fuel + 1, s, block :: q, vis =>
    if block ∈ vis then bfs fuel s q vis
    else bfs fuel s (q ++ (getBlock s block).succ) (block :: vis)

/-- The body of the loop of `BuildCFG` for the function at index `k`. -/
def pruneFunc (fuel : Nat) (s : GlobalUnit) (k : Nat) : Option GlobalUnit :=
  match (getFunc s k).entry with
  | none => some s
  | some entry =>
    match bfs fuel s [entry] [] with
    | none => none
    | some vis =>
      let not_visited := (getFunc s k).block_list.filter (fun it => decide (it ∉ vis))
      some (not_visited.foldl DelBlock s)

/-- The loop of `BuildCFG` over the function table. -/
def pruneFuncs (fuel : Nat) : GlobalUnit → List Nat → Option GlobalUnit
  | s, [] => some s
  | s, k :: ks =>
    match pruneFunc fuel s k with
    | none => none
    | some s1 => pruneFuncs fuel s1 ks

/-- Function `IROptimizer::BuildCFG`. -/
def BuildCFG (fuel : Nat) (s : GlobalUnit) : Option GlobalUnit :=
  pruneFuncs fuel s (List.range s.func_table.length)

/-- The inner loop of `Constlize` over the loads of one symbol. -/
def constlizeLoads : GlobalUnit → Nat → List Nat → Option GlobalUnit
  | s, _, [] => some s
  | s, constVal, load :: rest =>
    match (getInstr s load).def_list with
    | [] => none
    | val :: _ => constlizeLoads (replaceAllUsesOf s val constVal) constVal rest

/-- The guard of `Constlize`: a scalar symbol without stores. -/
def isConstSymbol (symbol : Symbol) : Bool := !symbol.isArrayType && symbol.defs.isEmpty

/-- The outer loop of `Constlize` over the global symbol table. -/
def constlizeSymbols : GlobalUnit → List Symbol → Option GlobalUnit
  | s, [] => some s
  | s, symbol :: rest =>
    if isConstSymbol symbol then
      match constlizeLoads s symbol.constVal symbol.use with
      | none => none
      | some s1 => constlizeSymbols s1 rest
    else constlizeSymbols s rest

/-- Function `IROptimizer::Constlize`. -/
def Constlize (s : GlobalUnit) : Option GlobalUnit :=
  constlizeSymbols s s.global_symbol_table

/-- The `switch (instr->instType)` of `ScalarOpt`. -/
def simplifyInstr (s : GlobalUnit) (instr : Nat) : GlobalUnit × Bool :=
  match (getInstr s instr).kind with
  | .BINARY _ _ _ _ => SimplifyBinary s instr
  | .CMP _ _ _ => SimplifyCmp s instr
  | .ZEXT _ => SimplifyZExt s instr
  | .XOR _ => SimplifyXor s instr
  | .FNEG _ => SimplifyFNeg s instr
  | .SLL _ _ => SimplifySll s instr
  | .SRA _ _ => SimplifySra s instr
  | .CONDBR _ _ _ => SimplifyCondBr s instr
  | _ => (s, false)

/-- The call `instrs.erase(it)`: take the instruction at position `pos` out of the sequence of
block `b`. -/
def eraseInstrAt (s : GlobalUnit) (b pos : Nat) : GlobalUnit :=
  let blocks1 := updAt (fun blk => { blk with local_instr := blk.local_instr.eraseIdx pos })
    s.blocks b
  { s with blocks := blocks1 }

/-- The scan of the instruction sequence of block `b` in `ScalarOpt`, with the iterator
at position `pos` and the function-wide flag `changed`. -/
def scanBlock : Nat → GlobalUnit → Nat → Nat → Bool → Option (GlobalUnit × Bool)
  | 0, _, _, _, _ => none
  | fuel + 1, s, b, pos, changed =>
    match (getBlock s b).local_instr[pos]? with
    | none => some (s, changed)
    | some instr =>
      if (getInstr s instr).deleted then scanBlock fuel (eraseInstrAt s b pos) b pos changed
      else
        let r := simplifyInstr s instr
        if r.2 then scanBlock fuel r.1 b 0 true
        else scanBlock fuel r.1 b (pos + 1) changed

/-- One sweep of `ScalarOpt` over the blocks of a function. -/
def sweepBlocks (fuel : Nat) : GlobalUnit → List Nat → Bool → Option (GlobalUnit × Bool)
  | s, [], changed => some (s, changed)
  | s, b :: bs, changed =>
    match scanBlock fuel s b 0 changed with
    | none => none
    | some r => sweepBlocks fuel r.1 bs r.2

/-- The `while (changed)` loop of `ScalarOpt` for the function at index `k`; `n` bounds
the number of sweeps, `fuel` the length of each scan. -/
def sweepLoop (fuel : Nat) : Nat → GlobalUnit → Nat → Option GlobalUnit
  | 0, _, _ => none
  | n + 1, s, k =>
    match sweepBlocks fuel s (getFunc s k).block_list false with
    | none => none
    | some r => if r.2 then sweepLoop fuel n r.1 k else some r.1

/-- The loop of `ScalarOpt` over the function table. -/
def optFuncs (fuel : Nat) : GlobalUnit → List Nat → Option GlobalUnit
  | s, [] => some s
  | s, k :: ks =>
    match (getFunc s k).entry with
    | none => optFuncs fuel s ks
    | some _ =>
      match sweepLoop fuel fuel s k with
      | none => none
      | some s1 => optFuncs fuel s1 ks

/-- Function `IROptimizer::ScalarOpt`. -/
def ScalarOpt (fuel : Nat) (s : GlobalUnit) : Option GlobalUnit :=
  optFuncs fuel s (List.range s.func_table.length)

/-- Function `IROptimizer::Optimize`, up to the hand-over to the dominator-tree, liveness and
mem2reg passes, which are not part of this development. -/
def Optimize (fuel : Nat) (s : GlobalUnit) : Option GlobalUnit :=
  match BuildCFG fuel s with
  | none => none
  | some s1 =>
    match Constlize s1 with
    | none => none
    | some s2 => ScalarOpt fuel s2

/-- Reachability from block `e` by following successor edges. -/
inductive Reach (s : GlobalUnit) (e : Nat) : Nat → Prop where
  | refl : Reach s e e
  | step {u v : Nat} : Reach s e u → v ∈ (getBlock s u).succ → Reach s e v

/-! ## Measures and well-formedness conditions used in the statements -/

/-- The number of successor entries held by the blocks not in `vis`: what the
breadth-first search may still push on its queue. -/
def pendingEdges (s : GlobalUnit) (vis : List Nat) : Nat :=
  (((List.range s.blocks.length).filter (fun b => decide (b ∉ vis))).map
    (fun b => (getBlock s b).succ.length)).sum

/-- A number of iterations that is enough for every search of `BuildCFG`: each
successor entry is pushed at most once, after the entry block. -/
def searchBound (s : GlobalUnit) : Nat := pendingEdges s [] + 2

/-- Ownership of blocks as the data model states it: the entry block of a function is
in the function's block sequence, the successors of a block of the sequence are in the
sequence ("relations to other blocks in the same function"), and no block is in the
sequences of two functions. -/
def BlocksOwned (s : GlobalUnit) : Prop :=
  (∀ k, k < s.func_table.length → ∀ e, (getFunc s k).entry = some e →
    e ∈ (getFunc s k).block_list ∧
    ∀ b ∈ (getFunc s k).block_list, ∀ y ∈ (getBlock s b).succ, y ∈ (getFunc s k).block_list) ∧
  (∀ k, k < s.func_table.length → ∀ j, j < s.func_table.length →
    ∀ b ∈ (getFunc s k).block_list, b ∈ (getFunc s j).block_list → k = j)

instance (s : GlobalUnit) : Decidable (BlocksOwned s) := by
  unfold BlocksOwned; infer_instance

/-- Every block reachable from the entry of a function is in the function's block
sequence, and no block is in two block sequences. -/
def ReachOwned (s : GlobalUnit) : Prop :=
  (∀ k e, (getFunc s k).entry = some e → ∀ u, Reach s e u → u ∈ (getFunc s k).block_list) ∧
  (∀ k j b, b ∈ (getFunc s k).block_list → b ∈ (getFunc s j).block_list → k = j)

/-- The reachability invariant for the function at index `k`: every block of its block
sequence is reachable from its entry. -/
def Pruned (s : GlobalUnit) (k : Nat) : Prop :=
  ∀ e, (getFunc s k).entry = some e → ∀ b ∈ (getFunc s k).block_list, Reach s e b

/-- The value a load defines: `*(load->def_list.begin())`, when there is one. -/
def loadValue (s : GlobalUnit) (load : Nat) : Option Nat := (getInstr s load).def_list.head?

/-- The substitutions `Constlize` makes for the loads of one symbol, in order: the
result value of each load and the constant that replaces it. -/
def loadPairs (s : GlobalUnit) (constVal : Nat) (loads : List Nat) : List (Nat × Nat) :=
  loads.filterMap (fun load => (loadValue s load).map (fun v => (v, constVal)))

/-- The substitutions `Constlize` makes for a list of symbols, in order. -/
def symbolPairs (s : GlobalUnit) : List Symbol → List (Nat × Nat)
  | [] => []
  | symbol :: rest =>
    (if isConstSymbol symbol then loadPairs s symbol.constVal symbol.use else []) ++
      symbolPairs s rest

/-- A list of substitutions carried out one after the other. -/
def applyPairs (s : GlobalUnit) (ps : List (Nat × Nat)) : GlobalUnit :=
  ps.foldl (fun st p => replaceAllUsesOf st p.1 p.2) s

/-- What `Constlize` relies on for the scalar symbols without stores: every load in
the use set defines a value, which is a named value; the constant value of the symbol
is a constant; and two loads with the same result value are loads of symbols with the
same constant value (a value has one defining instruction, a load one symbol). -/
def LoadsWellFormed (s : GlobalUnit) : Prop :=
  (∀ g ∈ s.global_symbol_table, isConstSymbol g = true →
    (getVal s g.constVal).kind ≠ .Named ∧
    ∀ load ∈ g.use, (loadValue s load).isSome = true ∧
      ∀ v ∈ loadValue s load, (getVal s v).kind = .Named) ∧
  (∀ g ∈ s.global_symbol_table, isConstSymbol g = true →
    ∀ g' ∈ s.global_symbol_table, isConstSymbol g' = true →
      ∀ load ∈ g.use, ∀ load' ∈ g'.use,
        loadValue s load = loadValue s load' → g.constVal = g'.constVal)

instance (s : GlobalUnit) : Decidable (LoadsWellFormed s) := by
  unfold LoadsWellFormed; infer_instance

/-- The values an instruction defines: its defined-value list and, for a binary
instruction, its result field `dst`. -/
def defsOf (ins : Instruction) : List Nat :=
  match ins.kind with
  | .BINARY _ _ _ dst => dst :: ins.def_list
  | _ => ins.def_list

/-- Instruction `i` is in the instruction sequence of a block of function `k`. -/
def InFunc (s : GlobalUnit) (k i : Nat) : Prop :=
  ∃ b ∈ (getFunc s k).block_list, i ∈ (getBlock s b).local_instr

instance (s : GlobalUnit) (k i : Nat) : Decidable (InFunc s k i) := by
  unfold InFunc; infer_instance

/-- The sweep of `ScalarOpt` passes over instruction `i`: it is not tombstoned and its
rule reports no match. -/
def NoMatch (s : GlobalUnit) (i : Nat) : Prop :=
  (getInstr s i).deleted = false ∧ (simplifyInstr s i).2 = false

/-- Function `k` is at its fixed point: a scan of `fuel` iterations gets through each
of its blocks and passes over every instruction. -/
def Settled (fuel : Nat) (s : GlobalUnit) (k : Nat) : Prop :=
  ∀ b ∈ (getFunc s k).block_list,
    (getBlock s b).local_instr.length < fuel ∧ ∀ i ∈ (getBlock s b).local_instr, NoMatch s i

/-- Functions own their code, in the form the proofs maintain: no block is in two
block sequences; an instruction of a function exists, reads and defines values that
exist, and belongs to a block of the function; the recorded users of a value defined
in a function exist and are not instructions of another function; no instruction reads
a value defined in another function. -/
def Separate (s : GlobalUnit) : Prop :=
  (∀ k k' b, b ∈ (getFunc s k).block_list → b ∈ (getFunc s k').block_list → k = k') ∧
  (∀ k i, InFunc s k i →
    i < s.instrs.length ∧ (∀ v ∈ operands (getInstr s i).kind, v < s.vals.length) ∧
    (∀ d ∈ defsOf (getInstr s i), d < s.vals.length) ∧
    (getInstr s i).block ∈ (getFunc s k).block_list) ∧
  (∀ k' i d u, InFunc s k' i → d ∈ defsOf (getInstr s i) → u ∈ (getVal s d).use →
    u < s.instrs.length ∧ ∀ k, InFunc s k u → k = k') ∧
  (∀ k k' i v i2, InFunc s k i → v ∈ operands (getInstr s i).kind → InFunc s k' i2 →
    v ∈ defsOf (getInstr s i2) → k = k')

/-- Functions own their code, as a condition that can be checked on a given graph:
`Separate` with the functions ranging over the function table and the instructions
over the instruction sequences of their blocks. -/
def FunctionsSeparate (s : GlobalUnit) : Prop :=
  (∀ k, k < s.func_table.length → ∀ k', k' < s.func_table.length →
    ∀ b ∈ (getFunc s k).block_list, b ∈ (getFunc s k').block_list → k = k') ∧
  (∀ k, k < s.func_table.length → ∀ b ∈ (getFunc s k).block_list,
    ∀ i ∈ (getBlock s b).local_instr,
      i < s.instrs.length ∧ (∀ v ∈ operands (getInstr s i).kind, v < s.vals.length) ∧
      (∀ d ∈ defsOf (getInstr s i), d < s.vals.length) ∧
      (getInstr s i).block ∈ (getFunc s k).block_list) ∧
  (∀ k', k' < s.func_table.length → ∀ b ∈ (getFunc s k').block_list,
    ∀ i ∈ (getBlock s b).local_instr, ∀ d ∈ defsOf (getInstr s i),
      ∀ u ∈ (getVal s d).use,
        u < s.instrs.length ∧ ∀ k, k < s.func_table.length → InFunc s k u → k = k') ∧
  (∀ k, k < s.func_table.length → ∀ k', k' < s.func_table.length →
    ∀ b ∈ (getFunc s k).block_list, ∀ i ∈ (getBlock s b).local_instr,
      ∀ v ∈ operands (getInstr s i).kind,
        ∀ b2 ∈ (getFunc s k').block_list, ∀ i2 ∈ (getBlock s b2).local_instr,
          v ∈ defsOf (getInstr s i2) → k = k')

set_option synthInstance.maxSize 1024 in
set_option synthInstance.maxHeartbeats 200000 in
instance (s : GlobalUnit) : Decidable (FunctionsSeparate s) := by
  unfold FunctionsSeparate
  refine @instDecidableAnd _ _ ?_ (@instDecidableAnd _ _ ?_ (@instDecidableAnd _ _ ?_ ?_)) <;>
    infer_instance

/-- The four shapes of the graph after a rule has run on an instruction. -/
def RuleShape (st : GlobalUnit) (i : Nat) (st' : GlobalUnit) : Prop :=
  st' = st ∨
  (∃ d nw, d ∈ defsOf (getInstr st i) ∧ nw ∈ operands (getInstr st i).kind ∧
    st' = replaceByOperand st i d nw) ∨
  (∃ d c, d ∈ defsOf (getInstr st i) ∧ c.use = [] ∧
    st' = replaceByOperand (addValue st c) i d st.vals.length) ∨
  (∃ target drop, st' = ReplaceInstr
    (addInstr (UnlinkBlock st (getInstr st i).block drop)
      ⟨.BR target, [], (getInstr st i).block, false⟩) i st.instrs.length)

/-- The graph `s'` is `s` with some instructions taken out of instruction sequences:
what a sweep does when no rule fires. -/
def EraseOnly (s s' : GlobalUnit) : Prop :=
  s'.instrs = s.instrs ∧ s'.vals = s.vals ∧ s'.func_table = s.func_table ∧
  ∀ x, (getBlock s' x).local_instr.Sublist (getBlock s x).local_instr

/-- The integer a constant operand of a comparison stands for, in the words of the
specification: an integer constant is itself, a boolean constant is "coerced to 0/1",
and anything else is not a constant operand. -/
def constAsInt : ValKind → Option Int
  | .IntConst v => some v
  | .BoolConst true => some 1
  | .BoolConst false => some 0
  | _ => none

/-- What a run of `BuildCFG` may change between `s` and `t`: instructions and entry
blocks stay, every block sequence is thinned without reordering, successor lists only
shrink, a block reachable from the entry of a function keeps its successor list and
its place in the sequence, and a function without entry block keeps its record and,
when the edges of its blocks stay inside the function, its blocks. -/
def PrunedFrom (s t : GlobalUnit) : Prop :=
  t.instrs = s.instrs ∧
  (∀ k, (getFunc t k).entry = (getFunc s k).entry) ∧
  (∀ k, (getFunc t k).block_list.Sublist (getFunc s k).block_list) ∧
  (∀ x y, y ∈ (getBlock t x).succ → y ∈ (getBlock s x).succ) ∧
  (∀ k e, (getFunc s k).entry = some e → ∀ u, Reach s e u →
    (getBlock t u).succ = (getBlock s u).succ ∧
    (u ∈ (getFunc s k).block_list → u ∈ (getFunc t k).block_list)) ∧
  (∀ k, (getFunc s k).entry = none → getFunc t k = getFunc s k ∧
    ∀ x ∈ (getFunc s k).block_list,
      (∀ y ∈ (getBlock s x).succ, y ∈ (getFunc s k).block_list) →
      (∀ y ∈ (getBlock s x).pred, y ∈ (getFunc s k).block_list) →
      getBlock t x = getBlock s x)

/-! ## The run-time meaning of a binary instruction

The evaluation the rewrites of `SimplifyBinary` are compared with: what a 32-bit
two's-complement machine computes, written on bit patterns and on sign and magnitude
rather than with the operators used in `FoldBinary`. -/

/-- The signed reading of an unsigned 32-bit pattern. -/
def fromU32 (p : Nat) : Int := if p < 2147483648 then (p : Int) else (p : Int) - 4294967296

/-- Evaluation of a binary operator on two register values in 32-bit two's-complement
arithmetic.  Addition, subtraction and multiplication are those of the unsigned patterns
modulo `2^32`; division and modulo work on the magnitudes, the quotient taking the
product of the signs and the remainder the sign of the dividend, and are undefined for
the divisor 0 (the quotient of `-2^31` by `-1` is the pattern `2^31`, read as `-2^31`);
and/or are bitwise on the patterns.  Other operators are not evaluated here. -/
def evalBinary (op : OpTy) (a b : Int) : Option Int :=
  match op with
  | .ADD => some (fromU32 ((toU32 a + toU32 b) % 4294967296))
  | .SUB => some (fromU32 ((toU32 a + (4294967296 - toU32 b)) % 4294967296))
  | .MUL => some (fromU32 ((toU32 a * toU32 b) % 4294967296))
  | .DIV =>
    if b = 0 then none
    else some (fromU32 (toU32 (a.sign * b.sign * ((a.natAbs / b.natAbs : Nat) : Int))))
  | .MOD =>
    if b = 0 then none
    else some (fromU32 (toU32 (a.sign * ((a.natAbs % b.natAbs : Nat) : Int))))
  | .AND => some (fromU32 (Nat.land (toU32 a) (toU32 b)))
  | .OR => some (fromU32 (Nat.lor (toU32 a) (toU32 b)))
  | _ => none

/-- The run-time value of an operand: the payload of an integer constant, and what the
environment `env` holds for anything else. -/
def valueOf (s : GlobalUnit) (env : Nat → Int) (v : Nat) : Int :=
  match (getVal s v).kind with
  | .IntConst c => c
  | _ => env v

/-- The loads of the other symbols are apart from what `Constlize` substitutes: the
result value of a load of an array or of a scalar with a store is not the result value
of a load of a scalar without stores, nor the constant value of such a scalar (a value
has one defining instruction, and a load reads one symbol). -/
def LoadsApart (s : GlobalUnit) : Prop :=
  ∀ g ∈ s.global_symbol_table, isConstSymbol g = false →
    ∀ load ∈ g.use, ∀ v ∈ loadValue s load,
      ∀ g' ∈ s.global_symbol_table, isConstSymbol g' = true →
        v ≠ g'.constVal ∧ ∀ load' ∈ g'.use, loadValue s load' ≠ some v

instance (s : GlobalUnit) : Decidable (LoadsApart s) := by
  unfold LoadsApart; infer_instance

/-- Def-use consistency: instruction `i` is in the use list of value `v` exactly when
`v` is among the operands of `i`, for all `v` and `i`. -/
def DefUse (s : GlobalUnit) : Prop :=
  ∀ v i, i ∈ (getVal s v).use ↔ v ∈ operands (getInstr s i).kind

/-- Def-use consistency as a condition that can be checked on a given graph: the users
recorded for each value of the arena read it, and each instruction of the arena is
recorded as a user of each of its operands. -/
def DefUseChecked (s : GlobalUnit) : Prop :=
  (∀ v, v < s.vals.length → ∀ i ∈ (getVal s v).use, v ∈ operands (getInstr s i).kind) ∧
  (∀ i, i < s.instrs.length → ∀ v ∈ operands (getInstr s i).kind, i ∈ (getVal s v).use)

instance (s : GlobalUnit) : Decidable (DefUseChecked s) := by
  unfold DefUseChecked; infer_instance

/-! ## The identity rules as the specification lists them -/

/-- What survives an identity rewrite: one of the operands or a fresh `int 0`. -/
inductive Survivor where
  | operand (v : Nat)
  | zero
  deriving DecidableEq, Repr

/-- The value is the integer constant `c`. -/
def isIntConstOf (s : GlobalUnit) (v : Nat) (c : Int) : Bool :=
  decide ((getVal s v).kind = .IntConst c)

/-- The identity and absorbing-element cases in the words of the specification:
`x+0 = 0+x = x`, `x-0 = x`, `x*0 = 0*x = 0`, `x*1 = 1*x = x`, `x AND 0 = 0 AND x = 0`,
`x OR 0 = 0 OR x = x`; nothing else is rewritten. -/
def identitySurvivor (s : GlobalUnit) (op : OpTy) (src1 src2 : Nat) : Option Survivor :=
  match op with
  | .ADD =>
    if isIntConstOf s src1 0 then some (.operand src2)
    else if isIntConstOf s src2 0 then some (.operand src1) else none
  | .SUB => if isIntConstOf s src2 0 then some (.operand src1) else none
  | .MUL =>
    if isIntConstOf s src1 0 || isIntConstOf s src2 0 then some .zero
    else if isIntConstOf s src1 1 then some (.operand src2)
    else if isIntConstOf s src2 1 then some (.operand src1) else none
  | .AND => if isIntConstOf s src1 0 || isIntConstOf s src2 0 then some .zero else none
  | .OR =>
    if isIntConstOf s src1 0 then some (.operand src2)
    else if isIntConstOf s src2 0 then some (.operand src1) else none
  | _ => none

/-! ## Example graphs -/

/-- One block holding `t = op(x, y)` followed by one reader of `t`; `x` and `y` are
values of the given variants. -/
def exBinaryOf (op : OpTy) (x y : ValKind) : GlobalUnit :=
  { vals := [⟨x, [0]⟩, ⟨y, [0]⟩, ⟨.Named, [1]⟩]
    instrs := [⟨.BINARY op 0 1 2, [2], 0, false⟩, ⟨.OTHER [2], [], 0, false⟩]
    blocks := [⟨[0, 1], [], []⟩]
    func_table := [⟨some 0, [0]⟩]
    global_symbol_table := [] }

/-- One block holding `t = op(int a, int b)` followed by one reader of `t`. -/
def exBinary (op : OpTy) (a b : Int) : GlobalUnit := exBinaryOf op (.IntConst a) (.IntConst b)

/-- Block 0 ends in `condbr(c, L1, L2)` with `L1`, `L2` the blocks 1 and 2; `c` is a
value of the given variant. -/
def exCondBr (c : ValKind) : GlobalUnit :=
  { vals := [⟨c, [0]⟩]
    instrs := [⟨.CONDBR 0 1 2, [], 0, false⟩]
    blocks := [⟨[0], [1, 2], []⟩, ⟨[], [], [0]⟩, ⟨[], [], [0]⟩]
    func_table := [⟨some 0, [0, 1, 2]⟩]
    global_symbol_table := [] }

/-- Block 0 ends in `condbr(bool true, L1, L1)`: both labels are block 1. -/
def exCondBrSame : GlobalUnit :=
  { vals := [⟨.BoolConst true, [0]⟩]
    instrs := [⟨.CONDBR 0 1 1, [], 0, false⟩]
    blocks := [⟨[0], [1], []⟩, ⟨[], [], [0]⟩]
    func_table := [⟨some 0, [0, 1]⟩]
    global_symbol_table := [] }

/-- Two functions.  The first has the entry block 0, the loop `1 → 2 → 1` and the
block 3, which jumps into the loop but is not reachable; the second has the entry
block 4 and the unreachable block 5. -/
def exCFG : GlobalUnit :=
  { vals := []
    instrs := [⟨.BR 1, [], 0, false⟩, ⟨.BR 2, [], 1, false⟩, ⟨.BR 1, [], 2, false⟩,
               ⟨.BR 1, [], 3, false⟩, ⟨.OTHER [], [], 4, false⟩, ⟨.BR 4, [], 5, false⟩]
    blocks := [⟨[0], [1], []⟩, ⟨[1], [2], [0, 2, 3]⟩, ⟨[2], [1], [1]⟩, ⟨[3], [1], []⟩,
               ⟨[4], [], [5]⟩, ⟨[5], [4], []⟩]
    func_table := [⟨some 0, [0, 1, 2, 3]⟩, ⟨some 4, [4, 5]⟩]
    global_symbol_table := [] }

/-- The graph `exCFG` after `BuildCFG`. -/
def exCFGPruned : GlobalUnit :=
  { vals := []
    instrs := [⟨.BR 1, [], 0, false⟩, ⟨.BR 2, [], 1, false⟩, ⟨.BR 1, [], 2, false⟩,
               ⟨.BR 1, [], 3, false⟩, ⟨.OTHER [], [], 4, false⟩, ⟨.BR 4, [], 5, false⟩]
    blocks := [⟨[0], [1], []⟩, ⟨[1], [2], [0, 2]⟩, ⟨[2], [1], [1]⟩, ⟨[3], [1], []⟩,
               ⟨[4], [], []⟩, ⟨[5], [4], []⟩]
    func_table := [⟨some 0, [0, 1, 2]⟩, ⟨some 4, [4]⟩]
    global_symbol_table := [] }

/-- Three global symbols: the scalar `g` without stores and with the constant `int 7`,
loaded twice; an array; and a scalar that is stored to.  Instruction 2 adds the two
loads of `g`, instruction 3 reads the second one, instruction 6 reads the loads of the
other two symbols. -/
def exGlobals : GlobalUnit :=
  { vals := [⟨.IntConst 7, []⟩, ⟨.Named, [2]⟩, ⟨.Named, [2, 3]⟩, ⟨.Named, [7]⟩,
             ⟨.IntConst 1, []⟩, ⟨.Named, [6]⟩, ⟨.IntConst 2, []⟩, ⟨.Named, [6]⟩]
    instrs := [⟨.OTHER [], [1], 0, false⟩, ⟨.OTHER [], [2], 0, false⟩,
               ⟨.BINARY .ADD 1 2 3, [3], 0, false⟩, ⟨.OTHER [2], [], 0, false⟩,
               ⟨.OTHER [], [5], 0, false⟩, ⟨.OTHER [], [7], 0, false⟩,
               ⟨.OTHER [5, 7], [], 0, false⟩, ⟨.OTHER [3], [], 0, false⟩]
    blocks := [⟨[0, 1, 2, 3, 4, 5, 6, 7], [], []⟩]
    func_table := [⟨some 0, [0]⟩]
    global_symbol_table := [⟨false, [], [0, 1], 0⟩, ⟨true, [], [4], 4⟩, ⟨false, [7], [5], 6⟩] }

/-- One function whose only block holds the comparison `cmp eq (int 1, int 1)`, an
instruction that holds no defined value, followed by a return. -/
def exCmpNoDef : GlobalUnit :=
  { vals := [⟨.IntConst 1, [0]⟩]
    instrs := [⟨.CMP .EQ 0 0, [], 0, false⟩, ⟨.OTHER [], [], 0, false⟩]
    blocks := [⟨[0, 1], [], []⟩]
    func_table := [⟨some 0, [0]⟩]
    global_symbol_table := [] }

/-- Two functions.  The first computes `t = add(int 2, int 3)`, `u = mul(t, int 1)` and
returns `u`; the entry block of the second ends in `condbr(bool true, L2, L3)`. -/
def exTwoFuncs : GlobalUnit :=
  { vals := [⟨.IntConst 2, [0]⟩, ⟨.IntConst 3, [0]⟩, ⟨.Named, [1]⟩, ⟨.IntConst 1, [1]⟩,
             ⟨.Named, [2]⟩, ⟨.BoolConst true, [3]⟩]
    instrs := [⟨.BINARY .ADD 0 1 2, [2], 0, false⟩, ⟨.BINARY .MUL 2 3 4, [4], 0, false⟩,
               ⟨.OTHER [4], [], 0, false⟩, ⟨.CONDBR 5 2 3, [], 1, false⟩,
               ⟨.OTHER [], [], 2, false⟩, ⟨.OTHER [], [], 3, false⟩]
    blocks := [⟨[0, 1, 2], [], []⟩, ⟨[3], [2, 3], []⟩, ⟨[4], [], [1]⟩, ⟨[5], [], [1]⟩]
    func_table := [⟨some 0, [0]⟩, ⟨some 1, [1, 2, 3]⟩]
    global_symbol_table := [] }

/-- One block holding `t = cmp op (x, y)` followed by one reader of `t`; `x` and `y`
are values of the given variants. -/
def exCmp (op : OpTy) (x y : ValKind) : GlobalUnit :=
  { vals := [⟨x, [0]⟩, ⟨y, [0]⟩, ⟨.Named, [1]⟩]
    instrs := [⟨.CMP op 0 1, [2], 0, false⟩, ⟨.OTHER [2], [], 0, false⟩]
    blocks := [⟨[0, 1], [], []⟩]
    func_table := [⟨some 0, [0]⟩]
    global_symbol_table := [] }

/-- One block holding a one-operand or shift instruction of the given class on the
values 0 and 1 (of the given variants), which defines value 2, and one reader of it. -/
def exUnary (kind : InstKind) (x y : ValKind) : GlobalUnit :=
  { vals := [⟨x, [0]⟩, ⟨y, [0]⟩, ⟨.Named, [1]⟩]
    instrs := [⟨kind, [2], 0, false⟩, ⟨.OTHER [2], [], 0, false⟩]
    blocks := [⟨[0, 1], [], []⟩]
    func_table := [⟨some 0, [0]⟩]
    global_symbol_table := [] }

/-- A double negation: `%1 = xor true; %2 = xor %1; use %2`. -/
def exXorChain : GlobalUnit :=
  { vals := [⟨.BoolConst true, [0]⟩, ⟨.Named, [1]⟩, ⟨.Named, [2]⟩]
    instrs := [⟨.XOR 0, [1], 0, false⟩, ⟨.XOR 1, [2], 0, false⟩, ⟨.OTHER [2], [], 0, false⟩]
    blocks := [⟨[0, 1, 2], [], []⟩]
    func_table := [⟨some 0, [0]⟩]
    global_symbol_table := [] }

/-- The graph `exCFG` with a declaration between the two functions: a function without
entry block that holds the isolated block 6. -/
def exCFGDecl : GlobalUnit :=
  { vals := []
    instrs := [⟨.BR 1, [], 0, false⟩, ⟨.BR 2, [], 1, false⟩, ⟨.BR 1, [], 2, false⟩,
               ⟨.BR 1, [], 3, false⟩, ⟨.OTHER [], [], 4, false⟩, ⟨.BR 4, [], 5, false⟩]
    blocks := [⟨[0], [1], []⟩, ⟨[1], [2], [0, 2, 3]⟩, ⟨[2], [1], [1]⟩, ⟨[3], [1], []⟩,
               ⟨[4], [], [5]⟩, ⟨[5], [4], []⟩, ⟨[], [], []⟩]
    func_table := [⟨some 0, [0, 1, 2, 3]⟩, ⟨none, [6]⟩, ⟨some 4, [4, 5]⟩]
    global_symbol_table := [] }

/-- One function of two blocks.  Block 0 holds `%3 = zext %2` and a reader of `%3`;
block 1, scanned after it, holds `%2 = cmp lt (int 1, int 2)`. -/
def exTwoBlocks : GlobalUnit :=
  { vals := [⟨.IntConst 1, [2]⟩, ⟨.IntConst 2, [2]⟩, ⟨.Named, [0]⟩, ⟨.Named, [1]⟩]
    instrs := [⟨.ZEXT 2, [3], 0, false⟩, ⟨.OTHER [3], [], 0, false⟩,
               ⟨.CMP .LT 0 1, [2], 1, false⟩]
    blocks := [⟨[0, 1], [1], []⟩, ⟨[2], [], [0]⟩]
    func_table := [⟨some 0, [0, 1]⟩]
    global_symbol_table := [] }

/-- The graph `exBinaryOf` with an instruction that holds no defined value: `op(x, y)`
has the result field `dst` (value 2, read by instruction 1) and an empty `def_list`. -/
def exBinaryNoDef (op : OpTy) (x y : ValKind) : GlobalUnit :=
  { vals := [⟨x, [0]⟩, ⟨y, [0]⟩, ⟨.Named, [1]⟩]
    instrs := [⟨.BINARY op 0 1 2, [], 0, false⟩, ⟨.OTHER [2], [], 0, false⟩]
    blocks := [⟨[0, 1], [], []⟩]
    func_table := [⟨some 0, [0]⟩]
    global_symbol_table := [] }

/-- One block holding `mul(int 0, x)` with an empty `def_list` and the result field
value 2, a reader of the result, and a second reader of `x` (value 1). -/
def exMulNoDef : GlobalUnit :=
  { vals := [⟨.IntConst 0, [0]⟩, ⟨.Named, [0, 2]⟩, ⟨.Named, [1]⟩]
    instrs := [⟨.BINARY .MUL 0 1 2, [], 0, false⟩, ⟨.OTHER [2], [], 0, false⟩,
               ⟨.OTHER [1], [], 0, false⟩]
    blocks := [⟨[0, 1, 2], [], []⟩]
    func_table := [⟨some 0, [0]⟩]
    global_symbol_table := [] }

end Bifang

namespace Bifang

/-! ## Arena lemmas -/

theorem length_updAt {α : Type} (f : α → α) (l : List α) (i : Nat) :
    (updAt f l i).length = l.length := by
  induction l generalizing i with
  | nil => rfl
  | cons x xs ih => cases i <;> simp [updAt, ih]

theorem getD_updAt {α : Type} (f : α → α) (l : List α) (i j : Nat) (d : α) :
    (updAt f l i).getD j d = if j = i ∧ j < l.length then f (l.getD j d) else l.getD j d := by
  induction l generalizing i j with
  | nil => simp [updAt]
  | cons x xs ih =>
    cases i with
    | zero => cases j <;> simp [updAt]
    | succ i =>
      cases j with
      | zero => simp [updAt]
      | succ j =>
        simp only [updAt, List.getD_cons_succ, ih, List.length_cons, Nat.add_lt_add_iff_right,
          Nat.add_right_cancel_iff]

theorem length_mapFrom {α : Type} (f : Nat → α → α) (n : Nat) (l : List α) :
    (mapFrom f n l).length = l.length := by
  induction l generalizing n with
  | nil => rfl
  | cons x xs ih => simp [mapFrom, ih]

theorem getD_mapFrom {α : Type} (f : Nat → α → α) (n : Nat) (l : List α) (j : Nat) (d : α) :
    (mapFrom f n l).getD j d = if j < l.length then f (n + j) (l.getD j d) else d := by
  induction l generalizing n j with
  | nil => simp [mapFrom]
  | cons x xs ih =>
    cases j with
    | zero => simp [mapFrom]
    | succ j =>
      simp only [mapFrom, List.getD_cons_succ, ih, List.length_cons, Nat.add_lt_add_iff_right]
      have : n + 1 + j = n + (j + 1) := by omega
      rw [this]

theorem getD_append_new {α : Type} (l : List α) (x d : α) (j : Nat) :
    (l ++ [x]).getD j d = if j < l.length then l.getD j d else if j = l.length then x else d := by
  by_cases h : j < l.length
  · simp [h, List.getD_eq_getElem?_getD, List.getElem?_append_left h]
  · simp only [h, if_false]
    by_cases h2 : j = l.length
    · subst h2; simp [List.getD_eq_getElem?_getD]
    · simp only [h2, if_false]
      rw [List.getD_eq_default]
      simp; omega

theorem getD_default_of_le {α : Type} (l : List α) (d : α) (j : Nat) (h : l.length ≤ j) :
    l.getD j d = d := List.getD_eq_default l d h

/-! ## 32-bit arithmetic lemmas -/

theorem wrap32_in32 (x : Int) : In32 (wrap32 x) := by
  unfold In32 wrap32; omega

theorem wrap32_of_in32 {x : Int} (h : In32 x) : wrap32 x = x := by
  unfold In32 at h; unfold wrap32; omega

theorem wrap32_dvd (x : Int) : (4294967296 : Int) ∣ (wrap32 x - x) := by
  unfold wrap32; omega

theorem tdiv_in32 {a b : Int} (ha : In32 a) (hb : b ≠ 0)
    (hov : ¬ (a = -2147483648 ∧ b = -1)) : In32 (Int.tdiv a b) := by
  unfold In32 at *
  have h := Int.natAbs_tdiv a b
  have hle : (a.natAbs).div (b.natAbs) ≤ a.natAbs := Nat.div_le_self _ _
  have hb0 : 0 < b.natAbs := Int.natAbs_pos.mpr hb
  by_cases h1 : b.natAbs = 1
  · rcases Int.natAbs_eq b with hb1 | hb1
    · have : b = 1 := by omega
      subst this; simp; omega
    · have : b = -1 := by omega
      subst this
      have : Int.tdiv a (-1) = -a := by
        rw [Int.tdiv_neg, Int.tdiv_one]
      rw [this]; omega
  · have h2 : 2 ≤ b.natAbs := by omega
    have hlt : (a.natAbs).div (b.natAbs) ≤ a.natAbs / 2 := by
      show a.natAbs / b.natAbs ≤ a.natAbs / 2
      exact Nat.div_le_div_left h2 (by decide)
    omega

theorem neg_tmod (a b : Int) : Int.tmod (-a) b = -(Int.tmod a b) := by
  rw [Int.tmod_def, Int.tmod_def, Int.neg_tdiv]; ring

theorem tmod_in32 {a b : Int} (ha : In32 a) : In32 (Int.tmod a b) := by
  unfold In32 at *
  rcases le_or_lt 0 a with h | h
  · have h1 := Int.tmod_nonneg b h
    have h2 : Int.tmod a b ≤ a := by
      rw [Int.tmod_def]
      have : 0 ≤ b * a.tdiv b := by
        rcases le_or_lt 0 b with hb | hb
        · exact Int.mul_nonneg hb (Int.tdiv_nonneg h hb)
        · have := Int.tdiv_nonpos h (le_of_lt hb)
          nlinarith
      omega
    omega
  · have h1 := Int.tmod_nonneg b (show 0 ≤ -a by omega)
    have h2 : Int.tmod (-a) b ≤ -a := by
      rw [Int.tmod_def]
      have : 0 ≤ b * (-a).tdiv b := by
        rcases le_or_lt 0 b with hb | hb
        · exact Int.mul_nonneg hb (Int.tdiv_nonneg (by omega) hb)
        · have := Int.tdiv_nonpos (show 0 ≤ -a by omega) (le_of_lt hb)
          nlinarith
      omega
    rw [neg_tmod] at h1 h2
    omega

theorem toU32_lt (x : Int) : toU32 x < 4294967296 := by
  unfold toU32; omega

theorem toU32_wrap32_ofNat {n : Nat} (h : n < 4294967296) : toU32 (wrap32 (Int.ofNat n)) = n := by
  unfold toU32 wrap32
  have : ((n : Int) + 2147483648) % 4294967296 - 2147483648 = n ∨
      ((n : Int) + 2147483648) % 4294967296 - 2147483648 = n - 4294967296 := by omega
  simp only [Int.ofNat_eq_coe]
  omega

theorem and32_bits (a b : Int) (k : Nat) :
    (toU32 (and32 a b)).testBit k = ((toU32 a).testBit k && (toU32 b).testBit k) := by
  unfold and32
  rw [toU32_wrap32_ofNat]
  · exact Nat.testBit_land _ _ _
  · exact lt_of_le_of_lt Nat.and_le_left (toU32_lt a)

theorem or32_bits (a b : Int) (k : Nat) :
    (toU32 (or32 a b)).testBit k = ((toU32 a).testBit k || (toU32 b).testBit k) := by
  unfold or32
  rw [toU32_wrap32_ofNat]
  · exact Nat.testBit_lor _ _ _
  · exact Nat.or_lt_two_pow (n := 32) (toU32_lt a) (toU32_lt b)

/-! ## Effect of the graph helpers on the arenas -/

theorem operands_replaceOperand (o n : Nat) (k : InstKind) :
    operands (replaceOperand o n k) = (operands k).map (subst o n) := by
  cases k <;> simp [operands, replaceOperand]

theorem getVal_addValue (s : GlobalUnit) (x : ValueRef) (v : Nat) :
    getVal (addValue s x) v = if v = s.vals.length then x else getVal s v := by
  unfold getVal addValue
  simp only [getD_append_new]
  by_cases h : v < s.vals.length
  · have : v ≠ s.vals.length := by omega
    simp [h, this]
  · by_cases h2 : v = s.vals.length
    · simp [h2]
    · simp only [h, h2, if_false]
      rw [getD_default_of_le]; omega

theorem getInstr_addValue (s : GlobalUnit) (x : ValueRef) (u : Nat) :
    getInstr (addValue s x) u = getInstr s u := rfl

theorem getInstr_replaceAllUsesOf (s : GlobalUnit) (o n u : Nat) :
    getInstr (replaceAllUsesOf s o n) u =
      if u ∈ (getVal s o).use then
        { getInstr s u with kind := replaceOperand o n (getInstr s u).kind }
      else getInstr s u := by
  unfold getInstr replaceAllUsesOf
  simp only [getD_mapFrom, Nat.zero_add]
  by_cases h : u < s.instrs.length
  · simp [h]
  · simp only [h, if_false]
    rw [getD_default_of_le _ _ _ (by omega)]
    split <;> rfl

theorem getVal_replaceAllUsesOf_kind (s : GlobalUnit) (o n v : Nat) :
    (getVal (replaceAllUsesOf s o n) v).kind = (getVal s v).kind := by
  unfold getVal replaceAllUsesOf
  simp only [getD_updAt, length_updAt]
  split <;> split <;> rfl

theorem getVal_replaceAllUsesOf_old (s : GlobalUnit) (o n : Nat) :
    (getVal (replaceAllUsesOf s o n) o).use = [] := by
  unfold getVal replaceAllUsesOf
  simp only [getD_updAt, length_updAt]
  by_cases h : o < s.vals.length
  · simp [h]
  · simp only [h, and_false, if_false]
    rw [getD_default_of_le _ _ _ (by omega)]; rfl

theorem getVal_replaceAllUsesOf_use (s : GlobalUnit) (o n v : Nat) (h : v ≠ o) :
    (getVal (replaceAllUsesOf s o n) v).use =
      if v = n ∧ v < s.vals.length then (getVal s o).use.foldl insertUse (getVal s v).use
      else (getVal s v).use := by
  unfold getVal replaceAllUsesOf
  simp only [getD_updAt, length_updAt, h, false_and, if_false]
  split <;> rfl

theorem getInstr_DeleteInstruction (s : GlobalUnit) (i u : Nat) :
    getInstr (DeleteInstruction s i) u =
      if u = i ∧ u < s.instrs.length then { getInstr s u with deleted := true }
      else getInstr s u := by
  unfold getInstr DeleteInstruction
  simp only [getD_updAt]

theorem getVal_DeleteInstruction (s : GlobalUnit) (i v : Nat) :
    getVal (DeleteInstruction s i) v =
      { getVal s v with use :=
          if v ∈ operands (getInstr s i).kind then (getVal s v).use.filter (fun u => u ≠ i)
          else (getVal s v).use } := by
  unfold DeleteInstruction
  show List.getD (mapFrom _ 0 s.vals) v default = _
  simp only [getD_mapFrom, Nat.zero_add]
  by_cases h : v < s.vals.length
  · simp only [h, if_true]
    split <;> rfl
  · simp only [h, if_false]
    unfold getVal
    rw [getD_default_of_le _ _ _ (by omega)]
    split <;> rfl

theorem lt_of_getInstr_kind {s : GlobalUnit} {i : Nat}
    (h : (getInstr s i).kind ≠ InstKind.OTHER []) : i < s.instrs.length := by
  by_contra hc
  apply h
  unfold getInstr
  rw [getD_default_of_le _ _ _ (by omega)]; rfl

theorem lt_of_getVal_kind {s : GlobalUnit} {v : Nat}
    (h : (getVal s v).kind ≠ ValKind.Named) : v < s.vals.length := by
  by_contra hc
  apply h
  unfold getVal
  rw [getD_default_of_le _ _ _ (by omega)]; rfl

theorem IsIntConst_of_kind {s : GlobalUnit} {v : Nat} {a : Int}
    (h : (getVal s v).kind = .IntConst a) : IsIntConst s v = true := by
  simp [IsIntConst, h]

theorem GetIntConst_of_kind {s : GlobalUnit} {v : Nat} {a : Int}
    (h : (getVal s v).kind = .IntConst a) : GetIntConst s v = a := by
  simp [GetIntConst, h]

/-- The rewrite `replaceAllUsesOf(old, new); DeleteInstruction(instr);`: the instruction
is tombstoned, every user of `old` reads `new` wherever it read `old`, and `old` has no
use left. -/
theorem rewire_effect (s : GlobalUnit) (instr old new : Nat)
    (hi : instr < s.instrs.length) :
    (getInstr (DeleteInstruction (replaceAllUsesOf s old new) instr) instr).deleted = true ∧
    (∀ u ∈ (getVal s old).use,
      operands (getInstr (DeleteInstruction (replaceAllUsesOf s old new) instr) u).kind =
        (operands (getInstr s u).kind).map (fun v => if v = old then new else v)) ∧
    (getVal (DeleteInstruction (replaceAllUsesOf s old new) instr) old).use = [] := by
  have hlen : (replaceAllUsesOf s old new).instrs.length = s.instrs.length := by
    simp [replaceAllUsesOf, length_mapFrom]
  refine ⟨?_, ?_, ?_⟩
  · rw [getInstr_DeleteInstruction]
    simp [hlen, hi]
  · intro u hu
    rw [getInstr_DeleteInstruction]
    have : (getInstr (replaceAllUsesOf s old new) u).kind =
        replaceOperand old new (getInstr s u).kind := by
      rw [getInstr_replaceAllUsesOf]; simp [hu]
    split
    · show operands (getInstr (replaceAllUsesOf s old new) u).kind = _
      rw [this, operands_replaceOperand]; rfl
    · rw [this, operands_replaceOperand]; rfl
  · rw [getVal_DeleteInstruction]
    simp [getVal_replaceAllUsesOf_old]

/-- What `ReplaceWithConst` does to an instruction that defines a value. -/
theorem ReplaceWithConst_effect (s : GlobalUnit) (instr d : Nat) (rest : List Nat)
    (c : ValueRef)
    (hdef : (getInstr s instr).def_list = d :: rest)
    (hd : d < s.vals.length) (hi : instr < s.instrs.length) :
    (getInstr (ReplaceWithConst s instr c) instr).deleted = true ∧
    (getVal (ReplaceWithConst s instr c) s.vals.length).kind = c.kind ∧
    (∀ u ∈ (getVal s d).use,
      operands (getInstr (ReplaceWithConst s instr c) u).kind =
        (operands (getInstr s u).kind).map (fun v => if v = d then s.vals.length else v)) ∧
    (getVal (ReplaceWithConst s instr c) d).use = [] := by
  have hR : ReplaceWithConst s instr c =
      DeleteInstruction (replaceAllUsesOf (addValue s c) d s.vals.length) instr := by
    simp [ReplaceWithConst, hdef]
  have hv : getVal (addValue s c) d = getVal s d := by
    rw [getVal_addValue]; simp; omega
  obtain ⟨e1, e2, e3⟩ := rewire_effect (addValue s c) instr d s.vals.length hi
  rw [hR]
  refine ⟨e1, ?_, ?_, e3⟩
  · rw [getVal_DeleteInstruction]
    show (getVal (replaceAllUsesOf (addValue s c) d s.vals.length) s.vals.length).kind = _
    rw [getVal_replaceAllUsesOf_kind, getVal_addValue]; simp
  · intro u hu
    rw [hv] at e2
    exact e2 u hu

theorem SimplifyBinary_of_fold {s : GlobalUnit} {instr : Nat} {op : OpTy} {src1 src2 dst : Nat}
    {v : ValueRef}
    (hk : (getInstr s instr).kind = .BINARY op src1 src2 dst)
    (h1 : IsIntConst s src1 = true) (h2 : IsIntConst s src2 = true)
    (hf : FoldBinary s instr = some v) :
    SimplifyBinary s instr = (ReplaceWithConst s instr v, true) := by
  simp [SimplifyBinary, hk, h1, h2, hf]

/-- Where the arithmetic of the source is defined and the instruction holds its result
as defined value, the fold is right.  For a binary instruction on two 32-bit integer
constants `a`, `b` with operator add, sub, mul, div, mod, and, or (for div and mod:
`b ≠ 0`, and not `a = -2^31` with `b = -1`), the call of `FoldBinary` returns an integer
constant `r` in the 32-bit range with: add/sub/mul congruent to the exact result modulo
`2^32`; div the quotient truncated toward zero; mod the remainder with
`a = (a div b) * b + r`; and/or bitwise on the 32-bit patterns.  `SimplifyBinary` then
reports a change, the new constant is in the graph, every user of the result reads the
constant wherever it read the result, the result has no use left and the instruction is
tombstoned. -/
theorem FoldBinary_const_correct (s : GlobalUnit) (instr : Nat) (op : OpTy)
    (src1 src2 dst : Nat) (a b : Int)
    (hk : (getInstr s instr).kind = .BINARY op src1 src2 dst)
    (hdef : (getInstr s instr).def_list = [dst])
    (hdst : dst < s.vals.length)
    (h1 : (getVal s src1).kind = .IntConst a) (h2 : (getVal s src2).kind = .IntConst b)
    (ha : In32 a) (_hb : In32 b)
    (hop : op ∈ [OpTy.ADD, OpTy.SUB, OpTy.MUL, OpTy.DIV, OpTy.MOD, OpTy.AND, OpTy.OR])
    (hz : op = .DIV ∨ op = .MOD → b ≠ 0)
    (hov : op = .DIV ∨ op = .MOD → ¬ (a = -2147483648 ∧ b = -1)) :
    ∃ r : Int,
      FoldBinaryRun s instr = .returned (some (MakeIntConst r)) ∧
      FoldBinary s instr = some (MakeIntConst r) ∧ In32 r ∧
      (op = .ADD → (4294967296 : Int) ∣ r - (a + b)) ∧
      (op = .SUB → (4294967296 : Int) ∣ r - (a - b)) ∧
      (op = .MUL → (4294967296 : Int) ∣ r - a * b) ∧
      (op = .DIV → r = Int.tdiv a b) ∧
      (op = .MOD → r = Int.tmod a b ∧ a = Int.tdiv a b * b + r) ∧
      (op = .AND → ∀ k, (toU32 r).testBit k = ((toU32 a).testBit k && (toU32 b).testBit k)) ∧
      (op = .OR → ∀ k, (toU32 r).testBit k = ((toU32 a).testBit k || (toU32 b).testBit k)) ∧
      (SimplifyBinary s instr).2 = true ∧
      (getVal (SimplifyBinary s instr).1 s.vals.length).kind = .IntConst r ∧
      (∀ u ∈ (getVal s dst).use,
        operands (getInstr (SimplifyBinary s instr).1 u).kind =
          (operands (getInstr s u).kind).map (fun v => if v = dst then s.vals.length else v)) ∧
      (getVal (SimplifyBinary s instr).1 dst).use = [] ∧
      (getInstr (SimplifyBinary s instr).1 instr).deleted = true := by
  have hi : instr < s.instrs.length := lt_of_getInstr_kind (by rw [hk]; simp)
  have c1 := IsIntConst_of_kind h1
  have c2 := IsIntConst_of_kind h2
  have g1 := GetIntConst_of_kind h1
  have g2 := GetIntConst_of_kind h2
  -- the graph part, for whatever constant is folded
  have post : ∀ r : Int, FoldBinary s instr = some (MakeIntConst r) →
      (SimplifyBinary s instr).2 = true ∧
      (getVal (SimplifyBinary s instr).1 s.vals.length).kind = .IntConst r ∧
      (∀ u ∈ (getVal s dst).use,
        operands (getInstr (SimplifyBinary s instr).1 u).kind =
          (operands (getInstr s u).kind).map (fun v => if v = dst then s.vals.length else v)) ∧
      (getVal (SimplifyBinary s instr).1 dst).use = [] ∧
      (getInstr (SimplifyBinary s instr).1 instr).deleted = true := by
    intro r hf
    rw [SimplifyBinary_of_fold hk c1 c2 hf]
    obtain ⟨e1, e2, e3, e4⟩ := ReplaceWithConst_effect s instr dst [] (MakeIntConst r) hdef hdst hi
    exact ⟨rfl, e2, e3, e4, e1⟩
  simp only [List.mem_cons, List.mem_singleton, List.not_mem_nil, or_false] at hop
  rcases hop with h | h | h | h | h | h | h <;> subst h
  · have hf : FoldBinary s instr = some (MakeIntConst (wrap32 (a + b))) := by
      simp [FoldBinary, hk, c1, c2, g1, g2]
    exact ⟨_, by simp [FoldBinaryRun, hk, c1, c2, g1, g2], hf, wrap32_in32 _, fun _ => wrap32_dvd _, by simp, by simp, by simp, by simp,
      by simp, by simp, post _ hf⟩
  · have hf : FoldBinary s instr = some (MakeIntConst (wrap32 (a - b))) := by
      simp [FoldBinary, hk, c1, c2, g1, g2]
    exact ⟨_, by simp [FoldBinaryRun, hk, c1, c2, g1, g2], hf, wrap32_in32 _, by simp, fun _ => wrap32_dvd _, by simp, by simp, by simp,
      by simp, by simp, post _ hf⟩
  · have hf : FoldBinary s instr = some (MakeIntConst (wrap32 (a * b))) := by
      simp [FoldBinary, hk, c1, c2, g1, g2]
    exact ⟨_, by simp [FoldBinaryRun, hk, c1, c2, g1, g2], hf, wrap32_in32 _, by simp, by simp, fun _ => wrap32_dvd _, by simp, by simp,
      by simp, by simp, post _ hf⟩
  · have hb0 : b ≠ 0 := hz (Or.inl rfl)
    have hr := tdiv_in32 ha hb0 (hov (Or.inl rfl))
    have hf : FoldBinary s instr = some (MakeIntConst (Int.tdiv a b)) := by
      simp [FoldBinary, hk, c1, c2, g1, g2, hb0, wrap32_of_in32 hr]
    exact ⟨_, by simp [FoldBinaryRun, intDiv, hk, c1, c2, g1, g2, hb0, hr], hf, hr, by simp, by simp, by simp, fun _ => rfl, by simp, by simp, by simp,
      post _ hf⟩
  · have hb0 : b ≠ 0 := hz (Or.inr rfl)
    have hr : In32 (Int.tmod a b) := tmod_in32 ha
    have hq := tdiv_in32 ha hb0 (hov (Or.inr rfl))
    have hf : FoldBinary s instr = some (MakeIntConst (Int.tmod a b)) := by
      simp [FoldBinary, hk, c1, c2, g1, g2, hb0, wrap32_of_in32 hr]
    refine ⟨_, by simp [FoldBinaryRun, intMod, hk, c1, c2, g1, g2, hb0, hq], hf, hr, by simp, by simp, by simp, by simp, fun _ => ⟨rfl, ?_⟩, by simp, by simp,
      post _ hf⟩
    have := Int.tdiv_add_tmod' a b
    omega
  · have hf : FoldBinary s instr = some (MakeIntConst (and32 a b)) := by
      simp [FoldBinary, hk, c1, c2, g1, g2]
    exact ⟨_, by simp [FoldBinaryRun, hk, c1, c2, g1, g2], hf, wrap32_in32 _, by simp, by simp, by simp, by simp, by simp,
      fun _ k => and32_bits a b k, by simp, post _ hf⟩
  · have hf : FoldBinary s instr = some (MakeIntConst (or32 a b)) := by
      simp [FoldBinary, hk, c1, c2, g1, g2]
    exact ⟨_, by simp [FoldBinaryRun, hk, c1, c2, g1, g2], hf, wrap32_in32 _, by simp, by simp, by simp, by simp, by simp, by simp,
      fun _ k => or32_bits a b k, post _ hf⟩

/-- An instance: `add(int 2, int 3)` folds to `int 5`. -/
theorem FoldBinary_const_correct_witness :
    FoldBinary (exBinary .ADD 2 3) 0 = some (MakeIntConst 5) ∧
    (getVal (SimplifyBinary (exBinary .ADD 2 3) 0).1 3).kind = .IntConst 5 ∧
    (getInstr (SimplifyBinary (exBinary .ADD 2 3) 0).1 1).kind = .OTHER [3] ∧
    ∃ r : Int, FoldBinary (exBinary .ADD 2 3) 0 = some (MakeIntConst r) ∧
      (4294967296 : Int) ∣ r - (2 + 3) ∧
      (getInstr (SimplifyBinary (exBinary .ADD 2 3) 0).1 0).deleted = true := by
  obtain ⟨r, _, h1, _, h3, _, _, _, _, _, _, _, _, _, _, h14⟩ :=
    FoldBinary_const_correct (exBinary .ADD 2 3) 0 .ADD 0 1 2 2 3 (by decide) (by decide)
      (by decide) (by decide) (by decide) (by decide) (by decide) (by decide) (by decide)
      (by decide)
  exact ⟨by decide, by decide, by decide, r, h1, h3 rfl, h14⟩

/-- The call of `FoldBinary` is killed on the division or modulo of the constant `-2^31`
by the constant `-1`. -/
theorem FoldBinaryRun_overflow (s : GlobalUnit) (instr : Nat) (op : OpTy)
    (src1 src2 dst : Nat)
    (hk : (getInstr s instr).kind = .BINARY op src1 src2 dst)
    (hop : op = .DIV ∨ op = .MOD)
    (h1 : (getVal s src1).kind = .IntConst (-2147483648))
    (h2 : (getVal s src2).kind = .IntConst (-1)) :
    FoldBinaryRun s instr = .killed := by
  have c1 := IsIntConst_of_kind h1
  have c2 := IsIntConst_of_kind h2
  have g1 := GetIntConst_of_kind h1
  have g2 := GetIntConst_of_kind h2
  have hq : ¬ In32 (2147483648 : Int) := by decide
  rcases hop with h | h <;> subst h <;>
    simp [FoldBinaryRun, intDiv, intMod, hk, c1, c2, g1, g2, hq]

/-- On 32-bit constants the call of `FoldBinary` is killed nowhere else. -/
theorem FoldBinaryRun_killed_only (s : GlobalUnit) (instr : Nat) (op : OpTy)
    (src1 src2 dst : Nat) (a b : Int)
    (hk : (getInstr s instr).kind = .BINARY op src1 src2 dst)
    (h1 : (getVal s src1).kind = .IntConst a) (h2 : (getVal s src2).kind = .IntConst b)
    (ha : In32 a) (h : FoldBinaryRun s instr = .killed) :
    (op = .DIV ∨ op = .MOD) ∧ a = -2147483648 ∧ b = -1 := by
  have c1 := IsIntConst_of_kind h1
  have c2 := IsIntConst_of_kind h2
  have g1 := GetIntConst_of_kind h1
  have g2 := GetIntConst_of_kind h2
  have key : b ≠ 0 → ¬ In32 (Int.tdiv a b) → a = -2147483648 ∧ b = -1 := by
    intro hb hq
    by_contra hc
    exact hq (tdiv_in32 ha hb hc)
  cases op <;> simp [FoldBinaryRun, intDiv, intMod, hk, c1, c2, g1, g2] at h
  case DIV =>
    by_cases hb : b = 0
    · simp [hb] at h
    · by_cases hq : In32 (Int.tdiv a b)
      · simp [hb, hq] at h
      · exact ⟨Or.inl rfl, key hb hq⟩
  case MOD =>
    by_cases hb : b = 0
    · simp [hb] at h
    · by_cases hq : In32 (Int.tdiv a b)
      · simp [hb, hq] at h
      · exact ⟨Or.inr rfl, key hb hq⟩

/-- C1, the failing inputs.  On `mod(int -2^31, int -1)` and on
`div(int -2^31, int -1)` both operands are 32-bit integer constants and the divisor is
not 0, and the call of `FoldBinary` does not return an integer constant: `lhs % rhs` and
`lhs / rhs` overflow and the process is killed (next to them `mod(int -2^31, int 1)`
and `div(int -2^31 + 1, int -1)` fold).  And on `add(int 2, int 3)` held by an
instruction without defined value `FoldBinary` returns `int 5`, `SimplifyBinary` reports
a change and the graph is as before: the reader still reads the result and the
instruction is not deleted. -/
theorem FoldBinary_const_fails :
    FoldBinaryRun (exBinary .MOD (-2147483648) (-1)) 0 = .killed ∧
    FoldBinaryRun (exBinary .DIV (-2147483648) (-1)) 0 = .killed ∧
    FoldBinaryRun (exBinary .MOD (-2147483648) 1) 0 = .returned (some (MakeIntConst 0)) ∧
    FoldBinaryRun (exBinary .DIV (-2147483647) (-1)) 0 =
      .returned (some (MakeIntConst 2147483647)) ∧
    (getInstr (exBinaryNoDef .ADD (.IntConst 2) (.IntConst 3)) 0).def_list = [] ∧
    FoldBinaryRun (exBinaryNoDef .ADD (.IntConst 2) (.IntConst 3)) 0 =
      .returned (some (MakeIntConst 5)) ∧
    SimplifyBinary (exBinaryNoDef .ADD (.IntConst 2) (.IntConst 3)) 0 =
      (exBinaryNoDef .ADD (.IntConst 2) (.IntConst 3), true) ∧
    (getInstr (SimplifyBinary (exBinaryNoDef .ADD (.IntConst 2) (.IntConst 3)) 0).1 1).kind =
      .OTHER [2] ∧
    (getInstr (SimplifyBinary (exBinaryNoDef .ADD (.IntConst 2) (.IntConst 3)) 0).1 0).deleted =
      false := by
  decide

/-- C2: for a binary instruction on two integer constants with operator add, sub, mul,
div, mod, and, or, `SimplifyBinary` reports no match and leaves the whole graph as it
is exactly when the operator is div or mod and the right operand is the constant 0. -/
theorem SimplifyBinary_const_nomatch_iff (s : GlobalUnit) (instr : Nat) (op : OpTy)
    (src1 src2 dst : Nat) (a b : Int)
    (hk : (getInstr s instr).kind = .BINARY op src1 src2 dst)
    (h1 : (getVal s src1).kind = .IntConst a) (h2 : (getVal s src2).kind = .IntConst b)
    (hop : op ∈ [OpTy.ADD, OpTy.SUB, OpTy.MUL, OpTy.DIV, OpTy.MOD, OpTy.AND, OpTy.OR]) :
    ((SimplifyBinary s instr).2 = false ∧ (SimplifyBinary s instr).1 = s) ↔
      ((op = .DIV ∨ op = .MOD) ∧ b = 0) := by
  have c1 := IsIntConst_of_kind h1
  have c2 := IsIntConst_of_kind h2
  have g1 := GetIntConst_of_kind h1
  have g2 := GetIntConst_of_kind h2
  simp only [List.mem_cons, List.mem_singleton, List.not_mem_nil, or_false] at hop
  rcases hop with h | h | h | h | h | h | h <;> subst h
  · simp [SimplifyBinary, FoldBinary, hk, c1, c2]
  · simp [SimplifyBinary, FoldBinary, hk, c1, c2]
  · simp [SimplifyBinary, FoldBinary, hk, c1, c2]
  · by_cases hb : b = 0
    · simp [SimplifyBinary, FoldBinary, hk, c1, c2, g2, hb]
    · simp [SimplifyBinary, FoldBinary, hk, c1, c2, g2, hb]
  · by_cases hb : b = 0
    · simp [SimplifyBinary, FoldBinary, hk, c1, c2, g2, hb]
    · simp [SimplifyBinary, FoldBinary, hk, c1, c2, g2, hb]
  · simp [SimplifyBinary, FoldBinary, hk, c1, c2]
  · simp [SimplifyBinary, FoldBinary, hk, c1, c2]

/-- C2, witness: `div(int 5, int 0)` is left unchanged. -/
theorem SimplifyBinary_const_nomatch_iff_witness :
    SimplifyBinary (exBinary .DIV 5 0) 0 = (exBinary .DIV 5 0, false) ∧
    (((SimplifyBinary (exBinary .DIV 5 0) 0).2 = false ∧
        (SimplifyBinary (exBinary .DIV 5 0) 0).1 = exBinary .DIV 5 0) ↔
      ((OpTy.DIV = .DIV ∨ OpTy.DIV = .MOD) ∧ (0 : Int) = 0)) :=
  ⟨by decide,
   SimplifyBinary_const_nomatch_iff (exBinary .DIV 5 0) 0 .DIV 0 1 2 5 0 (by decide)
     (by decide) (by decide) (by decide)⟩

theorem isIntConstOf_iff (s : GlobalUnit) (v : Nat) (c : Int) :
    isIntConstOf s v c = (IsIntConst s v && decide (GetIntConst s v = c)) := by
  unfold isIntConstOf IsIntConst GetIntConst
  cases h : (getVal s v).kind <;> simp

/-- The rule `SimplifyBinary` on operands that are not both integer constants, case by case. -/
theorem SimplifyBinary_identity_eq (s : GlobalUnit) (instr : Nat) (op : OpTy)
    (src1 src2 dst : Nat)
    (hk : (getInstr s instr).kind = .BINARY op src1 src2 dst)
    (hnot : ¬ (IsIntConst s src1 = true ∧ IsIntConst s src2 = true)) :
    SimplifyBinary s instr =
      match identitySurvivor s op src1 src2 with
      | none => (s, false)
      | some (.operand v) => (replaceByOperand s instr dst v, true)
      | some .zero => (ReplaceWithConst s instr (MakeIntConst 0), true) := by
  unfold SimplifyBinary identitySurvivor
  simp only [hk, isIntConstOf_iff]
  rcases hc1 : IsIntConst s src1 <;> rcases hc2 : IsIntConst s src2
  · cases op <;> simp
  · cases op <;> simp <;> split <;> simp_all <;> split <;> simp_all
  · cases op <;> simp <;> split <;> simp_all <;> split <;> simp_all
  · exact absurd ⟨hc1, hc2⟩ hnot


/-- Where the instruction holds its result as defined value, the identity rules are
right: for a binary instruction whose operands are not both integer constants,
`SimplifyBinary` rewrites exactly in the listed identity cases.  With the survivor an
operand `v`, or a fresh `int 0` entered in the graph, it reports a change, every user
of the result reads the survivor wherever it read the result, the result has no use
left and the instruction is tombstoned; in every other case it reports no match and
the graph is unchanged. -/
theorem SimplifyBinary_identity (s : GlobalUnit) (instr : Nat) (op : OpTy)
    (src1 src2 dst : Nat)
    (hk : (getInstr s instr).kind = .BINARY op src1 src2 dst)
    (hdef : (getInstr s instr).def_list = [dst])
    (hdst : dst < s.vals.length)
    (hnot : ¬ (IsIntConst s src1 = true ∧ IsIntConst s src2 = true)) :
    (identitySurvivor s op src1 src2 = none → SimplifyBinary s instr = (s, false)) ∧
    (∀ keep, identitySurvivor s op src1 src2 = some keep →
      (SimplifyBinary s instr).2 = true ∧
      (∃ w, (match keep with
              | .operand v => w = v
              | .zero => w = s.vals.length ∧
                  (getVal (SimplifyBinary s instr).1 w).kind = .IntConst 0) ∧
        ∀ u ∈ (getVal s dst).use,
          operands (getInstr (SimplifyBinary s instr).1 u).kind =
            (operands (getInstr s u).kind).map (fun v => if v = dst then w else v)) ∧
      (getVal (SimplifyBinary s instr).1 dst).use = [] ∧
      (getInstr (SimplifyBinary s instr).1 instr).deleted = true) := by
  have hi : instr < s.instrs.length := lt_of_getInstr_kind (by rw [hk]; simp)
  have heq := SimplifyBinary_identity_eq s instr op src1 src2 dst hk hnot
  refine ⟨fun h => by rw [heq, h], fun keep h => ?_⟩
  rw [heq, h]
  cases keep with
  | operand v =>
    obtain ⟨e1, e2, e3⟩ := rewire_effect s instr dst v hi
    exact ⟨rfl, ⟨v, rfl, e2⟩, e3, e1⟩
  | zero =>
    obtain ⟨e1, e2, e3, e4⟩ :=
      ReplaceWithConst_effect s instr dst [] (MakeIntConst 0) hdef hdst hi
    exact ⟨rfl, ⟨s.vals.length, ⟨rfl, e2⟩, e3⟩, e4, e1⟩

/-- An instance: `mul(int 0, x)` that defines its result is removed and the reader of
its result reads a fresh `int 0`. -/
theorem SimplifyBinary_identity_witness :
    identitySurvivor (exBinaryOf .MUL (.IntConst 0) .Named) .MUL 0 1 = some .zero ∧
    (SimplifyBinary (exBinaryOf .MUL (.IntConst 0) .Named) 0).2 = true ∧
    (getVal (SimplifyBinary (exBinaryOf .MUL (.IntConst 0) .Named) 0).1 3).kind = .IntConst 0 ∧
    (getInstr (SimplifyBinary (exBinaryOf .MUL (.IntConst 0) .Named) 0).1 1).kind = .OTHER [3] ∧
    (getVal (SimplifyBinary (exBinaryOf .MUL (.IntConst 0) .Named) 0).1 2).use = [] ∧
    (getInstr (SimplifyBinary (exBinaryOf .MUL (.IntConst 0) .Named) 0).1 0).deleted = true ∧
    SimplifyBinary (exBinaryOf .SUB (.IntConst 0) .Named) 0 =
      (exBinaryOf .SUB (.IntConst 0) .Named, false) ∧
    SimplifyBinary (exBinaryOf .DIV .Named (.IntConst 1)) 0 =
      (exBinaryOf .DIV .Named (.IntConst 1), false) ∧
    SimplifyBinary (exBinaryOf .AND .Named (.IntConst 1)) 0 =
      (exBinaryOf .AND .Named (.IntConst 1), false) := by
  have h := (SimplifyBinary_identity (exBinaryOf .MUL (.IntConst 0) .Named) 0 .MUL 0 1 2
    (by decide) (by decide) (by decide) (by decide)).2 .zero (by decide)
  exact ⟨by decide, h.1, by decide, by decide, h.2.2.1, h.2.2.2, by decide, by decide, by decide⟩

/-- C3, the failing input: an instruction that holds no defined value.  On
`mul(int 0, x)` and on `and(x, int 0)` with an empty `def_list` the listed case applies
(the survivor is a fresh `int 0`), `SimplifyBinary` reports a change and the graph is as
before: the reader of the result still reads it, no `int 0` is entered and the
instruction is not deleted.  On `add(x, int 0)` with the same empty `def_list` the rule
goes through the result field: the reader reads `x` and the instruction is deleted. -/
theorem SimplifyBinary_identity_fails :
    (getInstr (exBinaryNoDef .MUL (.IntConst 0) .Named) 0).def_list = [] ∧
    DefUseChecked (exBinaryNoDef .MUL (.IntConst 0) .Named) ∧
    identitySurvivor (exBinaryNoDef .MUL (.IntConst 0) .Named) .MUL 0 1 = some .zero ∧
    SimplifyBinary (exBinaryNoDef .MUL (.IntConst 0) .Named) 0 =
      (exBinaryNoDef .MUL (.IntConst 0) .Named, true) ∧
    (getInstr (SimplifyBinary (exBinaryNoDef .MUL (.IntConst 0) .Named) 0).1 1).kind =
      .OTHER [2] ∧
    (getInstr (SimplifyBinary (exBinaryNoDef .MUL (.IntConst 0) .Named) 0).1 0).deleted =
      false ∧
    identitySurvivor (exBinaryNoDef .AND .Named (.IntConst 0)) .AND 0 1 = some .zero ∧
    SimplifyBinary (exBinaryNoDef .AND .Named (.IntConst 0)) 0 =
      (exBinaryNoDef .AND .Named (.IntConst 0), true) ∧
    identitySurvivor (exBinaryNoDef .ADD .Named (.IntConst 0)) .ADD 0 1 = some (.operand 0) ∧
    (SimplifyBinary (exBinaryNoDef .ADD .Named (.IntConst 0)) 0).2 = true ∧
    (getInstr (SimplifyBinary (exBinaryNoDef .ADD .Named (.IntConst 0)) 0).1 1).kind =
      .OTHER [0] ∧
    (getInstr (SimplifyBinary (exBinaryNoDef .ADD .Named (.IntConst 0)) 0).1 0).deleted =
      true := by
  decide

theorem getInstr_addInstr (s : GlobalUnit) (x : Instruction) (u : Nat) :
    getInstr (addInstr s x) u = if u = s.instrs.length then x else getInstr s u := by
  unfold getInstr addInstr
  simp only [getD_append_new]
  by_cases h : u < s.instrs.length
  · have : u ≠ s.instrs.length := by omega
    simp [h, this]
  · by_cases h2 : u = s.instrs.length
    · simp [h2]
    · simp only [h, h2, if_false]
      rw [getD_default_of_le]; omega

theorem getBlock_UnlinkBlock (s : GlobalUnit) (b d x : Nat) :
    getBlock (UnlinkBlock s b d) x =
      { local_instr := (getBlock s x).local_instr
        succ := if x = b then (getBlock s x).succ.filter (fun y => y ≠ d) else (getBlock s x).succ
        pred := if x = d then (getBlock s x).pred.filter (fun y => y ≠ b) else (getBlock s x).pred } := by
  unfold getBlock UnlinkBlock
  simp only [getD_updAt, length_updAt]
  by_cases h : x < s.blocks.length
  · by_cases h1 : x = b
    · subst h1
      by_cases h2 : x = d
      · subst h2; simp [h]
      · simp [h, h2]
    · by_cases h2 : x = d
      · subst h2; simp [h, h1]
      · simp [h, h1, h2]
  · simp only [h, and_false, if_false]
    rw [getD_default_of_le _ _ _ (by omega)]
    split <;> split <;> rfl

theorem getBlock_ReplaceInstr (s : GlobalUnit) (old new x : Nat) :
    getBlock (ReplaceInstr s old new) x =
      if x = (getInstr s old).block then
        { getBlock s x with
          local_instr := (getBlock s x).local_instr.map (fun y => if y = old then new else y) }
      else getBlock s x := by
  unfold getBlock ReplaceInstr
  simp only [getD_updAt]
  by_cases h : x < s.blocks.length
  · simp [h]
  · simp only [h, and_false, if_false]
    rw [getD_default_of_le _ _ _ (by omega)]
    split <;> rfl

theorem IsConstValue_eq_false {s : GlobalUnit} {c : Nat}
    (h1 : ∀ n, (getVal s c).kind ≠ .IntConst n) (h2 : ∀ b, (getVal s c).kind ≠ .BoolConst b) :
    IsConstValue s c = false := by
  unfold IsConstValue IsIntConst IsBoolConst
  cases h : (getVal s c).kind <;> simp_all

/-- The condition of a conditional branch read as the source reads it: a boolean
constant as it is, an integer constant as "nonzero". -/
theorem GetConstAsBool_of_kind (s : GlobalUnit) (c : Nat) :
    (∀ b, (getVal s c).kind = .BoolConst b → IsConstValue s c = true ∧ GetConstAsBool s c = b) ∧
    (∀ n, (getVal s c).kind = .IntConst n →
      IsConstValue s c = true ∧ GetConstAsBool s c = decide (n ≠ 0)) := by
  constructor
  · intro b h; simp [IsConstValue, IsIntConst, IsBoolConst, GetConstAsBool, GetBoolConst, h]
  · intro n h
    simp [IsConstValue, IsIntConst, IsBoolConst, GetConstAsBool, GetBoolConst, GetIntConst, h]

/-- The rule `SimplifyCondBr` on a constant condition with truth value `taken`. -/
theorem SimplifyCondBr_taken (s : GlobalUnit) (instr c t f : Nat) (taken : Bool)
    (hk : (getInstr s instr).kind = .CONDBR c t f)
    (hc : IsConstValue s c = true) (ht : GetConstAsBool s c = taken) :
    SimplifyCondBr s instr =
      (ReplaceInstr
        (addInstr (UnlinkBlock s (getInstr s instr).block (if taken then f else t))
          ⟨.BR (if taken then t else f), [], (getInstr s instr).block, false⟩)
        instr s.instrs.length, true) := by
  unfold SimplifyCondBr
  simp only [hk, hc, ht]
  rfl

/-- C4: a conditional branch on a boolean constant or an integer constant is replaced,
at its place in its block, by a new unconditional branch of the same block whose target
is the true label for `true` or a nonzero integer and the false label for `false` or 0;
on any other condition the rule reports no match and the graph is unchanged. -/
theorem SimplifyCondBr_correct (s : GlobalUnit) (instr c t f : Nat)
    (hk : (getInstr s instr).kind = .CONDBR c t f) :
    (∀ taken : Bool,
      ((getVal s c).kind = .BoolConst taken ∨
        ∃ n, (getVal s c).kind = .IntConst n ∧ taken = decide (n ≠ 0)) →
      (SimplifyCondBr s instr).2 = true ∧
      getInstr (SimplifyCondBr s instr).1 s.instrs.length =
        ⟨.BR (if taken then t else f), [], (getInstr s instr).block, false⟩ ∧
      (getBlock (SimplifyCondBr s instr).1 (getInstr s instr).block).local_instr =
        (getBlock s (getInstr s instr).block).local_instr.map
          (fun x => if x = instr then s.instrs.length else x)) ∧
    ((∀ n, (getVal s c).kind ≠ .IntConst n) → (∀ b, (getVal s c).kind ≠ .BoolConst b) →
      SimplifyCondBr s instr = (s, false)) := by
  constructor
  · intro taken h
    have hc : IsConstValue s c = true ∧ GetConstAsBool s c = taken := by
      rcases h with h | ⟨n, h, rfl⟩
      · exact (GetConstAsBool_of_kind s c).1 _ h
      · exact (GetConstAsBool_of_kind s c).2 _ h
    rw [SimplifyCondBr_taken s instr c t f taken hk hc.1 hc.2]
    refine ⟨rfl, ?_, ?_⟩
    · show getInstr (addInstr _ _) _ = _
      rw [getInstr_addInstr]
      simp [UnlinkBlock]
    · show (getBlock (ReplaceInstr _ _ _) _).local_instr = _
      rw [getBlock_ReplaceInstr]
      have e : (getInstr (addInstr (UnlinkBlock s (getInstr s instr).block
          (if taken then f else t))
          ⟨.BR (if taken then t else f), [], (getInstr s instr).block, false⟩) instr).block =
          (getInstr s instr).block := by
        rw [getInstr_addInstr]
        have hi : instr < s.instrs.length := lt_of_getInstr_kind (by rw [hk]; simp)
        have : instr ≠ (UnlinkBlock s (getInstr s instr).block
          (if taken then f else t)).instrs.length := by
          show instr ≠ s.instrs.length
          omega
        simp only [this, if_false]
        rfl
      rw [e]
      simp only [if_true]
      show (getBlock (UnlinkBlock s _ _) _).local_instr.map _ = _
      rw [getBlock_UnlinkBlock]
  · intro h1 h2
    unfold SimplifyCondBr
    simp [hk, IsConstValue_eq_false h1 h2]

/-- C4, witness: `condbr(bool true, L1, L2)` becomes `br L1`. -/
theorem SimplifyCondBr_correct_witness :
    getInstr (SimplifyCondBr (exCondBr (.BoolConst true)) 0).1 1 = ⟨.BR 1, [], 0, false⟩ ∧
    (getBlock (SimplifyCondBr (exCondBr (.BoolConst true)) 0).1 0).local_instr = [1] ∧
    getInstr (SimplifyCondBr (exCondBr (.IntConst 0)) 0).1 1 = ⟨.BR 2, [], 0, false⟩ ∧
    SimplifyCondBr (exCondBr .Named) 0 = (exCondBr .Named, false) ∧
    SimplifyCondBr (exCondBr (.FloatConst false 1)) 0 = (exCondBr (.FloatConst false 1), false) :=
  ⟨((SimplifyCondBr_correct (exCondBr (.BoolConst true)) 0 0 1 2 (by decide)).1 true
      (Or.inl (by decide))).2.1,
   by decide, by decide,
   (SimplifyCondBr_correct (exCondBr .Named) 0 0 1 2 (by decide)).2
     (by intro n; show ValKind.Named ≠ _; simp) (by intro b; show ValKind.Named ≠ _; simp),
   by decide⟩

/-- C5, the failing input: `condbr(bool true, L1, L1)` in block 0 with the edge to
`L1` recorded at both ends.  `SimplifyCondBr` replaces the branch by `br L1` and
unlinks the edge to the dropped label, which is the taken one: afterwards block 0 has
no successor and `L1` no predecessor. -/
theorem SimplifyCondBr_same_labels_drops_taken_edge :
    (getInstr exCondBrSame 0).kind = .CONDBR 0 1 1 ∧
    1 ∈ (getBlock exCondBrSame 0).succ ∧ 0 ∈ (getBlock exCondBrSame 1).pred ∧
    (SimplifyCondBr exCondBrSame 0).2 = true ∧
    getInstr (SimplifyCondBr exCondBrSame 0).1 1 = ⟨.BR 1, [], 0, false⟩ ∧
    (getBlock (SimplifyCondBr exCondBrSame 0).1 0).local_instr = [1] ∧
    1 ∉ (getBlock (SimplifyCondBr exCondBrSame 0).1 0).succ ∧
    0 ∉ (getBlock (SimplifyCondBr exCondBrSame 0).1 1).pred := by
  decide

/-! ## The breadth-first search of `BuildCFG` -/

theorem bfs_sound (s : GlobalUnit) (e : Nat) :
    ∀ (fuel : Nat) (q vis r : List Nat),
      (∀ x ∈ q, Reach s e x) → (∀ x ∈ vis, Reach s e x) →
      bfs fuel s q vis = some r → ∀ x ∈ r, Reach s e x := by
  intro fuel
  induction fuel with
  | zero =>
    intro q vis r hq hv h
    cases q with
    | nil => simp [bfs] at h; subst h; exact hv
    | cons b q => simp [bfs] at h
  | succ n ih =>
    intro q vis r hq hv h
    cases q with
    | nil => simp [bfs] at h; subst h; exact hv
    | cons b q =>
      simp only [bfs] at h
      have hb : Reach s e b := hq b (List.mem_cons_self _ _)
      have hq' : ∀ x ∈ q, Reach s e x := fun x hx => hq x (List.mem_cons_of_mem _ hx)
      split at h
      · exact ih q vis r hq' hv h
      · apply ih (q ++ (getBlock s b).succ) (b :: vis) r _ _ h
        · intro x hx
          rcases List.mem_append.mp hx with hx | hx
          · exact hq' x hx
          · exact Reach.step hb hx
        · intro x hx
          rcases List.mem_cons.mp hx with hx | hx
          · subst hx; exact hb
          · exact hv x hx

theorem bfs_closed (s : GlobalUnit) :
    ∀ (fuel : Nat) (q vis r : List Nat),
      (∀ x ∈ vis, ∀ y ∈ (getBlock s x).succ, y ∈ vis ∨ y ∈ q) →
      bfs fuel s q vis = some r →
      (∀ x ∈ vis, x ∈ r) ∧ (∀ x ∈ q, x ∈ r) ∧
      (∀ x ∈ r, ∀ y ∈ (getBlock s x).succ, y ∈ r) := by
  intro fuel
  induction fuel with
  | zero =>
    intro q vis r hinv h
    cases q with
    | nil =>
      simp [bfs] at h; subst h
      exact ⟨fun _ h => h, by simp, fun x hx y hy => by simpa using hinv x hx y hy⟩
    | cons b q => simp [bfs] at h
  | succ n ih =>
    intro q vis r hinv h
    cases q with
    | nil =>
      simp [bfs] at h; subst h
      exact ⟨fun _ h => h, by simp, fun x hx y hy => by simpa using hinv x hx y hy⟩
    | cons b q =>
      simp only [bfs] at h
      split at h
      next hb =>
        have := ih q vis r (by
          intro x hx y hy
          rcases hinv x hx y hy with h1 | h1
          · exact Or.inl h1
          · rcases List.mem_cons.mp h1 with h2 | h2
            · subst h2; exact Or.inl hb
            · exact Or.inr h2) h
        refine ⟨this.1, ?_, this.2.2⟩
        intro x hx
        rcases List.mem_cons.mp hx with hx | hx
        · subst hx; exact this.1 _ hb
        · exact this.2.1 x hx
      next hb =>
        have := ih (q ++ (getBlock s b).succ) (b :: vis) r (by
          intro x hx y hy
          rcases List.mem_cons.mp hx with hx | hx
          · subst hx; exact Or.inr (List.mem_append_right _ hy)
          · rcases hinv x hx y hy with h1 | h1
            · exact Or.inl (List.mem_cons_of_mem _ h1)
            · rcases List.mem_cons.mp h1 with h2 | h2
              · subst h2; exact Or.inl (List.mem_cons_self _ _)
              · exact Or.inr (List.mem_append_left _ h2)) h
        refine ⟨fun x hx => this.1 x (List.mem_cons_of_mem _ hx), ?_, this.2.2⟩
        intro x hx
        rcases List.mem_cons.mp hx with hx | hx
        · subst hx; exact this.1 _ (List.mem_cons_self _ _)
        · exact this.2.1 x (List.mem_append_left _ hx)

/-- The visited set of a finished search from `e` is exactly the set of blocks
reachable from `e`. -/
theorem bfs_reach (s : GlobalUnit) (e fuel : Nat) (r : List Nat)
    (h : bfs fuel s [e] [] = some r) : ∀ x, x ∈ r ↔ Reach s e x := by
  intro x
  constructor
  · exact bfs_sound s e fuel [e] [] r (by simp; exact Reach.refl) (by simp) h x
  · obtain ⟨_, h2, h3⟩ := bfs_closed s fuel [e] [] r (by simp) h
    intro hx
    induction hx with
    | refl => exact h2 e (by simp)
    | step _ hy ih => exact h3 _ ih _ hy

theorem sum_filter_remove (f : Nat → Nat) (b : Nat) (vis : List Nat) (hb : b ∉ vis) :
    ∀ l : List Nat, l.Nodup →
      ((l.filter (fun x => decide (x ∉ b :: vis))).map f).sum + (if b ∈ l then f b else 0) =
        ((l.filter (fun x => decide (x ∉ vis))).map f).sum := by
  intro l
  induction l with
  | nil => simp
  | cons a l ih =>
    intro hnd
    have hnd' := (List.nodup_cons.mp hnd)
    have ih' := ih hnd'.2
    by_cases hab : a = b
    · subst hab
      have hnot : a ∉ l := hnd'.1
      rw [if_neg hnot, Nat.add_zero] at ih'
      rw [List.filter_cons, List.filter_cons]
      have e1 : decide (a ∉ a :: vis) = false := by simp
      have e2 : decide (a ∉ vis) = true := by simp [hb]
      rw [e1, e2, if_pos (List.mem_cons_self _ _)]
      simp only [Bool.false_eq_true, if_false, if_true, List.map_cons, List.sum_cons]
      omega
    · have hba : ¬ b = a := fun h => hab h.symm
      rw [List.filter_cons, List.filter_cons]
      have hif : (if b ∈ a :: l then f b else 0) = (if b ∈ l then f b else 0) := by
        simp [hba]
      rw [hif]
      by_cases hav : a ∈ vis
      · have e1 : decide (a ∉ b :: vis) = false := by simp [hav]
        have e2 : decide (a ∉ vis) = false := by simp [hav]
        rw [e1, e2]
        simpa using ih'
      · have e1 : decide (a ∉ b :: vis) = true := by simp [hav, hab]
        have e2 : decide (a ∉ vis) = true := by simp [hav]
        rw [e1, e2]
        simp only [if_true, List.map_cons, List.sum_cons]
        omega

theorem getBlock_default_of_le (s : GlobalUnit) (b : Nat) (h : s.blocks.length ≤ b) :
    getBlock s b = default := by
  unfold getBlock; exact getD_default_of_le _ _ _ h

theorem pendingEdges_cons (s : GlobalUnit) (b : Nat) (vis : List Nat) (hb : b ∉ vis) :
    pendingEdges s (b :: vis) + (getBlock s b).succ.length = pendingEdges s vis := by
  unfold pendingEdges
  have h := sum_filter_remove (fun b => (getBlock s b).succ.length) b vis hb
    (List.range s.blocks.length) (List.nodup_range _)
  by_cases hlt : b < s.blocks.length
  · simp only [List.mem_range, hlt, if_true] at h
    exact h
  · simp only [List.mem_range, hlt, if_false, Nat.add_zero] at h
    rw [getBlock_default_of_le s b (by omega)]
    simpa using h

theorem bfs_terminates (s : GlobalUnit) :
    ∀ (fuel : Nat) (q vis : List Nat), q.length + pendingEdges s vis < fuel →
      ∃ r, bfs fuel s q vis = some r := by
  intro fuel
  induction fuel with
  | zero => intro q vis h; omega
  | succ n ih =>
    intro q vis h
    cases q with
    | nil => exact ⟨vis, by simp [bfs]⟩
    | cons b q =>
      simp only [bfs]
      split
      · exact ih q vis (by simp at h; omega)
      next hb =>
        apply ih
        have := pendingEdges_cons s b vis hb
        simp at h ⊢
        omega

/-! ## Effect of `DelBlock` on the control-flow graph -/

theorem getBlock_DelBlock (s : GlobalUnit) (d x : Nat) :
    getBlock (DelBlock s d) x =
      { local_instr := (getBlock s x).local_instr
        succ := if x ∈ (getBlock s d).pred then (getBlock s x).succ.filter (fun y => y ≠ d)
                else (getBlock s x).succ
        pred := if x ∈ (getBlock s d).succ then (getBlock s x).pred.filter (fun y => y ≠ d)
                else (getBlock s x).pred } := by
  unfold DelBlock
  show List.getD (mapFrom _ 0 s.blocks) x default = _
  simp only [getD_mapFrom, Nat.zero_add]
  by_cases h : x < s.blocks.length
  · simp only [h, if_true]; rfl
  · simp only [h, if_false]
    rw [getBlock_default_of_le s x (by omega)]
    split <;> split <;> rfl

theorem length_blocks_DelBlock (s : GlobalUnit) (d : Nat) :
    (DelBlock s d).blocks.length = s.blocks.length := by
  simp [DelBlock, length_mapFrom]

theorem length_funcs_DelBlock (s : GlobalUnit) (d : Nat) :
    (DelBlock s d).func_table.length = s.func_table.length := by
  simp [DelBlock]

theorem getFunc_DelBlock (s : GlobalUnit) (d k : Nat) :
    getFunc (DelBlock s d) k =
      { entry := (getFunc s k).entry
        block_list := (getFunc s k).block_list.filter (fun x => x ≠ d) } := by
  unfold getFunc DelBlock
  simp only [List.getD_eq_getElem?_getD, List.getElem?_map]
  cases h : s.func_table[k]? <;> simp <;> rfl

theorem succ_DelBlock_sub (s : GlobalUnit) (d x y : Nat)
    (h : y ∈ (getBlock (DelBlock s d) x).succ) : y ∈ (getBlock s x).succ := by
  rw [getBlock_DelBlock] at h
  simp only at h
  split at h
  · exact (List.mem_filter.mp h).1
  · exact h

theorem succ_DelBlock_eq (s : GlobalUnit) (d x : Nat) (h : d ∉ (getBlock s x).succ) :
    (getBlock (DelBlock s d) x).succ = (getBlock s x).succ := by
  rw [getBlock_DelBlock]
  simp only
  split
  · apply List.filter_eq_self.mpr
    intro a ha
    simp only [ne_eq, decide_not, Bool.not_eq_true', decide_eq_false_iff_not]
    intro hc; subst hc; exact h ha
  · rfl

theorem succ_length_DelBlock_le (s : GlobalUnit) (d x : Nat) :
    (getBlock (DelBlock s d) x).succ.length ≤ (getBlock s x).succ.length := by
  rw [getBlock_DelBlock]
  simp only
  split
  · exact List.length_filter_le _ _
  · exact le_refl _

theorem length_blocks_foldl_DelBlock (ds : List Nat) :
    ∀ s : GlobalUnit, (ds.foldl DelBlock s).blocks.length = s.blocks.length := by
  induction ds with
  | nil => intro s; rfl
  | cons d ds ih => intro s; simp only [List.foldl_cons]; rw [ih, length_blocks_DelBlock]

theorem length_funcs_foldl_DelBlock (ds : List Nat) :
    ∀ s : GlobalUnit, (ds.foldl DelBlock s).func_table.length = s.func_table.length := by
  induction ds with
  | nil => intro s; rfl
  | cons d ds ih => intro s; simp only [List.foldl_cons]; rw [ih, length_funcs_DelBlock]

theorem entry_foldl_DelBlock (ds : List Nat) :
    ∀ (s : GlobalUnit) (k : Nat), (getFunc (ds.foldl DelBlock s) k).entry = (getFunc s k).entry := by
  induction ds with
  | nil => intro s k; rfl
  | cons d ds ih => intro s k; simp only [List.foldl_cons]; rw [ih, getFunc_DelBlock]

theorem mem_block_list_foldl_DelBlock (ds : List Nat) :
    ∀ (s : GlobalUnit) (k b : Nat),
      b ∈ (getFunc (ds.foldl DelBlock s) k).block_list ↔
        b ∈ (getFunc s k).block_list ∧ b ∉ ds := by
  induction ds with
  | nil => intro s k b; simp
  | cons d ds ih =>
    intro s k b
    simp only [List.foldl_cons]
    rw [ih, getFunc_DelBlock]
    simp only [List.mem_filter, List.mem_cons, not_or, ne_eq, decide_not, Bool.not_eq_true',
      decide_eq_false_iff_not]
    tauto

theorem succ_foldl_DelBlock_sub (ds : List Nat) :
    ∀ (s : GlobalUnit) (x y : Nat),
      y ∈ (getBlock (ds.foldl DelBlock s) x).succ → y ∈ (getBlock s x).succ := by
  induction ds with
  | nil => intro s x y h; exact h
  | cons d ds ih =>
    intro s x y h
    simp only [List.foldl_cons] at h
    exact succ_DelBlock_sub s d x y (ih _ x y h)

theorem succ_foldl_DelBlock_eq (ds : List Nat) :
    ∀ (s : GlobalUnit) (x : Nat), (∀ d ∈ ds, d ∉ (getBlock s x).succ) →
      (getBlock (ds.foldl DelBlock s) x).succ = (getBlock s x).succ := by
  induction ds with
  | nil => intro s x _; rfl
  | cons d ds ih =>
    intro s x h
    simp only [List.foldl_cons]
    have h1 := succ_DelBlock_eq s d x (h d (List.mem_cons_self _ _))
    rw [ih (DelBlock s d) x, h1]
    intro d' hd'
    rw [h1]
    exact h d' (List.mem_cons_of_mem _ hd')

theorem succ_length_foldl_DelBlock_le (ds : List Nat) :
    ∀ (s : GlobalUnit) (x : Nat),
      (getBlock (ds.foldl DelBlock s) x).succ.length ≤ (getBlock s x).succ.length := by
  induction ds with
  | nil => intro s x; exact le_refl _
  | cons d ds ih =>
    intro s x
    simp only [List.foldl_cons]
    exact le_trans (ih _ x) (succ_length_DelBlock_le s d x)

theorem sum_map_le {f g : Nat → Nat} (h : ∀ x, f x ≤ g x) (l : List Nat) :
    (l.map f).sum ≤ (l.map g).sum := by
  induction l with
  | nil => simp
  | cons a l ih => simp only [List.map_cons, List.sum_cons]; have := h a; omega

theorem searchBound_foldl_DelBlock_le (ds : List Nat) (s : GlobalUnit) :
    searchBound (ds.foldl DelBlock s) ≤ searchBound s := by
  unfold searchBound pendingEdges
  rw [length_blocks_foldl_DelBlock]
  have := sum_map_le (succ_length_foldl_DelBlock_le ds s)
    ((List.range s.blocks.length).filter (fun b => decide (b ∉ ([] : List Nat))))
  omega

/-! ## `BuildCFG` establishes the reachability invariant -/

theorem getFunc_default_of_le (s : GlobalUnit) (k : Nat) (h : s.func_table.length ≤ k) :
    getFunc s k = default := by
  unfold getFunc; exact getD_default_of_le _ _ _ h

theorem ReachOwned_of_BlocksOwned {s : GlobalUnit} (h : BlocksOwned s) : ReachOwned s := by
  obtain ⟨h1, h2⟩ := h
  constructor
  · intro k e he u hu
    have hk : k < s.func_table.length := by
      by_contra hc
      rw [getFunc_default_of_le s k (by omega)] at he
      cases he
    obtain ⟨a, b⟩ := h1 k hk e he
    induction hu with
    | refl => exact a
    | step _ hy ih => exact b _ ih _ hy
  · intro k j b hk hj
    have hk' : k < s.func_table.length := by
      by_contra hc
      rw [getFunc_default_of_le s k (by omega)] at hk
      cases hk
    have hj' : j < s.func_table.length := by
      by_contra hc
      rw [getFunc_default_of_le s j (by omega)] at hj
      cases hj
    exact h2 k hk' j hj' b hk hj

theorem Reach_mono {s t : GlobalUnit} {e : Nat}
    (h : ∀ x y, y ∈ (getBlock s x).succ → y ∈ (getBlock t x).succ) :
    ∀ u, Reach s e u → Reach t e u := by
  intro u hu
  induction hu with
  | refl => exact Reach.refl
  | step _ hy ih => exact Reach.step ih (h _ _ hy)

theorem Reach_transfer {s t : GlobalUnit} {e : Nat}
    (h : ∀ x, Reach s e x → (getBlock t x).succ = (getBlock s x).succ) :
    ∀ u, Reach s e u → Reach t e u := by
  intro u hu
  induction hu with
  | refl => exact Reach.refl
  | step hu' hy ih => exact Reach.step ih (by rw [h _ hu']; exact hy)

/-- One iteration of the loop of `BuildCFG`: the function at index `j` gets pruned,
the functions already pruned stay pruned, and ownership is kept. -/
theorem pruneFunc_step (fuel : Nat) (s s' : GlobalUnit) (j : Nat)
    (hown : ReachOwned s) (h : pruneFunc fuel s j = some s') :
    ReachOwned s' ∧ (∀ k, Pruned s k → Pruned s' k) ∧ Pruned s' j ∧
    s'.func_table.length = s.func_table.length ∧ searchBound s' ≤ searchBound s := by
  unfold pruneFunc at h
  cases hej : (getFunc s j).entry with
  | none =>
    simp only [hej] at h
    cases h
    refine ⟨hown, fun _ h => h, ?_, rfl, le_refl _⟩
    intro e he; rw [hej] at he; cases he
  | some ej =>
    simp only [hej] at h
    cases hb : bfs fuel s [ej] [] with
    | none => simp [hb] at h
    | some vis =>
      simp only [hb, Option.some.injEq] at h
      have hvis := bfs_reach s ej fuel vis hb
      obtain ⟨ho1, ho2⟩ := hown
      -- no reachable block of any function is deleted
      have K : ∀ k e, (getFunc s k).entry = some e → ∀ u, Reach s e u →
          u ∉ (getFunc s j).block_list.filter (fun it => decide (it ∉ vis)) := by
        intro k e he u hu hmem
        obtain ⟨hm1, hm2⟩ := List.mem_filter.mp hmem
        have hkj : k = j := ho2 k j u (ho1 k e he u hu) hm1
        subst hkj
        rw [hej] at he
        cases he
        have : u ∈ vis := (hvis u).mpr hu
        simp [this] at hm2
      have hentry : ∀ k, (getFunc s' k).entry = (getFunc s k).entry := by
        intro k; rw [← h]; exact entry_foldl_DelBlock _ _ _
      have hlist : ∀ k b, b ∈ (getFunc s' k).block_list ↔
          b ∈ (getFunc s k).block_list ∧
            b ∉ (getFunc s j).block_list.filter (fun it => decide (it ∉ vis)) := by
        intro k b; rw [← h]; exact mem_block_list_foldl_DelBlock _ _ _ _
      have T : ∀ k e, (getFunc s k).entry = some e → ∀ u, Reach s e u → Reach s' e u := by
        intro k e he
        apply Reach_transfer
        intro x hx
        rw [← h]
        apply succ_foldl_DelBlock_eq
        intro d hd hds
        exact K k e he d (Reach.step hx hds) hd
      have R : ∀ e u, Reach s' e u → Reach s e u := by
        intro e
        apply Reach_mono
        intro x y hy
        rw [← h] at hy
        exact succ_foldl_DelBlock_sub _ _ _ _ hy
      refine ⟨⟨?_, ?_⟩, ?_, ?_, ?_, ?_⟩
      · intro k e he u hu
        rw [hentry] at he
        have hu' := R e u hu
        exact (hlist k u).mpr ⟨ho1 k e he u hu', K k e he u hu'⟩
      · intro k i b hk hi
        exact ho2 k i b ((hlist k b).mp hk).1 ((hlist i b).mp hi).1
      · intro k hp e he b hb'
        rw [hentry] at he
        exact T k e he b (hp e he b ((hlist k b).mp hb').1)
      · intro e he b hb'
        rw [hentry, hej] at he
        cases he
        obtain ⟨hb1, hb2⟩ := (hlist j b).mp hb'
        have : b ∈ vis := by
          by_contra hc
          exact hb2 (List.mem_filter.mpr ⟨hb1, by simpa using hc⟩)
        exact T j ej hej b ((hvis b).mp this)
      · rw [← h]; exact length_funcs_foldl_DelBlock _ _
      · rw [← h]; exact searchBound_foldl_DelBlock_le _ _

theorem pruneFunc_terminates (fuel : Nat) (s : GlobalUnit) (j : Nat)
    (hf : searchBound s ≤ fuel) : ∃ s', pruneFunc fuel s j = some s' := by
  unfold pruneFunc
  cases hej : (getFunc s j).entry with
  | none => exact ⟨s, rfl⟩
  | some ej =>
    obtain ⟨r, hr⟩ := bfs_terminates s fuel [ej] [] (by
      unfold searchBound at hf; simp; omega)
    simp only [hr]
    exact ⟨_, rfl⟩

theorem pruneFuncs_correct (fuel : Nat) :
    ∀ (ks : List Nat) (s s' : GlobalUnit), ReachOwned s → pruneFuncs fuel s ks = some s' →
      ReachOwned s' ∧ (∀ k, Pruned s k → Pruned s' k) ∧ (∀ k ∈ ks, Pruned s' k) ∧
      s'.func_table.length = s.func_table.length := by
  intro ks
  induction ks with
  | nil =>
    intro s s' hown h
    simp only [pruneFuncs, Option.some.injEq] at h
    subst h
    exact ⟨hown, fun _ h => h, by simp, rfl⟩
  | cons j ks ih =>
    intro s s' hown h
    simp only [pruneFuncs] at h
    cases h1 : pruneFunc fuel s j with
    | none => simp [h1] at h
    | some s1 =>
      simp only [h1] at h
      obtain ⟨a1, a2, a3, a4, _⟩ := pruneFunc_step fuel s s1 j hown h1
      obtain ⟨b1, b2, b3, b4⟩ := ih s1 s' a1 h
      refine ⟨b1, fun k hk => b2 k (a2 k hk), ?_, by rw [b4, a4]⟩
      intro k hk
      rcases List.mem_cons.mp hk with hk | hk
      · subst hk; exact b2 _ a3
      · exact b3 k hk

theorem pruneFuncs_terminates (fuel : Nat) :
    ∀ (ks : List Nat) (s : GlobalUnit), ReachOwned s → searchBound s ≤ fuel →
      ∃ s', pruneFuncs fuel s ks = some s' := by
  intro ks
  induction ks with
  | nil => intro s _ _; exact ⟨s, rfl⟩
  | cons j ks ih =>
    intro s hown hf
    obtain ⟨s1, h1⟩ := pruneFunc_terminates fuel s j hf
    obtain ⟨a1, _, _, _, a5⟩ := pruneFunc_step fuel s s1 j hown h1
    obtain ⟨s', h'⟩ := ih s1 a1 (le_trans a5 hf)
    exact ⟨s', by simp only [pruneFuncs, h1]; exact h'⟩

/-- C6: on a program whose blocks are owned by their functions, `BuildCFG` terminates
(every search runs at most `searchBound` iterations, loops in the graph included) and
afterwards every block left in the block sequence of a function with an entry block
is reachable from that entry by successor edges. -/
theorem BuildCFG_reachable (s : GlobalUnit) (hown : BlocksOwned s) :
    (∀ fuel, searchBound s ≤ fuel → ∃ s', BuildCFG fuel s = some s') ∧
    (∀ fuel s', BuildCFG fuel s = some s' →
      ∀ k e, (getFunc s' k).entry = some e →
        ∀ b ∈ (getFunc s' k).block_list, Reach s' e b) := by
  have hro := ReachOwned_of_BlocksOwned hown
  constructor
  · intro fuel hf
    exact pruneFuncs_terminates fuel _ s hro hf
  · intro fuel s' h k e he b hb
    obtain ⟨_, _, h3, h4⟩ := pruneFuncs_correct fuel _ s s' hro h
    have hk : k < s'.func_table.length := by
      by_contra hc
      rw [getFunc_default_of_le s' k (by omega)] at he
      cases he
    exact h3 k (List.mem_range.mpr (by omega)) e he b hb

/-- C6, witness: in `exCFG` the unreachable blocks 3 and 5 are deleted, the loop
`1 → 2 → 1` stays, and block 2 is reachable from the entry in the result. -/
theorem BuildCFG_reachable_witness :
    BlocksOwned exCFG ∧ BuildCFG (searchBound exCFG) exCFG = some exCFGPruned ∧
    (∃ s', BuildCFG (searchBound exCFG) exCFG = some s') ∧
    Reach exCFGPruned 0 2 :=
  ⟨by decide, by decide,
   (BuildCFG_reachable exCFG (by decide)).1 _ (le_refl _),
   (BuildCFG_reachable exCFG (by decide)).2 (searchBound exCFG) exCFGPruned (by decide)
     0 0 (by decide) 2 (by decide)⟩

/-! ## `Constlize` -/

theorem loadValue_replaceAllUsesOf (s : GlobalUnit) (o n l : Nat) :
    loadValue (replaceAllUsesOf s o n) l = loadValue s l := by
  unfold loadValue
  rw [getInstr_replaceAllUsesOf]
  split <;> rfl

theorem loadValue_applyPairs (ps : List (Nat × Nat)) :
    ∀ (s : GlobalUnit) (l : Nat), loadValue (applyPairs s ps) l = loadValue s l := by
  induction ps with
  | nil => intro s l; rfl
  | cons q ps ih =>
    intro s l
    show loadValue (applyPairs (replaceAllUsesOf s q.1 q.2) ps) l = _
    rw [ih, loadValue_replaceAllUsesOf]

theorem applyPairs_append (s : GlobalUnit) (ps qs : List (Nat × Nat)) :
    applyPairs s (ps ++ qs) = applyPairs (applyPairs s ps) qs := by
  unfold applyPairs; rw [List.foldl_append]

theorem constlizeLoads_eq (s : GlobalUnit) (c : Nat) :
    ∀ (loads : List Nat) (st : GlobalUnit), (∀ l, loadValue st l = loadValue s l) →
      (∀ l ∈ loads, (loadValue s l).isSome = true) →
      constlizeLoads st c loads = some (applyPairs st (loadPairs s c loads)) := by
  intro loads
  induction loads with
  | nil => intro st _ _; rfl
  | cons l loads ih =>
    intro st hst hl
    have h1 := hl l (List.mem_cons_self _ _)
    obtain ⟨v, hv⟩ := Option.isSome_iff_exists.mp h1
    have hv' : (getInstr st l).def_list.head? = some v := by
      have := hst l; unfold loadValue at this hv; rw [this, hv]
    obtain ⟨rest, hd⟩ : ∃ rest, (getInstr st l).def_list = v :: rest := by
      cases hdl : (getInstr st l).def_list with
      | nil => rw [hdl] at hv'; simp at hv'
      | cons a rest => rw [hdl] at hv'; simp at hv'; exact ⟨rest, by rw [hv']⟩
    simp only [constlizeLoads, hd]
    rw [ih (replaceAllUsesOf st v c)
      (fun l' => by rw [loadValue_replaceAllUsesOf]; exact hst l')
      (fun l' hl' => hl l' (List.mem_cons_of_mem _ hl'))]
    simp [loadPairs, hv, applyPairs]

theorem constlizeSymbols_eq (s : GlobalUnit) :
    ∀ (syms : List Symbol) (st : GlobalUnit), (∀ l, loadValue st l = loadValue s l) →
      (∀ g ∈ syms, isConstSymbol g = true → ∀ l ∈ g.use, (loadValue s l).isSome = true) →
      constlizeSymbols st syms = some (applyPairs st (symbolPairs s syms)) := by
  intro syms
  induction syms with
  | nil => intro st _ _; rfl
  | cons g syms ih =>
    intro st hst hl
    have ih' := fun st' hst' => ih st' hst' (fun g' hg' => hl g' (List.mem_cons_of_mem _ hg'))
    simp only [constlizeSymbols, symbolPairs]
    by_cases hg : isConstSymbol g = true
    · simp only [hg, if_true]
      rw [constlizeLoads_eq s g.constVal g.use st hst (hl g (List.mem_cons_self _ _) hg)]
      simp only
      rw [ih' _ (fun l => by rw [loadValue_applyPairs]; exact hst l), applyPairs_append]
    · simp only [hg, if_false, Bool.false_eq_true, List.nil_append]
      exact ih' st hst

theorem mem_loadPairs {s : GlobalUnit} {c : Nat} {loads : List Nat} {q : Nat × Nat} :
    q ∈ loadPairs s c loads ↔ ∃ l ∈ loads, loadValue s l = some q.1 ∧ q.2 = c := by
  unfold loadPairs
  simp only [List.mem_filterMap, Option.map_eq_some']
  constructor
  · rintro ⟨l, hl, v, hv, rfl⟩; exact ⟨l, hl, hv, rfl⟩
  · rintro ⟨l, hl, hv, hc⟩
    exact ⟨l, hl, q.1, hv, by rw [← hc]⟩

theorem mem_symbolPairs {s : GlobalUnit} {q : Nat × Nat} :
    ∀ {syms : List Symbol}, q ∈ symbolPairs s syms ↔
      ∃ g ∈ syms, isConstSymbol g = true ∧ ∃ l ∈ g.use, loadValue s l = some q.1 ∧ q.2 = g.constVal := by
  intro syms
  induction syms with
  | nil => simp [symbolPairs]
  | cons g syms ih =>
    simp only [symbolPairs, List.mem_append, ih, List.mem_cons, exists_eq_or_imp]
    by_cases hg : isConstSymbol g = true
    · simp [hg, mem_loadPairs]
    · simp [hg]

theorem slot_replaceAllUsesOf (s : GlobalUnit) (o n i p : Nat) :
    (operands (getInstr (replaceAllUsesOf s o n) i).kind)[p]? =
      if i ∈ (getVal s o).use then ((operands (getInstr s i).kind)[p]?).map (subst o n)
      else (operands (getInstr s i).kind)[p]? := by
  rw [getInstr_replaceAllUsesOf]
  split
  · simp only [operands_replaceOperand, List.getElem?_map]
  · rfl

theorem use_replaceAllUsesOf_other (s : GlobalUnit) (o n x : Nat) (h1 : x ≠ o) (h2 : x ≠ n) :
    (getVal (replaceAllUsesOf s o n) x).use = (getVal s x).use := by
  rw [getVal_replaceAllUsesOf_use s o n x h1]
  simp [h2]

theorem applyPairs_cons (st : GlobalUnit) (q : Nat × Nat) (ps : List (Nat × Nat)) :
    applyPairs st (q :: ps) = applyPairs (replaceAllUsesOf st q.1 q.2) ps := rfl

/-- A value that no substitution puts in place of another keeps an empty use list. -/
theorem applyPairs_use_stable (v : Nat) :
    ∀ (ps : List (Nat × Nat)) (st : GlobalUnit), (∀ q ∈ ps, q.2 ≠ v) →
      (getVal st v).use = [] → (getVal (applyPairs st ps) v).use = [] := by
  intro ps
  induction ps with
  | nil => intro st _ h; exact h
  | cons q ps ih =>
    intro st hq h
    rw [applyPairs_cons]
    apply ih (replaceAllUsesOf st q.1 q.2) (fun q' h' => hq q' (List.mem_cons_of_mem _ h'))
    by_cases hv0 : v = q.1
    · rw [hv0]; exact getVal_replaceAllUsesOf_old _ _ _
    · rw [use_replaceAllUsesOf_other st q.1 q.2 v hv0
        (fun h' => hq q (List.mem_cons_self _ _) h'.symm)]
      exact h

/-- A value that is substituted at some point, and that no substitution puts in place
of another, ends up with an empty use list. -/
theorem applyPairs_use_emptied (v : Nat) :
    ∀ (ps : List (Nat × Nat)) (st : GlobalUnit), (∀ q ∈ ps, q.2 ≠ v) →
      (∃ q ∈ ps, q.1 = v) → (getVal (applyPairs st ps) v).use = [] := by
  intro ps
  induction ps with
  | nil => intro st _ h; simp at h
  | cons q ps ih =>
    intro st hq hex
    have hq' : ∀ q' ∈ ps, q'.2 ≠ v := fun q' h' => hq q' (List.mem_cons_of_mem _ h')
    rw [applyPairs_cons]
    by_cases hv0 : q.1 = v
    · apply applyPairs_use_stable v ps (replaceAllUsesOf st q.1 q.2) hq'
      rw [hv0]; exact getVal_replaceAllUsesOf_old _ _ _
    · apply ih (replaceAllUsesOf st q.1 q.2) hq'
      obtain ⟨q', hm, hq1⟩ := hex
      rcases List.mem_cons.mp hm with h | h
      · subst h; exact absurd hq1 hv0
      · exact ⟨q', h, hq1⟩

/-- Once a slot holds the constant and the load result has no use, later substitutions
that neither replace the constant nor substitute the load result keep it so. -/
theorem applyPairs_stable (v0 c0 i p : Nat) :
    ∀ (ps : List (Nat × Nat)) (st : GlobalUnit),
      (∀ q ∈ ps, q.1 ≠ c0 ∧ q.2 ≠ v0) →
      (operands (getInstr st i).kind)[p]? = some c0 → (getVal st v0).use = [] →
      (operands (getInstr (applyPairs st ps) i).kind)[p]? = some c0 ∧
        (getVal (applyPairs st ps) v0).use = [] := by
  intro ps
  induction ps with
  | nil => intro st _ h1 h2; exact ⟨h1, h2⟩
  | cons q ps ih =>
    intro st hq h1 h2
    obtain ⟨ha, hb⟩ := hq q (List.mem_cons_self _ _)
    rw [applyPairs_cons]
    apply ih (replaceAllUsesOf st q.1 q.2) (fun q' hq' => hq q' (List.mem_cons_of_mem _ hq'))
    · rw [slot_replaceAllUsesOf]
      split
      · rw [h1]
        have : c0 ≠ q.1 := fun h => ha h.symm
        simp [subst, this]
      · exact h1
    · by_cases hv : v0 = q.1
      · rw [hv]; exact getVal_replaceAllUsesOf_old _ _ _
      · rw [use_replaceAllUsesOf_other st q.1 q.2 v0 hv (fun h => hb h.symm)]
        exact h2

/-- A slot of a user of the load result `v0` that holds `v0` ends up holding the
constant `c0`, and `v0` ends up without uses, when `v0` is substituted by `c0` at some
point and no substitution replaces a constant or substitutes a load result. -/
theorem applyPairs_substitutes (v0 c0 i p : Nat) :
    ∀ (ps : List (Nat × Nat)) (st : GlobalUnit),
      (∀ q ∈ ps, q.1 ≠ c0 ∧ q.2 ≠ v0 ∧ (q.1 = v0 → q.2 = c0)) →
      (∃ q ∈ ps, q.1 = v0) →
      i ∈ (getVal st v0).use → (operands (getInstr st i).kind)[p]? = some v0 →
      (operands (getInstr (applyPairs st ps) i).kind)[p]? = some c0 ∧
        (getVal (applyPairs st ps) v0).use = [] := by
  intro ps
  induction ps with
  | nil => intro st _ h; simp at h
  | cons q ps ih =>
    intro st hq hex hi hs
    obtain ⟨ha, hb, hc⟩ := hq q (List.mem_cons_self _ _)
    have hq' : ∀ q' ∈ ps, q'.1 ≠ c0 ∧ q'.2 ≠ v0 ∧ (q'.1 = v0 → q'.2 = c0) :=
      fun q' h => hq q' (List.mem_cons_of_mem _ h)
    by_cases hv : q.1 = v0
    · have hc' := hc hv
      rw [applyPairs_cons, hv, hc']
      apply applyPairs_stable v0 c0 i p ps _ (fun q' h => ⟨(hq' q' h).1, (hq' q' h).2.1⟩)
      · rw [slot_replaceAllUsesOf]
        simp [hi, hs, subst]
      · exact getVal_replaceAllUsesOf_old _ _ _
    · have hex' : ∃ q' ∈ ps, q'.1 = v0 := by
        obtain ⟨q', hm, hq1⟩ := hex
        rcases List.mem_cons.mp hm with h | h
        · subst h; exact absurd hq1 hv
        · exact ⟨q', h, hq1⟩
      rw [applyPairs_cons]
      apply ih (replaceAllUsesOf st q.1 q.2) hq' hex'
      · rw [use_replaceAllUsesOf_other st q.1 q.2 v0 (fun h => hv h.symm) (fun h => hb h.symm)]
        exact hi
      · rw [slot_replaceAllUsesOf]
        split
        · rw [hs]
          have : v0 ≠ q.1 := fun h => hv h.symm
          simp [subst, this]
        · exact hs

/-- C7: on a program whose loads of constant scalars are well formed, `Constlize`
returns, and for every global symbol that is not array-typed and has no store, for
every load in its use set and the value `v` the load defines: every instruction of the
use list of `v` has the symbol's constant value in each operand slot that held `v`, and
`v` has no use left.  Any number of loads of any number of such symbols. -/
theorem Constlize_substitutes (s : GlobalUnit) (hwf : LoadsWellFormed s) :
    ∃ s', Constlize s = some s' ∧
      ∀ g ∈ s.global_symbol_table, g.isArrayType = false → g.defs = [] →
        ∀ load ∈ g.use, ∀ v, loadValue s load = some v →
          (getVal s' v).use = [] ∧
          ∀ i ∈ (getVal s v).use, ∀ p : Nat, (operands (getInstr s i).kind)[p]? = some v →
            (operands (getInstr s' i).kind)[p]? = some g.constVal := by
  obtain ⟨w1, w2⟩ := hwf
  have heq : Constlize s = some (applyPairs s (symbolPairs s s.global_symbol_table)) :=
    constlizeSymbols_eq s _ s (fun _ => rfl) (fun g hg hc l hl => ((w1 g hg hc).2 l hl).1)
  refine ⟨_, heq, ?_⟩
  intro g hg ha hd load hload v hv
  have hc : isConstSymbol g = true := by simp [isConstSymbol, ha, hd]
  have hvn : (getVal s v).kind = .Named := ((w1 g hg hc).2 load hload).2 v hv
  have hcn : (getVal s g.constVal).kind ≠ .Named := (w1 g hg hc).1
  constructor
  · apply applyPairs_use_emptied v _ s
    · intro q hq h
      obtain ⟨g', hg', hc', _, _, _, hq2⟩ := mem_symbolPairs.mp hq
      rw [hq2] at h; rw [← h] at hvn
      exact (w1 g' hg' hc').1 hvn
    · exact ⟨(v, g.constVal), mem_symbolPairs.mpr ⟨g, hg, hc, load, hload, hv, rfl⟩, rfl⟩
  · intro i hi p hp
    refine (applyPairs_substitutes v g.constVal i p _ s ?_ ?_ hi hp).1
    · intro q hq
      obtain ⟨g', hg', hc', l', hl', hv', hq2⟩ := mem_symbolPairs.mp hq
      have hq1n : (getVal s q.1).kind = .Named := ((w1 g' hg' hc').2 l' hl').2 q.1 hv'
      refine ⟨?_, ?_, ?_⟩
      · intro h; rw [h] at hq1n; exact hcn hq1n
      · intro h; rw [hq2] at h; rw [← h] at hvn; exact (w1 g' hg' hc').1 hvn
      · intro h
        rw [hq2]
        exact (w2 g hg hc g' hg' hc' load hload l' hl' (by rw [hv, hv', h])).symm
    · exact ⟨(v, g.constVal), mem_symbolPairs.mpr ⟨g, hg, hc, load, hload, hv, rfl⟩, rfl⟩

/-- C7, witness: in `exGlobals` the scalar `g` has no store and the constant `int 7`;
after `Constlize` the instruction that added its two loads adds `int 7` and `int 7`,
the other reader of the second load reads `int 7`, and the loads have no use left. -/
theorem Constlize_substitutes_witness :
    LoadsWellFormed exGlobals ∧
    (∃ s', Constlize exGlobals = some s' ∧
      (getInstr s' 2).kind = .BINARY .ADD 0 0 3 ∧ (getInstr s' 3).kind = .OTHER [0] ∧
      (getVal s' 0).kind = .IntConst 7 ∧ (getVal s' 1).use = [] ∧ (getVal s' 2).use = []) ∧
    ∃ s', Constlize exGlobals = some s' ∧
      ∀ g ∈ exGlobals.global_symbol_table, g.isArrayType = false → g.defs = [] →
        ∀ load ∈ g.use, ∀ v, loadValue exGlobals load = some v →
          (getVal s' v).use = [] ∧
          ∀ i ∈ (getVal exGlobals v).use, ∀ p : Nat,
            (operands (getInstr exGlobals i).kind)[p]? = some v →
            (operands (getInstr s' i).kind)[p]? = some g.constVal :=
  ⟨by decide, ⟨_, rfl, by decide⟩, Constlize_substitutes exGlobals (by decide)⟩

theorem scanBlock_exCmpNoDef_none :
    ∀ (fuel : Nat) (changed : Bool), scanBlock fuel exCmpNoDef 0 0 changed = none := by
  intro fuel
  induction fuel with
  | zero => intro changed; rfl
  | succ n ih =>
    intro changed
    have h1 : (getBlock exCmpNoDef 0).local_instr[0]? = some 0 := by decide
    have h2 : (getInstr exCmpNoDef 0).deleted = false := by decide
    have h3 : simplifyInstr exCmpNoDef 0 = (exCmpNoDef, true) := by decide
    simp only [scanBlock, h1, h2, h3]
    exact ih true

/-- C9, the failing input: a comparison of two constants that holds no defined value.
`SimplifyCmp` folds it, `ReplaceWithConst` returns at once because there is no defined
value, and the rule still reports a change with the graph exactly as it was; the scan
of the block restarts from its head for ever, so `ScalarOpt` returns for no bound on the
number of iterations. -/
theorem ScalarOpt_diverges_without_def :
    SimplifyCmp exCmpNoDef 0 = (exCmpNoDef, true) ∧
    ∀ fuel, ScalarOpt fuel exCmpNoDef = none := by
  refine ⟨by decide, ?_⟩
  intro fuel
  have hs : ∀ n, sweepLoop fuel n exCmpNoDef 0 = none := by
    intro n
    cases n with
    | zero => rfl
    | succ n =>
      have hb : (getFunc exCmpNoDef 0).block_list = [0] := by decide
      simp only [sweepLoop, hb, sweepBlocks, scanBlock_exCmpNoDef_none]
  have he : (getFunc exCmpNoDef 0).entry = some 0 := by decide
  have hr : List.range exCmpNoDef.func_table.length = [0] := by decide
  simp only [ScalarOpt, hr, optFuncs, he, hs]

/-- C10, the failing input: `exCondBr (bool true)`, whose entry block ends in
`condbr(bool true, L1, L2)`.  All three blocks are reachable, so `BuildCFG` deletes
nothing; `ScalarOpt` then resolves the branch and unlinks the edge to `L2`, and nothing
prunes again: `Optimize` returns a graph that still has `L2` in the block sequence
although `L2` is not reachable from the entry. -/
theorem Optimize_leaves_unreachable_block :
    BlocksOwned (exCondBr (.BoolConst true)) ∧
    BuildCFG 10 (exCondBr (.BoolConst true)) = some (exCondBr (.BoolConst true)) ∧
    ∃ s', Optimize 10 (exCondBr (.BoolConst true)) = some s' ∧
      (getFunc s' 0).entry = some 0 ∧ (getFunc s' 0).block_list = [0, 1, 2] ∧
      (getBlock s' 0).local_instr = [1] ∧ getInstr s' 1 = ⟨.BR 1, [], 0, false⟩ ∧
      (getBlock s' 0).succ = [1] ∧ (getBlock s' 1).succ = [] ∧
      2 ∈ (getFunc s' 0).block_list ∧ ¬ Reach s' 0 2 := by
  refine ⟨by decide, by decide, _, rfl, by decide, by decide, by decide, by decide, by decide,
    by decide, by decide, ?_⟩
  intro h
  have hb : bfs 10 (Option.get (Optimize 10 (exCondBr (.BoolConst true))) (by decide)) [0] [] =
      some [1, 0] := by decide
  have := (bfs_reach _ 0 10 _ hb 2).mpr h
  simp at this

/-! ## The shape of a rewrite -/

theorem def_list_subset_defsOf (ins : Instruction) : ∀ d ∈ ins.def_list, d ∈ defsOf ins := by
  intro d hd
  unfold defsOf
  split
  · exact List.mem_cons_of_mem _ hd
  · exact hd

theorem ReplaceWithConst_shape (st : GlobalUnit) (i : Nat) (c : ValueRef) :
    ReplaceWithConst st i c = st ∨
    ∃ d, d ∈ defsOf (getInstr st i) ∧
      ReplaceWithConst st i c = replaceByOperand (addValue st c) i d st.vals.length := by
  unfold ReplaceWithConst
  cases h : (getInstr st i).def_list with
  | nil => exact Or.inl rfl
  | cons d rest =>
    refine Or.inr ⟨d, def_list_subset_defsOf _ d (by rw [h]; exact List.mem_cons_self _ _), rfl⟩

theorem RuleShape_const {st : GlobalUnit} {i : Nat} {c : ValueRef} (hc : c.use = []) :
    RuleShape st i (ReplaceWithConst st i c) := by
  rcases ReplaceWithConst_shape st i c with h | ⟨d, hd, h⟩
  · exact Or.inl h
  · exact Or.inr (Or.inr (Or.inl ⟨d, c, hd, hc, h⟩))

theorem simplifyWith_shape {st : GlobalUnit} {i : Nat} {f : Option ValueRef}
    (hf : ∀ c, f = some c → c.use = []) : RuleShape st i (simplifyWith f st i).1 := by
  unfold simplifyWith
  cases f with
  | none => exact Or.inl rfl
  | some c => exact RuleShape_const (hf c rfl)

theorem FoldBinary_use {st : GlobalUnit} {i : Nat} {c : ValueRef}
    (h : FoldBinary st i = some c) : c.use = [] := by
  unfold FoldBinary at h
  split at h
  · split at h
    · cases h
    · split at h
      all_goals first
        | (cases h; rfl)
        | cases h
        | (simp only at h; split at h <;> first | (cases h; rfl) | cases h)
  · cases h

theorem FoldCmp_use {st : GlobalUnit} {i : Nat} {c : ValueRef}
    (h : FoldCmp st i = some c) : c.use = [] := by
  unfold FoldCmp at h
  split at h
  · split at h
    · cases h
    · split at h <;> first | (cases h; rfl) | cases h
  · cases h

theorem FoldZExt_use {st : GlobalUnit} {i : Nat} {c : ValueRef}
    (h : FoldZExt st i = some c) : c.use = [] := by
  unfold FoldZExt at h
  split at h
  · split at h
    · cases h
    · cases h; rfl
  · cases h

theorem FoldXor_use {st : GlobalUnit} {i : Nat} {c : ValueRef}
    (h : FoldXor st i = some c) : c.use = [] := by
  unfold FoldXor at h
  split at h
  · split at h
    · cases h
    · cases h; rfl
  · cases h

theorem FoldFNeg_use {st : GlobalUnit} {i : Nat} {c : ValueRef}
    (h : FoldFNeg st i = some c) : c.use = [] := by
  unfold FoldFNeg at h
  split at h
  · split at h
    · cases h; rfl
    · cases h
  · cases h

theorem FoldSll_use {st : GlobalUnit} {i : Nat} {c : ValueRef}
    (h : FoldSll st i = some c) : c.use = [] := by
  unfold FoldSll at h
  split at h
  · split at h
    · cases h
    · cases h; rfl
  · cases h

theorem FoldSra_use {st : GlobalUnit} {i : Nat} {c : ValueRef}
    (h : FoldSra st i = some c) : c.use = [] := by
  unfold FoldSra at h
  split at h
  · split at h
    · cases h
    · cases h; rfl
  · cases h

theorem SimplifyBinary_shape (st : GlobalUnit) (i : Nat) :
    RuleShape st i (SimplifyBinary st i).1 := by
  unfold SimplifyBinary
  split
  next op src1 src2 dst hk =>
    have hdst : dst ∈ defsOf (getInstr st i) := by simp [defsOf, hk]
    have h1 : src1 ∈ operands (getInstr st i).kind := by simp [operands, hk]
    have h2 : src2 ∈ operands (getInstr st i).kind := by simp [operands, hk]
    have k1 : RuleShape st i (replaceByOperand st i dst src1) :=
      Or.inr (Or.inl ⟨dst, src1, hdst, h1, rfl⟩)
    have k2 : RuleShape st i (replaceByOperand st i dst src2) :=
      Or.inr (Or.inl ⟨dst, src2, hdst, h2, rfl⟩)
    have k0 : RuleShape st i (ReplaceWithConst st i (MakeIntConst 0)) := RuleShape_const rfl
    have kn : RuleShape st i st := Or.inl rfl
    split
    · cases hf : FoldBinary st i with
      | none => exact kn
      | some c => exact RuleShape_const (FoldBinary_use hf)
    · repeat' split
      all_goals first | exact k1 | exact k2 | exact k0 | exact kn
  · exact Or.inl rfl

theorem SimplifyCondBr_shape (st : GlobalUnit) (i : Nat) :
    RuleShape st i (SimplifyCondBr st i).1 := by
  unfold SimplifyCondBr
  split
  · split
    · exact Or.inl rfl
    · exact Or.inr (Or.inr (Or.inr ⟨_, _, rfl⟩))
  · exact Or.inl rfl

theorem simplifyInstr_shape (st : GlobalUnit) (i : Nat) :
    RuleShape st i (simplifyInstr st i).1 := by
  unfold simplifyInstr
  split
  · exact SimplifyBinary_shape st i
  · exact simplifyWith_shape (fun c h => FoldCmp_use h)
  · exact simplifyWith_shape (fun c h => FoldZExt_use h)
  · exact simplifyWith_shape (fun c h => FoldXor_use h)
  · exact simplifyWith_shape (fun c h => FoldFNeg_use h)
  · exact simplifyWith_shape (fun c h => FoldSll_use h)
  · exact simplifyWith_shape (fun c h => FoldSra_use h)
  · exact SimplifyCondBr_shape st i
  · exact Or.inl rfl

/-! ## What the outcome of a rule depends on -/

theorem simplifyWith_flag (f : Option ValueRef) (st : GlobalUnit) (i : Nat) :
    (simplifyWith f st i).2 = f.isSome := by
  cases f <;> rfl

theorem simplifyWith_nomatch (f : Option ValueRef) (st : GlobalUnit) (i : Nat)
    (h : (simplifyWith f st i).2 = false) : (simplifyWith f st i).1 = st := by
  cases f with
  | none => rfl
  | some c => simp [simplifyWith] at h

theorem SimplifyBinary_nomatch (st : GlobalUnit) (i : Nat)
    (h : (SimplifyBinary st i).2 = false) : (SimplifyBinary st i).1 = st := by
  unfold SimplifyBinary at h ⊢
  repeat' split
  all_goals first | rfl | (exfalso; revert h; simp_all)

theorem SimplifyCondBr_nomatch (st : GlobalUnit) (i : Nat)
    (h : (SimplifyCondBr st i).2 = false) : (SimplifyCondBr st i).1 = st := by
  unfold SimplifyCondBr at h ⊢
  repeat' split
  all_goals first | rfl | (exfalso; revert h; simp_all)

/-- A rule that reports no match leaves the graph as it is. -/
theorem simplifyInstr_nomatch (st : GlobalUnit) (i : Nat)
    (h : (simplifyInstr st i).2 = false) : (simplifyInstr st i).1 = st := by
  unfold simplifyInstr at h ⊢
  cases hk : (getInstr st i).kind <;> simp only [hk] at h ⊢
  · exact SimplifyBinary_nomatch st i h
  · exact simplifyWith_nomatch _ st i h
  · exact simplifyWith_nomatch _ st i h
  · exact simplifyWith_nomatch _ st i h
  · exact simplifyWith_nomatch _ st i h
  · exact simplifyWith_nomatch _ st i h
  · exact simplifyWith_nomatch _ st i h
  · exact SimplifyCondBr_nomatch st i h

theorem FoldBinary_congr {st st' : GlobalUnit} {i : Nat}
    (hi : (getInstr st' i).kind = (getInstr st i).kind)
    (hv : ∀ v ∈ operands (getInstr st i).kind, (getVal st' v).kind = (getVal st v).kind) :
    FoldBinary st' i = FoldBinary st i := by
  unfold FoldBinary
  rw [hi]
  cases hk : (getInstr st i).kind <;> simp only []
  next op src1 src2 dst =>
    have h1 := hv src1 (by simp [hk, operands])
    have h2 := hv src2 (by simp [hk, operands])
    simp only [IsIntConst, GetIntConst, h1, h2]

theorem FoldCmp_congr {st st' : GlobalUnit} {i : Nat}
    (hi : (getInstr st' i).kind = (getInstr st i).kind)
    (hv : ∀ v ∈ operands (getInstr st i).kind, (getVal st' v).kind = (getVal st v).kind) :
    FoldCmp st' i = FoldCmp st i := by
  unfold FoldCmp
  rw [hi]
  cases hk : (getInstr st i).kind <;> simp only []
  next op src1 src2 =>
    have h1 := hv src1 (by simp [hk, operands])
    have h2 := hv src2 (by simp [hk, operands])
    simp only [IsConstValue, cmpOperand, IsIntConst, IsBoolConst, GetBoolConst, GetIntConst, h1, h2]

theorem Fold1_congr {st st' : GlobalUnit} {i : Nat}
    (hi : (getInstr st' i).kind = (getInstr st i).kind)
    (hv : ∀ v ∈ operands (getInstr st i).kind, (getVal st' v).kind = (getVal st v).kind) :
    FoldZExt st' i = FoldZExt st i ∧ FoldXor st' i = FoldXor st i ∧
    FoldFNeg st' i = FoldFNeg st i := by
  unfold FoldZExt FoldXor FoldFNeg
  rw [hi]
  cases hk : (getInstr st i).kind <;> simp only [and_self]
  all_goals
    rename_i src
    have h1 := hv src (by simp [hk, operands])
    simp [IsBoolConst, GetBoolConst, h1]

theorem Fold2_congr {st st' : GlobalUnit} {i : Nat}
    (hi : (getInstr st' i).kind = (getInstr st i).kind)
    (hv : ∀ v ∈ operands (getInstr st i).kind, (getVal st' v).kind = (getVal st v).kind) :
    FoldSll st' i = FoldSll st i ∧ FoldSra st' i = FoldSra st i := by
  unfold FoldSll FoldSra
  rw [hi]
  cases hk : (getInstr st i).kind <;> simp only [and_self]
  all_goals
    rename_i src1 bits
    have h1 := hv src1 (by simp [hk, operands])
    have h2 := hv bits (by simp [hk, operands])
    simp [IsIntConst, GetIntConst, h1, h2]

theorem SimplifyBinary_flag_congr {st st' : GlobalUnit} {i : Nat}
    (hi : (getInstr st' i).kind = (getInstr st i).kind)
    (hv : ∀ v ∈ operands (getInstr st i).kind, (getVal st' v).kind = (getVal st v).kind) :
    (SimplifyBinary st' i).2 = (SimplifyBinary st i).2 := by
  have hf := FoldBinary_congr hi hv
  unfold SimplifyBinary
  rw [hi, hf]
  cases hk : (getInstr st i).kind <;> simp only []
  next op src1 src2 dst =>
    have h1 := hv src1 (by simp [hk, operands])
    have h2 := hv src2 (by simp [hk, operands])
    have e1 : IsIntConst st' src1 = IsIntConst st src1 := by simp only [IsIntConst, h1]
    have e2 : IsIntConst st' src2 = IsIntConst st src2 := by simp only [IsIntConst, h2]
    have g1 : GetIntConst st' src1 = GetIntConst st src1 := by simp only [GetIntConst, h1]
    have g2 : GetIntConst st' src2 = GetIntConst st src2 := by simp only [GetIntConst, h2]
    rw [e1, e2, g1, g2]
    cases FoldBinary st i <;> simp only [apply_ite Prod.snd]

theorem SimplifyCondBr_flag_congr {st st' : GlobalUnit} {i : Nat}
    (hi : (getInstr st' i).kind = (getInstr st i).kind)
    (hv : ∀ v ∈ operands (getInstr st i).kind, (getVal st' v).kind = (getVal st v).kind) :
    (SimplifyCondBr st' i).2 = (SimplifyCondBr st i).2 := by
  unfold SimplifyCondBr
  rw [hi]
  cases hk : (getInstr st i).kind <;> simp only []
  next c t f =>
    have h1 := hv c (by simp [hk, operands])
    have e1 : IsConstValue st' c = IsConstValue st c := by
      simp only [IsConstValue, IsIntConst, IsBoolConst, h1]
    rw [e1]
    split <;> rfl

/-- Whether a rule fires on an instruction depends on the instruction and on the
variants of the values it reads, and on nothing else in the graph. -/
theorem simplifyInstr_flag_congr {st st' : GlobalUnit} {i : Nat}
    (hi : (getInstr st' i).kind = (getInstr st i).kind)
    (hv : ∀ v ∈ operands (getInstr st i).kind, (getVal st' v).kind = (getVal st v).kind) :
    (simplifyInstr st' i).2 = (simplifyInstr st i).2 := by
  unfold simplifyInstr
  rw [hi]
  cases hk : (getInstr st i).kind <;> simp only []
  · exact SimplifyBinary_flag_congr hi hv
  · unfold SimplifyCmp; rw [simplifyWith_flag, simplifyWith_flag, FoldCmp_congr hi hv]
  · unfold SimplifyZExt; rw [simplifyWith_flag, simplifyWith_flag, (Fold1_congr hi hv).1]
  · unfold SimplifyXor; rw [simplifyWith_flag, simplifyWith_flag, (Fold1_congr hi hv).2.1]
  · unfold SimplifyFNeg; rw [simplifyWith_flag, simplifyWith_flag, (Fold1_congr hi hv).2.2]
  · unfold SimplifySll; rw [simplifyWith_flag, simplifyWith_flag, (Fold2_congr hi hv).1]
  · unfold SimplifySra; rw [simplifyWith_flag, simplifyWith_flag, (Fold2_congr hi hv).2]
  · exact SimplifyCondBr_flag_congr hi hv

theorem NoMatch_congr {st st' : GlobalUnit} {i : Nat}
    (hi : getInstr st' i = getInstr st i)
    (hv : ∀ v ∈ operands (getInstr st i).kind, (getVal st' v).kind = (getVal st v).kind)
    (h : NoMatch st i) : NoMatch st' i := by
  unfold NoMatch at *
  rw [hi, simplifyInstr_flag_congr (by rw [hi]) hv]
  exact h

/-! ## The graph primitives keep the functions separate -/

theorem mem_foldl_insertUse (l2 : List Nat) :
    ∀ (l1 : List Nat) (u : Nat), u ∈ l2.foldl insertUse l1 → u ∈ l1 ∨ u ∈ l2 := by
  induction l2 with
  | nil => intro l1 u h; exact Or.inl h
  | cons a l2 ih =>
    intro l1 u h
    simp only [List.foldl_cons] at h
    rcases ih _ u h with h1 | h1
    · unfold insertUse at h1
      split at h1
      · exact Or.inl h1
      · rcases List.mem_append.mp h1 with h2 | h2
        · exact Or.inl h2
        · simp at h2; subst h2; exact Or.inr (List.mem_cons_self _ _)
    · exact Or.inr (List.mem_cons_of_mem _ h1)

theorem defsOf_replaceOperand (ins : Instruction) (o n : Nat) :
    defsOf { ins with kind := replaceOperand o n ins.kind } = defsOf ins := by
  unfold defsOf
  cases h : ins.kind <;> simp [replaceOperand]

theorem defsOf_deleted (ins : Instruction) (b : Bool) :
    defsOf { ins with deleted := b } = defsOf ins := rfl

theorem mem_subst {o n v x : Nat} (h : x = subst o n v) : x = n ∨ x = v := by
  unfold subst at h
  split at h
  · exact Or.inl h
  · exact Or.inr h

theorem Sep_inFunc_unique {st : GlobalUnit} (h : Separate st) {k k' i : Nat}
    (h1 : InFunc st k i) (h2 : InFunc st k' i) : k = k' :=
  h.1 k k' _ (h.2.1 k i h1).2.2.2 (h.2.1 k' i h2).2.2.2

theorem Sep_mono {st st' : GlobalUnit} (hf : st'.func_table = st.func_table)
    (hi : st'.instrs = st.instrs) (hv : st'.vals = st.vals)
    (hb : ∀ k j, InFunc st' k j → InFunc st k j) (h : Separate st) : Separate st' := by
  have gI : ∀ j, getInstr st' j = getInstr st j := fun j => by unfold getInstr; rw [hi]
  have gV : ∀ v, getVal st' v = getVal st v := fun v => by unfold getVal; rw [hv]
  have gF : ∀ k, getFunc st' k = getFunc st k := fun k => by unfold getFunc; rw [hf]
  obtain ⟨hA, hB, hE, hF⟩ := h
  refine ⟨?_, ?_, ?_, ?_⟩
  · intro k k' b h1 h2
    rw [gF] at h1 h2
    exact hA k k' b h1 h2
  · intro k i hin
    rw [gI, gF, hi, hv]
    exact hB k i (hb k i hin)
  · intro k' i d u hin hd hu
    rw [gI] at hd
    rw [gV] at hu
    rw [hi]
    obtain ⟨e1, e2⟩ := hE k' i d u (hb k' i hin) hd hu
    exact ⟨e1, fun k hk => e2 k (hb k u hk)⟩
  · intro k k' i v i2 hin hv' hin2 hd
    rw [gI] at hv' hd
    exact hF k k' i v i2 (hb k i hin) hv' (hb k' i2 hin2) hd

theorem Sep_addValue {st : GlobalUnit} (c : ValueRef) (h : Separate st) :
    Separate (addValue st c) := by
  obtain ⟨hA, hB, hE, hF⟩ := h
  refine ⟨hA, ?_, ?_, hF⟩
  · intro k i hin
    obtain ⟨b1, b2, b3, b4⟩ := hB k i hin
    refine ⟨b1, ?_, ?_, b4⟩
    · intro v hv
      have := b2 v hv
      show v < (st.vals ++ [c]).length
      simp; omega
    · intro d hd
      have := b3 d hd
      show d < (st.vals ++ [c]).length
      simp; omega
  · intro k' i d u hin hd hu
    have hlt : d < st.vals.length := (hB k' i hin).2.2.1 d hd
    rw [getVal_addValue] at hu
    have : d ≠ st.vals.length := by omega
    simp only [this, if_false] at hu
    exact hE k' i d u hin hd hu

theorem Sep_DeleteInstruction {st : GlobalUnit} (i0 : Nat) (h : Separate st) :
    Separate (DeleteInstruction st i0) := by
  obtain ⟨hA, hB, hE, hF⟩ := h
  have gK : ∀ j, (getInstr (DeleteInstruction st i0) j).kind = (getInstr st j).kind := by
    intro j; rw [getInstr_DeleteInstruction]; split <;> rfl
  have gD : ∀ j, defsOf (getInstr (DeleteInstruction st i0) j) = defsOf (getInstr st j) := by
    intro j; rw [getInstr_DeleteInstruction]; split <;> rfl
  have gB : ∀ j, (getInstr (DeleteInstruction st i0) j).block = (getInstr st j).block := by
    intro j; rw [getInstr_DeleteInstruction]; split <;> rfl
  have hlenI : (DeleteInstruction st i0).instrs.length = st.instrs.length := by
    simp [DeleteInstruction, length_updAt]
  have hlenV : (DeleteInstruction st i0).vals.length = st.vals.length := by
    simp [DeleteInstruction, length_mapFrom]
  refine ⟨hA, ?_, ?_, ?_⟩
  · intro k i hin
    rw [gK, gD, gB, hlenI, hlenV]
    exact hB k i hin
  · intro k' i d u hin hd hu
    rw [gD] at hd
    rw [getVal_DeleteInstruction] at hu
    rw [hlenI]
    have hu' : u ∈ (getVal st d).use := by
      simp only at hu
      split at hu
      · exact (List.mem_filter.mp hu).1
      · exact hu
    exact hE k' i d u hin hd hu'
  · intro k k' i v i2 hin hv hin2 hd
    rw [gK] at hv
    rw [gD] at hd
    exact hF k k' i v i2 hin hv hin2 hd

theorem InFunc_UnlinkBlock (st : GlobalUnit) (b d k j : Nat) :
    InFunc (UnlinkBlock st b d) k j ↔ InFunc st k j := by
  unfold InFunc
  constructor
  · rintro ⟨x, hx, hj⟩
    rw [getBlock_UnlinkBlock] at hj
    exact ⟨x, hx, hj⟩
  · rintro ⟨x, hx, hj⟩
    refine ⟨x, hx, ?_⟩
    rw [getBlock_UnlinkBlock]
    exact hj

theorem Sep_UnlinkBlock {st : GlobalUnit} (b d : Nat) (h : Separate st) :
    Separate (UnlinkBlock st b d) :=
  @Sep_mono st (UnlinkBlock st b d) rfl rfl rfl
    (fun k j hj => (InFunc_UnlinkBlock st b d k j).mp hj) h

theorem Sep_addInstr {st : GlobalUnit} (x : Instruction) (h : Separate st) :
    Separate (addInstr st x) := by
  obtain ⟨hA, hB, hE, hF⟩ := h
  have gI : ∀ k j, InFunc st k j → getInstr (addInstr st x) j = getInstr st j := by
    intro k j hj
    rw [getInstr_addInstr]
    have := (hB k j hj).1
    have : j ≠ st.instrs.length := by omega
    simp [this]
  have hlen : (addInstr st x).instrs.length = st.instrs.length + 1 := by
    simp [addInstr]
  refine ⟨hA, ?_, ?_, ?_⟩
  · intro k i hin
    rw [gI k i hin, hlen]
    obtain ⟨b1, b2, b3, b4⟩ := hB k i hin
    exact ⟨by omega, b2, b3, b4⟩
  · intro k' i d u hin hd hu
    rw [gI k' i hin] at hd
    rw [hlen]
    obtain ⟨e1, e2⟩ := hE k' i d u hin hd hu
    exact ⟨by omega, e2⟩
  · intro k k' i v i2 hin hv hin2 hd
    rw [gI k i hin] at hv
    rw [gI k' i2 hin2] at hd
    exact hF k k' i v i2 hin hv hin2 hd

theorem Sep_replaceAllUsesOf {st : GlobalUnit} (k1 i0 d0 nw : Nat) (h : Separate st)
    (hi0 : InFunc st k1 i0) (hd0 : d0 ∈ defsOf (getInstr st i0)) (hnw : nw < st.vals.length)
    (hown : ∀ k' i2, InFunc st k' i2 → nw ∈ defsOf (getInstr st i2) → k' = k1) :
    Separate (replaceAllUsesOf st d0 nw) := by
  obtain ⟨hA, hB, hE, hF⟩ := h
  have gD : ∀ j, defsOf (getInstr (replaceAllUsesOf st d0 nw) j) = defsOf (getInstr st j) := by
    intro j; rw [getInstr_replaceAllUsesOf]; split
    · exact defsOf_replaceOperand _ _ _
    · rfl
  have gB : ∀ j, (getInstr (replaceAllUsesOf st d0 nw) j).block = (getInstr st j).block := by
    intro j; rw [getInstr_replaceAllUsesOf]; split <;> rfl
  have gO : ∀ j v, v ∈ operands (getInstr (replaceAllUsesOf st d0 nw) j).kind →
      v ∈ operands (getInstr st j).kind ∨ (v = nw ∧ j ∈ (getVal st d0).use) := by
    intro j v hv
    rw [getInstr_replaceAllUsesOf] at hv
    split at hv
    next hj =>
      simp only [operands_replaceOperand, List.mem_map] at hv
      obtain ⟨v0, hv0, hv1⟩ := hv
      rcases mem_subst hv1.symm with e | e
      · exact Or.inr ⟨e, hj⟩
      · rw [e]; exact Or.inl hv0
    · exact Or.inl hv
  have gU : ∀ d u, u ∈ (getVal (replaceAllUsesOf st d0 nw) d).use →
      u ∈ (getVal st d).use ∨ (d = nw ∧ u ∈ (getVal st d0).use) := by
    intro d u hu
    by_cases hd : d = d0
    · rw [hd, getVal_replaceAllUsesOf_old] at hu; simp at hu
    · rw [getVal_replaceAllUsesOf_use st d0 nw d hd] at hu
      split at hu
      next hc =>
        rcases mem_foldl_insertUse _ _ _ hu with e | e
        · exact Or.inl e
        · exact Or.inr ⟨hc.1, e⟩
      · exact Or.inl hu
  have hlenI : (replaceAllUsesOf st d0 nw).instrs.length = st.instrs.length := by
    simp [replaceAllUsesOf, length_mapFrom]
  have hlenV : (replaceAllUsesOf st d0 nw).vals.length = st.vals.length := by
    simp [replaceAllUsesOf, length_updAt]
  refine ⟨hA, ?_, ?_, ?_⟩
  · intro k i hin
    have hin' : InFunc st k i := hin
    obtain ⟨b1, b2, b3, b4⟩ := hB k i hin'
    rw [gD, gB, hlenI, hlenV]
    refine ⟨b1, ?_, b3, b4⟩
    intro v hv
    rcases gO i v hv with e | ⟨e, _⟩
    · exact b2 v e
    · rw [e]; exact hnw
  · intro k' i d u hin hd hu
    have hin' : InFunc st k' i := hin
    rw [gD] at hd
    rw [hlenI]
    rcases gU d u hu with e | ⟨e1, e2⟩
    · exact hE k' i d u hin' hd e
    · have hk : k' = k1 := hown k' i hin' (by rw [← e1]; exact hd)
      rw [hk]
      exact hE k1 i0 d0 u hi0 hd0 e2
  · intro k k' i v i2 hin hv hin2 hd
    have hin' : InFunc st k i := hin
    have hin2' : InFunc st k' i2 := hin2
    rw [gD] at hd
    rcases gO i v hv with e | ⟨e1, e2⟩
    · exact hF k k' i v i2 hin' e hin2' hd
    · have hk : k' = k1 := hown k' i2 hin2' (by rw [← e1]; exact hd)
      have hk2 : k = k1 := (hE k1 i0 d0 i hi0 hd0 e2).2 k hin'
      rw [hk, hk2]

theorem InFunc_eraseInstrAt (st : GlobalUnit) (b pos k j : Nat)
    (h : InFunc (eraseInstrAt st b pos) k j) : InFunc st k j := by
  obtain ⟨x, hx, hj⟩ := h
  refine ⟨x, hx, ?_⟩
  have : (getBlock (eraseInstrAt st b pos) x).local_instr =
      if x = b ∧ x < st.blocks.length then (getBlock st x).local_instr.eraseIdx pos
      else (getBlock st x).local_instr := by
    unfold getBlock eraseInstrAt
    simp only [getD_updAt]
    split <;> rfl
  rw [this] at hj
  split at hj
  · exact (List.eraseIdx_sublist _ _).subset hj
  · exact hj

theorem Sep_eraseInstrAt {st : GlobalUnit} (b pos : Nat) (h : Separate st) :
    Separate (eraseInstrAt st b pos) :=
  @Sep_mono st (eraseInstrAt st b pos) rfl rfl rfl
    (fun k j hj => InFunc_eraseInstrAt st b pos k j hj) h

theorem InFunc_ReplaceInstr (st : GlobalUnit) (i n k j : Nat)
    (h : InFunc (ReplaceInstr st i n) k j) :
    InFunc st k j ∨ (j = n ∧ InFunc st k i) := by
  obtain ⟨x, hx, hj⟩ := h
  rw [getBlock_ReplaceInstr] at hj
  split at hj
  · simp only [List.mem_map] at hj
    obtain ⟨y, hy, hyj⟩ := hj
    split at hyj
    next hyi => exact Or.inr ⟨hyj.symm, x, hx, by rw [← hyi]; exact hy⟩
    · exact Or.inl ⟨x, hx, by rw [← hyj]; exact hy⟩
  · exact Or.inl ⟨x, hx, hj⟩

theorem Sep_ReplaceInstr {st : GlobalUnit} (k1 i n : Nat) (h : Separate st)
    (_hi : InFunc st k1 i) (hn : n < st.instrs.length)
    (hops : operands (getInstr st n).kind = []) (hdefs : defsOf (getInstr st n) = [])
    (hblk : (getInstr st n).block = (getInstr st i).block)
    (hfresh : ∀ k' i2 d, InFunc st k' i2 → d ∈ defsOf (getInstr st i2) →
      n ∉ (getVal st d).use) :
    Separate (ReplaceInstr st i n) := by
  obtain ⟨hA, hB, hE, hF⟩ := h
  have gin := InFunc_ReplaceInstr st i n
  refine ⟨hA, ?_, ?_, ?_⟩
  · intro k j hin
    show j < st.instrs.length ∧ (∀ v ∈ operands (getInstr st j).kind, v < st.vals.length) ∧
      (∀ d ∈ defsOf (getInstr st j), d < st.vals.length) ∧
      (getInstr st j).block ∈ (getFunc st k).block_list
    rcases gin k j hin with e | ⟨e1, e2⟩
    · exact hB k j e
    · rw [e1, hops, hdefs, hblk]
      exact ⟨hn, by simp, by simp, (hB k i e2).2.2.2⟩
  · intro k' j d u hin hd hu
    have hd' : d ∈ defsOf (getInstr st j) := hd
    have hu' : u ∈ (getVal st d).use := hu
    show u < st.instrs.length ∧ _
    rcases gin k' j hin with e | ⟨e1, _⟩
    · obtain ⟨x1, x2⟩ := hE k' j d u e hd' hu'
      refine ⟨x1, ?_⟩
      intro k hk
      rcases gin k u hk with e' | ⟨e1', _⟩
      · exact x2 k e'
      · exact absurd (by rw [← e1']; exact hu') (hfresh k' j d e hd')
    · rw [e1, hdefs] at hd'; simp at hd'
  · intro k k' j v j2 hin hv hin2 hd
    have hv' : v ∈ operands (getInstr st j).kind := hv
    have hd' : v ∈ defsOf (getInstr st j2) := hd
    rcases gin k j hin with e | ⟨e1, _⟩
    · rcases gin k' j2 hin2 with e' | ⟨e1', _⟩
      · exact hF k k' j v j2 e hv' e' hd'
      · rw [e1', hdefs] at hd'; simp at hd'
    · rw [e1, hops] at hv'; simp at hv'

/-! ## A rewrite in one function leaves the other functions alone -/

theorem RuleShape_func_table {st st' : GlobalUnit} {i : Nat} (hs : RuleShape st i st') :
    st'.func_table = st.func_table := by
  rcases hs with h | ⟨d, nw, _, _, h⟩ | ⟨d, c, _, _, h⟩ | ⟨t, dr, h⟩ <;> subst h <;> rfl

theorem Sep_rewire {st : GlobalUnit} {k1 i d nw : Nat} (h : Separate st)
    (hi : InFunc st k1 i) (hd : d ∈ defsOf (getInstr st i)) (hnw : nw < st.vals.length)
    (hown : ∀ k' i2, InFunc st k' i2 → nw ∈ defsOf (getInstr st i2) → k' = k1) :
    Separate (replaceByOperand st i d nw) :=
  Sep_DeleteInstruction i (Sep_replaceAllUsesOf k1 i d nw h hi hd hnw hown)

theorem Sep_RuleShape {st st' : GlobalUnit} {k1 i : Nat} (h : Separate st)
    (hi : InFunc st k1 i) (hs : RuleShape st i st') : Separate st' := by
  rcases hs with e | ⟨d, nw, hd, hnw, e⟩ | ⟨d, c, hd, _, e⟩ | ⟨t, dr, e⟩ <;> subst e
  · exact h
  · exact Sep_rewire h hi hd ((h.2.1 k1 i hi).2.1 nw hnw)
      (fun k' i2 h2 hd2 => (h.2.2.2 k1 k' i nw i2 hi hnw h2 hd2).symm)
  · apply Sep_rewire (Sep_addValue c h) hi hd
    · show st.vals.length < (st.vals ++ [c]).length
      simp
    · intro k' i2 h2 hd2
      have := (h.2.1 k' i2 h2).2.2.1 _ hd2
      omega
  · have hlt : i < st.instrs.length := (h.2.1 k1 i hi).1
    have hne : i ≠ st.instrs.length := by omega
    have h1 := Sep_UnlinkBlock (getInstr st i).block dr h
    have h2 := Sep_addInstr ⟨.BR t, [], (getInstr st i).block, false⟩ h1
    have hi2 : InFunc (addInstr (UnlinkBlock st (getInstr st i).block dr)
        ⟨.BR t, [], (getInstr st i).block, false⟩) k1 i :=
      (InFunc_UnlinkBlock st _ dr k1 i).mpr hi
    have gn : getInstr (addInstr (UnlinkBlock st (getInstr st i).block dr)
        ⟨.BR t, [], (getInstr st i).block, false⟩) st.instrs.length =
        ⟨.BR t, [], (getInstr st i).block, false⟩ := by
      rw [getInstr_addInstr]; simp [UnlinkBlock]
    have gi : ∀ j, j < st.instrs.length →
        getInstr (addInstr (UnlinkBlock st (getInstr st i).block dr)
        ⟨.BR t, [], (getInstr st i).block, false⟩) j = getInstr st j := by
      intro j hj
      rw [getInstr_addInstr]
      have : j ≠ (UnlinkBlock st (getInstr st i).block dr).instrs.length := by
        show j ≠ st.instrs.length; omega
      simp only [this, if_false]; rfl
    apply Sep_ReplaceInstr k1 i st.instrs.length h2 hi2
    · show st.instrs.length < (st.instrs ++ [_]).length
      simp
    · rw [gn]; rfl
    · rw [gn]; rfl
    · rw [gn, gi i hlt]
    · intro k' i2 d hin hd hu
      have hin' : InFunc st k' i2 := (InFunc_UnlinkBlock st _ dr k' i2).mp hin
      rw [gi i2 (h.2.1 k' i2 hin').1] at hd
      have := (h.2.2.1 k' i2 d _ hin' hd hu).1
      omega

/-- A function stays at its fixed point when its block sequence, the instruction
sequences of its blocks, its instructions and the variants of the values they read are
all unchanged. -/
theorem Settled_frame (st st' : GlobalUnit) {fuel k : Nat}
    (hf : st'.func_table = st.func_table)
    (hb : ∀ b ∈ (getFunc st k).block_list,
      (getBlock st' b).local_instr = (getBlock st b).local_instr)
    (hi : ∀ j, InFunc st k j → getInstr st' j = getInstr st j ∧
      ∀ v ∈ operands (getInstr st j).kind, (getVal st' v).kind = (getVal st v).kind)
    (h : Settled fuel st k) : Settled fuel st' k := by
  have gF : getFunc st' k = getFunc st k := by unfold getFunc; rw [hf]
  intro b hbm
  rw [gF] at hbm
  rw [hb b hbm]
  obtain ⟨h1, h2⟩ := h b hbm
  refine ⟨h1, fun j hj => ?_⟩
  obtain ⟨e1, e2⟩ := hi j ⟨b, hbm, hj⟩
  exact NoMatch_congr e1 e2 (h2 j hj)

theorem Settled_addValue {st : GlobalUnit} {fuel k : Nat} (c : ValueRef) (h : Separate st)
    (hs : Settled fuel st k) : Settled fuel (addValue st c) k := by
  apply Settled_frame st (addValue st c) rfl (fun _ _ => rfl) _ hs
  intro j hj
  refine ⟨rfl, fun v hv => ?_⟩
  have := (h.2.1 k j hj).2.1 v hv
  rw [getVal_addValue]
  have : v ≠ st.vals.length := by omega
  simp [this]

theorem Settled_rewire {st : GlobalUnit} {fuel k k1 i d : Nat} (nw : Nat) (h : Separate st)
    (hi : InFunc st k1 i) (hd : d ∈ defsOf (getInstr st i)) (hk : k ≠ k1)
    (hs : Settled fuel st k) : Settled fuel (replaceByOperand st i d nw) k := by
  apply Settled_frame st (replaceByOperand st i d nw) rfl (fun _ _ => rfl) _ hs
  intro j hj
  have hji : j ≠ i := by
    intro e; rw [e] at hj; exact hk (Sep_inFunc_unique h hj hi)
  have hju : j ∉ (getVal st d).use := by
    intro e; exact hk ((h.2.2.1 k1 i d j hi hd e).2 k hj)
  constructor
  · unfold replaceByOperand
    rw [getInstr_DeleteInstruction]
    simp only [hji, false_and, if_false]
    rw [getInstr_replaceAllUsesOf]
    simp [hju]
  · intro v _
    unfold replaceByOperand
    rw [getVal_DeleteInstruction]
    exact getVal_replaceAllUsesOf_kind _ _ _ _

theorem Settled_RuleShape {st st' : GlobalUnit} {fuel k k1 i : Nat} (h : Separate st)
    (hi : InFunc st k1 i) (hs : RuleShape st i st') (hk : k ≠ k1)
    (hset : Settled fuel st k) : Settled fuel st' k := by
  rcases hs with e | ⟨d, nw, hd, _, e⟩ | ⟨d, c, hd, _, e⟩ | ⟨t, dr, e⟩ <;> subst e
  · exact hset
  · exact Settled_rewire nw h hi hd hk hset
  · exact Settled_rewire _ (Sep_addValue c h) hi hd hk (Settled_addValue c h hset)
  · apply Settled_frame st (ReplaceInstr
      (addInstr (UnlinkBlock st (getInstr st i).block dr)
        ⟨.BR t, [], (getInstr st i).block, false⟩) i st.instrs.length) rfl _ _ hset
    · intro b hb
      have hbne : b ≠ (getInstr st i).block := by
        intro e
        rw [e] at hb
        exact hk (h.1 k k1 _ hb (h.2.1 k1 i hi).2.2.2)
      rw [getBlock_ReplaceInstr]
      have hlt : i < st.instrs.length := (h.2.1 k1 i hi).1
      have gi : (getInstr (addInstr (UnlinkBlock st (getInstr st i).block dr)
          ⟨.BR t, [], (getInstr st i).block, false⟩) i).block = (getInstr st i).block := by
        rw [getInstr_addInstr]
        have : i ≠ (UnlinkBlock st (getInstr st i).block dr).instrs.length := by
          show i ≠ st.instrs.length; omega
        simp only [this, if_false]; rfl
      rw [gi]
      simp only [hbne, if_false]
      show (getBlock (UnlinkBlock st _ _) b).local_instr = _
      rw [getBlock_UnlinkBlock]
    · intro j hj
      have hlt : j < st.instrs.length := (h.2.1 k j hj).1
      refine ⟨?_, fun _ _ => rfl⟩
      show getInstr (addInstr (UnlinkBlock st _ _) _) j = _
      rw [getInstr_addInstr]
      have : j ≠ (UnlinkBlock st (getInstr st i).block dr).instrs.length := by
        show j ≠ st.instrs.length; omega
      simp only [this, if_false]; rfl

theorem Settled_eraseInstrAt {st : GlobalUnit} {fuel k k1 b : Nat} (pos : Nat)
    (h : Separate st) (hb : b ∈ (getFunc st k1).block_list) (hk : k ≠ k1)
    (hs : Settled fuel st k) : Settled fuel (eraseInstrAt st b pos) k := by
  apply Settled_frame st (eraseInstrAt st b pos) rfl _ (fun _ _ => ⟨rfl, fun _ _ => rfl⟩) hs
  intro x hx
  have hne : x ≠ b := by
    intro e; rw [e] at hx; exact hk (h.1 k k1 b hx hb)
  unfold getBlock eraseInstrAt
  simp only [getD_updAt, hne, false_and, if_false]

/-! ## The loops of `ScalarOpt` -/

theorem scanBlock_frame (k1 : Nat) :
    ∀ (fuel : Nat) (st : GlobalUnit) (b pos : Nat) (ch : Bool) (st' : GlobalUnit) (ch' : Bool),
      b ∈ (getFunc st k1).block_list → Separate st →
      scanBlock fuel st b pos ch = some (st', ch') →
      Separate st' ∧ st'.func_table = st.func_table ∧
        ∀ F k, k ≠ k1 → Settled F st k → Settled F st' k := by
  intro fuel
  induction fuel with
  | zero => intro st b pos ch st' ch' _ _ h; simp [scanBlock] at h
  | succ n ih =>
    intro st b pos ch st' ch' hb hsep h
    simp only [scanBlock] at h
    cases hget : (getBlock st b).local_instr[pos]? with
    | none =>
      simp only [hget, Option.some.injEq, Prod.mk.injEq] at h
      obtain ⟨rfl, rfl⟩ := h
      exact ⟨hsep, rfl, fun _ _ _ h => h⟩
    | some instr =>
      simp only [hget] at h
      have hin : InFunc st k1 instr := ⟨b, hb, List.getElem?_mem hget⟩
      split at h
      · obtain ⟨a1, a2, a3⟩ := ih (eraseInstrAt st b pos) b pos ch st' ch' hb
          (Sep_eraseInstrAt b pos hsep) h
        exact ⟨a1, a2, fun F k hk hs => a3 F k hk (Settled_eraseInstrAt pos hsep hb hk hs)⟩
      · have hshape := simplifyInstr_shape st instr
        have hsep1 := Sep_RuleShape hsep hin hshape
        have hft := RuleShape_func_table hshape
        have hb1 : b ∈ (getFunc (simplifyInstr st instr).1 k1).block_list := by
          unfold getFunc; rw [hft]; exact hb
        have hset : ∀ F k, k ≠ k1 → Settled F st k → Settled F (simplifyInstr st instr).1 k :=
          fun F k hk hs => Settled_RuleShape hsep hin hshape hk hs
        split at h
        · obtain ⟨a1, a2, a3⟩ := ih _ b 0 true st' ch' hb1 hsep1 h
          exact ⟨a1, by rw [a2, hft], fun F k hk hs => a3 F k hk (hset F k hk hs)⟩
        · obtain ⟨a1, a2, a3⟩ := ih _ b (pos + 1) ch st' ch' hb1 hsep1 h
          exact ⟨a1, by rw [a2, hft], fun F k hk hs => a3 F k hk (hset F k hk hs)⟩

theorem sweepBlocks_frame (k1 fuel : Nat) :
    ∀ (bs : List Nat) (st : GlobalUnit) (ch : Bool) (st' : GlobalUnit) (ch' : Bool),
      (∀ b ∈ bs, b ∈ (getFunc st k1).block_list) → Separate st →
      sweepBlocks fuel st bs ch = some (st', ch') →
      Separate st' ∧ st'.func_table = st.func_table ∧
        ∀ F k, k ≠ k1 → Settled F st k → Settled F st' k := by
  intro bs
  induction bs with
  | nil =>
    intro st ch st' ch' _ hsep h
    simp only [sweepBlocks, Option.some.injEq, Prod.mk.injEq] at h
    obtain ⟨rfl, rfl⟩ := h
    exact ⟨hsep, rfl, fun _ _ _ h => h⟩
  | cons b bs ih =>
    intro st ch st' ch' hbs hsep h
    simp only [sweepBlocks] at h
    cases hscan : scanBlock fuel st b 0 ch with
    | none => simp [hscan] at h
    | some r =>
      simp only [hscan] at h
      obtain ⟨a1, a2, a3⟩ := scanBlock_frame k1 fuel st b 0 ch r.1 r.2
        (hbs b (List.mem_cons_self _ _)) hsep hscan
      have hbs1 : ∀ x ∈ bs, x ∈ (getFunc r.1 k1).block_list := by
        intro x hx; unfold getFunc; rw [a2]; exact hbs x (List.mem_cons_of_mem _ hx)
      obtain ⟨c1, c2, c3⟩ := ih r.1 r.2 st' ch' hbs1 a1 h
      exact ⟨c1, by rw [c2, a2], fun F k hk hs => c3 F k hk (a3 F k hk hs)⟩

theorem sweepLoop_frame (k1 fuel : Nat) :
    ∀ (n : Nat) (st st' : GlobalUnit), Separate st → sweepLoop fuel n st k1 = some st' →
      Separate st' ∧ st'.func_table = st.func_table ∧
        ∀ F k, k ≠ k1 → Settled F st k → Settled F st' k := by
  intro n
  induction n with
  | zero => intro st st' _ h; simp [sweepLoop] at h
  | succ n ih =>
    intro st st' hsep h
    simp only [sweepLoop] at h
    cases hsw : sweepBlocks fuel st (getFunc st k1).block_list false with
    | none => simp [hsw] at h
    | some r =>
      simp only [hsw] at h
      obtain ⟨a1, a2, a3⟩ := sweepBlocks_frame k1 fuel _ st false r.1 r.2 (fun _ h => h) hsep hsw
      split at h
      · obtain ⟨c1, c2, c3⟩ := ih r.1 st' a1 h
        exact ⟨c1, by rw [c2, a2], fun F k hk hs => c3 F k hk (a3 F k hk hs)⟩
      · simp only [Option.some.injEq] at h
        subst h
        exact ⟨a1, a2, a3⟩

theorem scanBlock_flag_true :
    ∀ (fuel : Nat) (st : GlobalUnit) (b pos : Nat) (st' : GlobalUnit) (ch' : Bool),
      scanBlock fuel st b pos true = some (st', ch') → ch' = true := by
  intro fuel
  induction fuel with
  | zero => intro st b pos st' ch' h; simp [scanBlock] at h
  | succ n ih =>
    intro st b pos st' ch' h
    simp only [scanBlock] at h
    split at h
    · simp only [Option.some.injEq, Prod.mk.injEq] at h; exact h.2.symm
    · split at h
      · exact ih _ _ _ _ _ h
      · split at h <;> exact ih _ _ _ _ _ h

theorem sweepBlocks_flag_true (fuel : Nat) :
    ∀ (bs : List Nat) (st st' : GlobalUnit) (ch' : Bool),
      sweepBlocks fuel st bs true = some (st', ch') → ch' = true := by
  intro bs
  induction bs with
  | nil =>
    intro st st' ch' h
    simp only [sweepBlocks, Option.some.injEq, Prod.mk.injEq] at h
    exact h.2.symm
  | cons b bs ih =>
    intro st st' ch' h
    simp only [sweepBlocks] at h
    cases hscan : scanBlock fuel st b 0 true with
    | none => simp [hscan] at h
    | some r =>
      simp only [hscan] at h
      have := scanBlock_flag_true fuel st b 0 r.1 r.2 hscan
      rw [this] at h
      exact ih _ _ _ h

theorem NoMatch_same {st st' : GlobalUnit} (hi : st'.instrs = st.instrs)
    (hv : st'.vals = st.vals) (j : Nat) : NoMatch st' j ↔ NoMatch st j := by
  have gI : ∀ j, getInstr st' j = getInstr st j := fun j => by unfold getInstr; rw [hi]
  have gV : ∀ v, getVal st' v = getVal st v := fun v => by unfold getVal; rw [hv]
  constructor
  · exact NoMatch_congr (gI j).symm (fun v _ => by rw [gV])
  · exact NoMatch_congr (gI j) (fun v _ => by rw [gV])

theorem EraseOnly_refl (st : GlobalUnit) : EraseOnly st st :=
  ⟨rfl, rfl, rfl, fun _ => List.Sublist.refl _⟩

theorem EraseOnly_trans {s1 s2 s3 : GlobalUnit} (h1 : EraseOnly s1 s2) (h2 : EraseOnly s2 s3) :
    EraseOnly s1 s3 :=
  ⟨h2.1.trans h1.1, h2.2.1.trans h1.2.1, h2.2.2.1.trans h1.2.2.1,
    fun x => (h2.2.2.2 x).trans (h1.2.2.2 x)⟩

theorem getBlock_eraseInstrAt (st : GlobalUnit) (b pos x : Nat) :
    (getBlock (eraseInstrAt st b pos) x).local_instr =
      if x = b then (getBlock st x).local_instr.eraseIdx pos
      else (getBlock st x).local_instr := by
  unfold getBlock eraseInstrAt
  simp only [getD_updAt]
  by_cases h : x < st.blocks.length
  · by_cases h2 : x = b
    · subst h2; simp [h]
    · simp [h2]
  · simp only [h, and_false, if_false]
    rw [getD_default_of_le _ _ _ (by omega)]
    split <;> rfl

theorem EraseOnly_eraseInstrAt (st : GlobalUnit) (b pos : Nat) :
    EraseOnly st (eraseInstrAt st b pos) := by
  refine ⟨rfl, rfl, rfl, fun x => ?_⟩
  rw [getBlock_eraseInstrAt]
  split
  · exact List.eraseIdx_sublist _ _
  · exact List.Sublist.refl _

/-- A scan that ends with the flag still down has fired no rule: it has only erased
tombstoned instructions, and every instruction left in the block is passed over. -/
theorem scanBlock_settles :
    ∀ (fuel : Nat) (st : GlobalUnit) (b pos : Nat) (st' : GlobalUnit),
      (∀ j ∈ (getBlock st b).local_instr.take pos, NoMatch st j) →
      scanBlock fuel st b pos false = some (st', false) →
      EraseOnly st st' ∧ (∀ j ∈ (getBlock st' b).local_instr, NoMatch st' j) ∧
        (getBlock st' b).local_instr.length < fuel + pos := by
  intro fuel
  induction fuel with
  | zero => intro st b pos st' _ h; simp [scanBlock] at h
  | succ n ih =>
    intro st b pos st' hpre h
    simp only [scanBlock] at h
    cases hget : (getBlock st b).local_instr[pos]? with
    | none =>
      simp only [hget, Option.some.injEq, Prod.mk.injEq, and_true] at h
      subst h
      have hle : (getBlock st b).local_instr.length ≤ pos := List.getElem?_eq_none_iff.mp hget
      refine ⟨EraseOnly_refl st, ?_, by omega⟩
      intro j hj
      apply hpre
      rw [List.take_of_length_le hle]
      exact hj
    | some instr =>
      simp only [hget] at h
      split at h
      · -- a tombstone is erased
        have he := EraseOnly_eraseInstrAt st b pos
        have hl : (getBlock (eraseInstrAt st b pos) b).local_instr =
            (getBlock st b).local_instr.eraseIdx pos := by
          rw [getBlock_eraseInstrAt]; simp
        obtain ⟨a1, a2, a3⟩ := ih (eraseInstrAt st b pos) b pos st' (by
          intro j hj
          rw [hl, List.eraseIdx_eq_take_drop_succ, List.take_append_eq_append_take,
            List.take_take] at hj
          simp only [Nat.min_self, List.length_take] at hj
          have hlt : pos < (getBlock st b).local_instr.length :=
            (List.getElem?_eq_some.mp hget).1
          have hz : pos - min pos (getBlock st b).local_instr.length = 0 := by omega
          rw [hz] at hj
          simp only [List.take_zero, List.append_nil] at hj
          exact (@NoMatch_same st (eraseInstrAt st b pos) rfl rfl j).mpr (hpre j hj)) h
        exact ⟨EraseOnly_trans he a1, a2, by omega⟩
      next hdel =>
        split at h
        · exact absurd (scanBlock_flag_true _ _ _ _ _ _ h) (by simp)
        next hflag =>
          have hflag' : (simplifyInstr st instr).2 = false := by simpa using hflag
          have hst := simplifyInstr_nomatch st instr hflag'
          rw [hst] at h
          obtain ⟨a1, a2, a3⟩ := ih st b (pos + 1) st' (by
            intro j hj
            rw [List.take_succ, hget] at hj
            rcases List.mem_append.mp hj with e | e
            · exact hpre j e
            · simp at e
              subst e
              exact ⟨by simpa using hdel, hflag'⟩) h
          exact ⟨a1, a2, by omega⟩

theorem Good_of_EraseOnly {st st' : GlobalUnit} {fuel b : Nat} (he : EraseOnly st st')
    (h : (getBlock st b).local_instr.length < fuel ∧
      ∀ j ∈ (getBlock st b).local_instr, NoMatch st j) :
    (getBlock st' b).local_instr.length < fuel ∧
      ∀ j ∈ (getBlock st' b).local_instr, NoMatch st' j := by
  obtain ⟨e1, e2, _, e4⟩ := he
  refine ⟨lt_of_le_of_lt (e4 b).length_le h.1, fun j hj => ?_⟩
  exact (NoMatch_same e1 e2 j).mpr (h.2 j ((e4 b).subset hj))

theorem sweepBlocks_settles (fuel : Nat) :
    ∀ (bs : List Nat) (st st' : GlobalUnit),
      sweepBlocks fuel st bs false = some (st', false) →
      EraseOnly st st' ∧ ∀ b ∈ bs, (getBlock st' b).local_instr.length < fuel ∧
        ∀ j ∈ (getBlock st' b).local_instr, NoMatch st' j := by
  intro bs
  induction bs with
  | nil =>
    intro st st' h
    simp only [sweepBlocks, Option.some.injEq, Prod.mk.injEq, and_true] at h
    subst h
    exact ⟨EraseOnly_refl st, by simp⟩
  | cons b bs ih =>
    intro st st' h
    simp only [sweepBlocks] at h
    cases hscan : scanBlock fuel st b 0 false with
    | none => simp [hscan] at h
    | some r =>
      simp only [hscan] at h
      obtain ⟨s1, c1⟩ := r
      cases c1 with
      | true => exact absurd (sweepBlocks_flag_true fuel bs s1 st' false h) (by simp)
      | false =>
        obtain ⟨a1, a2, a3⟩ := scanBlock_settles fuel st b 0 s1 (by simp) hscan
        obtain ⟨b1, b2⟩ := ih s1 st' h
        refine ⟨EraseOnly_trans a1 b1, ?_⟩
        intro x hx
        rcases List.mem_cons.mp hx with e | e
        · subst e
          exact Good_of_EraseOnly b1 ⟨by omega, a2⟩
        · exact b2 x e

theorem sweepLoop_settles (fuel k : Nat) :
    ∀ (n : Nat) (st st' : GlobalUnit), Separate st → sweepLoop fuel n st k = some st' →
      Settled fuel st' k := by
  intro n
  induction n with
  | zero => intro st st' _ h; simp [sweepLoop] at h
  | succ n ih =>
    intro st st' hsep h
    simp only [sweepLoop] at h
    cases hsw : sweepBlocks fuel st (getFunc st k).block_list false with
    | none => simp [hsw] at h
    | some r =>
      simp only [hsw] at h
      obtain ⟨s1, c1⟩ := r
      cases c1 with
      | true =>
        simp only [if_true] at h
        obtain ⟨a1, _, _⟩ := sweepBlocks_frame k fuel _ st false s1 true (fun _ h => h) hsep hsw
        exact ih s1 st' a1 h
      | false =>
        simp only [Bool.false_eq_true, if_false, Option.some.injEq] at h
        subst h
        obtain ⟨a1, a2⟩ := sweepBlocks_settles fuel _ st s1 hsw
        intro b hb
        have : getFunc s1 k = getFunc st k := by unfold getFunc; rw [a1.2.2.1]
        rw [this] at hb
        exact a2 b hb

theorem scanBlock_settled :
    ∀ (fuel : Nat) (st : GlobalUnit) (b pos : Nat) (ch : Bool),
      pos ≤ (getBlock st b).local_instr.length →
      (getBlock st b).local_instr.length < fuel + pos →
      (∀ j ∈ (getBlock st b).local_instr.drop pos, NoMatch st j) →
      scanBlock fuel st b pos ch = some (st, ch) := by
  intro fuel
  induction fuel with
  | zero => intro st b pos ch h1 h2 _; omega
  | succ n ih =>
    intro st b pos ch h1 h2 h3
    simp only [scanBlock]
    cases hget : (getBlock st b).local_instr[pos]? with
    | none => rfl
    | some instr =>
      simp only []
      obtain ⟨hlt, hval⟩ := List.getElem?_eq_some.mp hget
      have hdrop : (getBlock st b).local_instr.drop pos =
          instr :: (getBlock st b).local_instr.drop (pos + 1) := by
        rw [List.drop_eq_getElem_cons hlt, hval]
      have hnm : NoMatch st instr := h3 instr (by rw [hdrop]; exact List.mem_cons_self _ _)
      have hst := simplifyInstr_nomatch st instr hnm.2
      simp only [hnm.1, hnm.2, Bool.false_eq_true, if_false, hst]
      apply ih st b (pos + 1) ch (by omega) (by omega)
      intro j hj
      exact h3 j (by rw [hdrop]; exact List.mem_cons_of_mem _ hj)

theorem sweepBlocks_settled (fuel : Nat) (st : GlobalUnit) :
    ∀ (bs : List Nat) (ch : Bool),
      (∀ b ∈ bs, (getBlock st b).local_instr.length < fuel ∧
        ∀ j ∈ (getBlock st b).local_instr, NoMatch st j) →
      sweepBlocks fuel st bs ch = some (st, ch) := by
  intro bs
  induction bs with
  | nil => intro ch _; rfl
  | cons b bs ih =>
    intro ch h
    obtain ⟨h1, h2⟩ := h b (List.mem_cons_self _ _)
    simp only [sweepBlocks]
    rw [scanBlock_settled fuel st b 0 ch (by omega) (by omega) (by simpa using h2)]
    exact ih ch (fun x hx => h x (List.mem_cons_of_mem _ hx))

theorem sweepLoop_settled (fuel n : Nat) (st : GlobalUnit) (k : Nat)
    (h : Settled fuel st k) : sweepLoop fuel (n + 1) st k = some st := by
  simp only [sweepLoop]
  rw [sweepBlocks_settled fuel st _ false h]
  rfl

theorem optFuncs_settled (fuel : Nat) (st : GlobalUnit) :
    ∀ ks : List Nat,
      (∀ k ∈ ks, (getFunc st k).entry ≠ none → fuel ≠ 0 ∧ Settled fuel st k) →
      optFuncs fuel st ks = some st := by
  intro ks
  induction ks with
  | nil => intro _; rfl
  | cons k ks ih =>
    intro h
    have ih' := ih (fun x hx => h x (List.mem_cons_of_mem _ hx))
    simp only [optFuncs]
    cases he : (getFunc st k).entry with
    | none => exact ih'
    | some e =>
      obtain ⟨h0, hs⟩ := h k (List.mem_cons_self _ _) (by rw [he]; simp)
      obtain ⟨m, hm⟩ := Nat.exists_eq_succ_of_ne_zero h0
      simp only []
      have : sweepLoop fuel fuel st k = some st := by
        conv => lhs; arg 2; rw [hm]
        exact sweepLoop_settled fuel m st k hs
      rw [this]
      exact ih'

/-- The loop of `ScalarOpt` over the functions: separation is kept, a function that is
settled and not in the list stays settled, and every function of the list with an entry
block is settled at the end. -/
theorem optFuncs_invariant (fuel : Nat) :
    ∀ (ks : List Nat) (st s1 : GlobalUnit), Separate st → ks.Nodup →
      optFuncs fuel st ks = some s1 →
      Separate s1 ∧ s1.func_table = st.func_table ∧
      (∀ k, k ∉ ks → Settled fuel st k → Settled fuel s1 k) ∧
      (∀ k ∈ ks, (getFunc st k).entry ≠ none → fuel ≠ 0 ∧ Settled fuel s1 k) := by
  intro ks
  induction ks with
  | nil =>
    intro st s1 hsep _ h
    simp only [optFuncs, Option.some.injEq] at h
    subst h
    exact ⟨hsep, rfl, fun _ _ h => h, by simp⟩
  | cons k ks ih =>
    intro st s1 hsep hnd h
    obtain ⟨hk, hnd'⟩ := List.nodup_cons.mp hnd
    simp only [optFuncs] at h
    cases he : (getFunc st k).entry with
    | none =>
      simp only [he] at h
      obtain ⟨a1, a2, a3, a4⟩ := ih st s1 hsep hnd' h
      refine ⟨a1, a2, fun x hx hs => a3 x (fun hc => hx (List.mem_cons_of_mem _ hc)) hs, ?_⟩
      intro x hx hne
      rcases List.mem_cons.mp hx with e | e
      · subst e; exact absurd he hne
      · exact a4 x e hne
    | some e =>
      simp only [he] at h
      cases hl : sweepLoop fuel fuel st k with
      | none => simp [hl] at h
      | some s2 =>
        simp only [hl] at h
        have h0 : fuel ≠ 0 := by
          intro hz; subst hz; simp [sweepLoop] at hl
        obtain ⟨b1, b2, b3⟩ := sweepLoop_frame k fuel fuel st s2 hsep hl
        have b4 := sweepLoop_settles fuel k fuel st s2 hsep hl
        obtain ⟨a1, a2, a3, a4⟩ := ih s2 s1 b1 hnd' h
        have gF : ∀ x, getFunc s2 x = getFunc st x := fun x => by unfold getFunc; rw [b2]
        refine ⟨a1, by rw [a2, b2], ?_, ?_⟩
        · intro x hx hs
          have hxk : x ≠ k := fun hc => hx (by rw [hc]; exact List.mem_cons_self _ _)
          exact a3 x (fun hc => hx (List.mem_cons_of_mem _ hc)) (b3 fuel x hxk hs)
        · intro x hx hne
          rcases List.mem_cons.mp hx with e' | e'
          · subst e'
            exact ⟨h0, a3 x hk b4⟩
          · exact a4 x e' (by rw [gF]; exact hne)

theorem Separate_of_FunctionsSeparate {s : GlobalUnit} (h : FunctionsSeparate s) :
    Separate s := by
  obtain ⟨hA, hB, hE, hF⟩ := h
  have hlt : ∀ k b, b ∈ (getFunc s k).block_list → k < s.func_table.length := by
    intro k b hb
    by_contra hc
    rw [getFunc_default_of_le s k (by omega)] at hb
    cases hb
  have hin : ∀ k i, InFunc s k i → k < s.func_table.length := by
    rintro k i ⟨b, hb, _⟩; exact hlt k b hb
  refine ⟨?_, ?_, ?_, ?_⟩
  · intro k k' b h1 h2
    exact hA k (hlt k b h1) k' (hlt k' b h2) b h1 h2
  · rintro k i ⟨b, hb, hi⟩
    exact hB k (hlt k b hb) b hb i hi
  · rintro k' i d u ⟨b, hb, hi⟩ hd hu
    obtain ⟨e1, e2⟩ := hE k' (hlt k' b hb) b hb i hi d hd u hu
    exact ⟨e1, fun k hk => e2 k (hin k u hk) hk⟩
  · rintro k k' i v i2 ⟨b, hb, hi⟩ hv ⟨b2, hb2, hi2⟩ hd
    exact hF k (hlt k b hb) k' (hlt k' b2 hb2) b hb i hi v hv b2 hb2 i2 hi2 hd

/-- C8: on a program whose functions own their code, if `ScalarOpt` returns the graph
`s1`, then `ScalarOpt` on `s1` returns `s1` itself, and the sweep of every function
with an entry block reports no change and leaves `s1` as it is. -/
theorem ScalarOpt_idempotent (s : GlobalUnit) (hsep : FunctionsSeparate s) (fuel : Nat)
    (s1 : GlobalUnit) (h : ScalarOpt fuel s = some s1) :
    ScalarOpt fuel s1 = some s1 ∧
    ∀ k e, (getFunc s1 k).entry = some e →
      sweepBlocks fuel s1 (getFunc s1 k).block_list false = some (s1, false) := by
  obtain ⟨_, a2, _, a4⟩ := optFuncs_invariant fuel _ s s1
    (Separate_of_FunctionsSeparate hsep) (List.nodup_range _) h
  have gF : ∀ x, getFunc s1 x = getFunc s x := fun x => by unfold getFunc; rw [a2]
  have hset : ∀ k, (getFunc s1 k).entry ≠ none → fuel ≠ 0 ∧ Settled fuel s1 k := by
    intro k hne
    have hk : k < s.func_table.length := by
      by_contra hc
      rw [gF, getFunc_default_of_le s k (by omega)] at hne
      exact hne rfl
    exact a4 k (List.mem_range.mpr hk) (by rw [← gF]; exact hne)
  constructor
  · unfold ScalarOpt
    exact optFuncs_settled fuel s1 _ (fun k _ hne => hset k hne)
  · intro k e he
    exact sweepBlocks_settled fuel s1 _ false (hset k (by rw [he]; simp)).2

/-- C8, witness: `ScalarOpt` folds `add(int 2, int 3)`, then `mul(int 5, int 1)`, and
resolves the constant branch of `exTwoFuncs`; a second run changes nothing. -/
theorem ScalarOpt_idempotent_witness :
    FunctionsSeparate exTwoFuncs ∧
    ∃ s1, ScalarOpt 10 exTwoFuncs = some s1 ∧
      (getInstr s1 2).kind = .OTHER [7] ∧ (getVal s1 7).kind = .IntConst 5 ∧
      (getBlock s1 0).local_instr = [2] ∧ (getBlock s1 1).local_instr = [6] ∧
      ScalarOpt 10 s1 = some s1 :=
  ⟨by decide, _, rfl, by decide, by decide, by decide, by decide,
    (ScalarOpt_idempotent exTwoFuncs (by decide) 10 _ rfl).1⟩

/-! ## Comparisons -/

theorem cmpOperand_of_constAsInt {s : GlobalUnit} {v : Nat} {a : Int}
    (h : constAsInt (getVal s v).kind = some a) :
    IsConstValue s v = true ∧ cmpOperand s v = a := by
  cases hk : (getVal s v).kind with
  | Named => rw [hk] at h; simp [constAsInt] at h
  | IntConst c =>
    rw [hk] at h; simp [constAsInt] at h
    simp [IsConstValue, IsIntConst, IsBoolConst, cmpOperand, GetBoolConst, GetIntConst, hk, h]
  | BoolConst b =>
    rw [hk] at h
    cases b <;> simp [constAsInt] at h <;>
      simp [IsConstValue, IsIntConst, IsBoolConst, cmpOperand, GetBoolConst, GetIntConst, hk, h]
  | FloatConst n m => rw [hk] at h; simp [constAsInt] at h

theorem IsConstValue_of_constAsInt_none {s : GlobalUnit} {v : Nat}
    (h : constAsInt (getVal s v).kind = none) : IsConstValue s v = false := by
  cases hk : (getVal s v).kind with
  | Named => simp [IsConstValue, IsIntConst, IsBoolConst, hk]
  | IntConst c => rw [hk] at h; simp [constAsInt] at h
  | BoolConst b => rw [hk] at h; cases b <;> simp [constAsInt] at h
  | FloatConst n m => simp [IsConstValue, IsIntConst, IsBoolConst, hk]

/-- C12: for a comparison with operator EQ, NE, LT, LE, GT or GE whose operands are
integer or boolean constants standing for the integers `a` and `b` (a boolean is 0 or
1), `FoldCmp` returns the boolean constant that says whether `a = b`, `a ≠ b`, `a < b`,
`a ≤ b`, `a > b`, `a ≥ b` holds; if one of the operands is not such a constant,
`FoldCmp` returns no fold and `SimplifyCmp` reports no match and changes nothing. -/
theorem FoldCmp_correct (s : GlobalUnit) (instr : Nat) (op : OpTy) (src1 src2 : Nat)
    (hk : (getInstr s instr).kind = .CMP op src1 src2)
    (hop : op ∈ [OpTy.EQ, OpTy.NE, OpTy.LT, OpTy.LE, OpTy.GT, OpTy.GE]) :
    (∀ a b, constAsInt (getVal s src1).kind = some a →
      constAsInt (getVal s src2).kind = some b →
      ∃ r : Bool, FoldCmp s instr = some (MakeBoolConst r) ∧
        (op = .EQ → (r = true ↔ a = b)) ∧ (op = .NE → (r = true ↔ a ≠ b)) ∧
        (op = .LT → (r = true ↔ a < b)) ∧ (op = .LE → (r = true ↔ a ≤ b)) ∧
        (op = .GT → (r = true ↔ a > b)) ∧ (op = .GE → (r = true ↔ a ≥ b))) ∧
    (constAsInt (getVal s src1).kind = none ∨ constAsInt (getVal s src2).kind = none →
      FoldCmp s instr = none ∧ SimplifyCmp s instr = (s, false)) := by
  constructor
  · intro a b ha hb
    obtain ⟨c1, v1⟩ := cmpOperand_of_constAsInt ha
    obtain ⟨c2, v2⟩ := cmpOperand_of_constAsInt hb
    simp only [List.mem_cons, List.mem_singleton, List.not_mem_nil, or_false] at hop
    rcases hop with h | h | h | h | h | h <;> subst h
    · exact ⟨decide (a = b), by simp [FoldCmp, hk, c1, c2, v1, v2], by simp⟩
    · exact ⟨decide (a ≠ b), by simp [FoldCmp, hk, c1, c2, v1, v2], by simp⟩
    · exact ⟨decide (a < b), by simp [FoldCmp, hk, c1, c2, v1, v2], by simp⟩
    · exact ⟨decide (a ≤ b), by simp [FoldCmp, hk, c1, c2, v1, v2], by simp⟩
    · exact ⟨decide (a > b), by simp [FoldCmp, hk, c1, c2, v1, v2], by simp⟩
    · exact ⟨decide (a ≥ b), by simp [FoldCmp, hk, c1, c2, v1, v2], by simp⟩
  · intro h
    have hf : FoldCmp s instr = none := by
      rcases h with h | h
      · simp [FoldCmp, hk, IsConstValue_of_constAsInt_none h]
      · simp [FoldCmp, hk, IsConstValue_of_constAsInt_none h]
    exact ⟨hf, by simp [SimplifyCmp, simplifyWith, hf]⟩

/-- C12, witness: `cmp lt (bool true, int 2)` folds to `bool true` (1 < 2),
`cmp ge (int -3, bool false)` to `bool false`, and a comparison with a named operand
is left alone. -/
theorem FoldCmp_correct_witness :
    FoldCmp (exCmp .LT (.BoolConst true) (.IntConst 2)) 0 = some (MakeBoolConst true) ∧
    FoldCmp (exCmp .GE (.IntConst (-3)) (.BoolConst false)) 0 = some (MakeBoolConst false) ∧
    (∃ r : Bool, FoldCmp (exCmp .LT (.BoolConst true) (.IntConst 2)) 0 =
        some (MakeBoolConst r) ∧ (r = true ↔ (1 : Int) < 2)) ∧
    SimplifyCmp (exCmp .EQ .Named (.IntConst 2)) 0 = (exCmp .EQ .Named (.IntConst 2), false) := by
  obtain ⟨r, h1, _, _, h3, _⟩ :=
    (FoldCmp_correct (exCmp .LT (.BoolConst true) (.IntConst 2)) 0 .LT 0 1 (by decide)
      (by decide)).1 1 2 (by decide) (by decide)
  exact ⟨by decide, by decide, ⟨r, h1, h3 rfl⟩,
    ((FoldCmp_correct (exCmp .EQ .Named (.IntConst 2)) 0 .EQ 0 1 (by decide)
      (by decide)).2 (Or.inl (by decide))).2⟩

/-! ## Shifts -/

theorem and32_31 (sh : Int) : and32 sh 31 = sh % 32 := by
  unfold and32
  have h31 : toU32 31 = 2 ^ 5 - 1 := by decide
  have hland : Nat.land (toU32 sh) (toU32 31) = toU32 sh % 2 ^ 5 := by
    rw [h31]; exact Nat.and_pow_two_sub_one_eq_mod _ _
  rw [hland]
  unfold toU32 wrap32
  simp only [Int.ofNat_eq_coe]
  omega

theorem shiftAmount_lt (sh : Int) : (sh % 32).toNat < 32 := by omega

theorem FoldSll_eq {s : GlobalUnit} {instr src1 bits : Nat} {a sh : Int}
    (hk : (getInstr s instr).kind = .SLL src1 bits)
    (h1 : (getVal s src1).kind = .IntConst a) (h2 : (getVal s bits).kind = .IntConst sh) :
    FoldSll s instr = some (MakeIntConst (wrap32 (a * 2 ^ (sh % 32).toNat))) := by
  simp [FoldSll, hk, IsIntConst_of_kind h1, IsIntConst_of_kind h2, GetIntConst_of_kind h1,
    GetIntConst_of_kind h2, and32_31]

theorem IsIntConst_false_of_kind {s : GlobalUnit} {v : Nat}
    (h : ∀ c, (getVal s v).kind ≠ .IntConst c) : IsIntConst s v = false := by
  unfold IsIntConst
  cases hk : (getVal s v).kind <;> simp_all

/-- C13: for a shift-left whose base `a` and amount `sh` are integer constants,
`FoldSll` returns the integer constant congruent to `a * 2^(sh mod 32)` modulo `2^32`
in the 32-bit range, `sh mod 32` being the low 5 bits of `sh` (also for a negative
`sh`); two amounts with the same low 5 bits give the same constant; and if the base or
the amount is not an integer constant there is no fold and `SimplifySll` changes
nothing. -/
theorem FoldSll_correct (s : GlobalUnit) (instr src1 bits : Nat)
    (hk : (getInstr s instr).kind = .SLL src1 bits) :
    (∀ a sh, (getVal s src1).kind = .IntConst a → (getVal s bits).kind = .IntConst sh →
      ∃ r : Int, FoldSll s instr = some (MakeIntConst r) ∧ In32 r ∧
        (4294967296 : Int) ∣ r - a * 2 ^ (sh % 32).toNat ∧ (sh % 32).toNat < 32 ∧
        ∀ (s' : GlobalUnit) (instr' src1' bits' : Nat) (sh' : Int),
          (getInstr s' instr').kind = .SLL src1' bits' →
          (getVal s' src1').kind = .IntConst a → (getVal s' bits').kind = .IntConst sh' →
          sh' % 32 = sh % 32 → FoldSll s' instr' = some (MakeIntConst r)) ∧
    ((∀ c, (getVal s src1).kind ≠ .IntConst c) ∨ (∀ c, (getVal s bits).kind ≠ .IntConst c) →
      FoldSll s instr = none ∧ SimplifySll s instr = (s, false)) := by
  constructor
  · intro a sh h1 h2
    refine ⟨_, FoldSll_eq hk h1 h2, wrap32_in32 _, wrap32_dvd _, shiftAmount_lt sh, ?_⟩
    intro s' instr' src1' bits' sh' hk' h1' h2' hsh
    rw [FoldSll_eq hk' h1' h2', hsh]
  · intro h
    have hf : FoldSll s instr = none := by
      rcases h with h | h
      · simp [FoldSll, hk, IsIntConst_false_of_kind h]
      · simp [FoldSll, hk, IsIntConst_false_of_kind h]
    exact ⟨hf, by simp [SimplifySll, simplifyWith, hf]⟩

/-- C13, witness: `shl(int 1, int 33)` yields `int 2`, `shl(int 1, int -1)` shifts by
31, and a shift of a named value is left alone. -/
theorem FoldSll_correct_witness :
    FoldSll (exUnary (.SLL 0 1) (.IntConst 1) (.IntConst 33)) 0 = some (MakeIntConst 2) ∧
    FoldSll (exUnary (.SLL 0 1) (.IntConst 1) (.IntConst (-1))) 0 =
      some (MakeIntConst (-2147483648)) ∧
    (∃ r : Int, FoldSll (exUnary (.SLL 0 1) (.IntConst 1) (.IntConst 33)) 0 =
        some (MakeIntConst r) ∧ (4294967296 : Int) ∣ r - 1 * 2 ^ ((33 : Int) % 32).toNat) ∧
    SimplifySll (exUnary (.SLL 0 1) .Named (.IntConst 1)) 0 =
      (exUnary (.SLL 0 1) .Named (.IntConst 1), false) := by
  obtain ⟨r, h1, _, h3, _⟩ :=
    (FoldSll_correct (exUnary (.SLL 0 1) (.IntConst 1) (.IntConst 33)) 0 0 1 (by decide)).1
      1 33 (by decide) (by decide)
  exact ⟨by decide, by decide, ⟨r, h1, h3⟩,
    ((FoldSll_correct (exUnary (.SLL 0 1) .Named (.IntConst 1)) 0 0 1 (by decide)).2
      (Or.inl (by intro c; show ValKind.Named ≠ _; simp))).2⟩

theorem FoldSra_eq {s : GlobalUnit} {instr src1 bits : Nat} {a sh : Int}
    (hk : (getInstr s instr).kind = .SRA src1 bits)
    (h1 : (getVal s src1).kind = .IntConst a) (h2 : (getVal s bits).kind = .IntConst sh) :
    FoldSra s instr = some (MakeIntConst (a / 2 ^ (sh % 32).toNat)) := by
  have : Int.shiftRight a (sh % 32).toNat = a / 2 ^ (sh % 32).toNat := by
    have := Int.shiftRight_eq_div_pow a (sh % 32).toNat
    simpa using this
  simp [FoldSra, hk, IsIntConst_of_kind h1, IsIntConst_of_kind h2, GetIntConst_of_kind h1,
    GetIntConst_of_kind h2, and32_31, this]

theorem floor_div_pow (a : Int) (k : Nat) :
    a / 2 ^ k * 2 ^ k ≤ a ∧ a < (a / 2 ^ k + 1) * 2 ^ k := by
  have hpos : (0 : Int) < 2 ^ k := by positivity
  exact ⟨Int.ediv_mul_le a (ne_of_gt hpos), Int.lt_ediv_add_one_mul_self a hpos⟩

/-- C14: for an arithmetic shift-right whose base `a` (a 32-bit value) and amount `sh`
are integer constants, `FoldSra` returns the integer constant `r = floor(a / 2^k)` with
`k = sh mod 32` the low 5 bits of `sh`: `r * 2^k ≤ a < (r + 1) * 2^k`, `r` is a 32-bit
value, `r` is negative exactly when `a` is, and two amounts with the same low 5 bits
give the same constant. -/
theorem FoldSra_correct (s : GlobalUnit) (instr src1 bits : Nat) (a sh : Int)
    (hk : (getInstr s instr).kind = .SRA src1 bits)
    (h1 : (getVal s src1).kind = .IntConst a) (h2 : (getVal s bits).kind = .IntConst sh)
    (ha : In32 a) :
    ∃ r : Int, FoldSra s instr = some (MakeIntConst r) ∧ In32 r ∧
      r * 2 ^ (sh % 32).toNat ≤ a ∧ a < (r + 1) * 2 ^ (sh % 32).toNat ∧
      (sh % 32).toNat < 32 ∧ (r < 0 ↔ a < 0) ∧
      ∀ (s' : GlobalUnit) (instr' src1' bits' : Nat) (sh' : Int),
        (getInstr s' instr').kind = .SRA src1' bits' →
        (getVal s' src1').kind = .IntConst a → (getVal s' bits').kind = .IntConst sh' →
        sh' % 32 = sh % 32 → FoldSra s' instr' = some (MakeIntConst r) := by
  obtain ⟨f1, f2⟩ := floor_div_pow a (sh % 32).toNat
  have hpos : (0 : Int) < 2 ^ (sh % 32).toNat := by positivity
  have hone : (1 : Int) ≤ 2 ^ (sh % 32).toNat := by omega
  have hneg : a / 2 ^ (sh % 32).toNat < 0 ↔ a < 0 := by
    constructor
    · intro h; nlinarith
    · intro h; by_contra hc; push_neg at hc; nlinarith
  have hr : In32 (a / 2 ^ (sh % 32).toNat) := by
    unfold In32 at *
    constructor
    · by_contra hc; push_neg at hc
      nlinarith
    · by_contra hc; push_neg at hc
      nlinarith
  refine ⟨_, FoldSra_eq hk h1 h2, hr, f1, f2, shiftAmount_lt sh, hneg, ?_⟩
  intro s' instr' src1' bits' sh' hk' h1' h2' hsh
  rw [FoldSra_eq hk' h1' h2', hsh]

/-- C14, witness: `sra(int -7, int 33)` shifts by 1 and yields `int -4`. -/
theorem FoldSra_correct_witness :
    FoldSra (exUnary (.SRA 0 1) (.IntConst (-7)) (.IntConst 33)) 0 = some (MakeIntConst (-4)) ∧
    FoldSra (exUnary (.SRA 0 1) (.IntConst (-7)) (.IntConst 1)) 0 = some (MakeIntConst (-4)) ∧
    ∃ r : Int, FoldSra (exUnary (.SRA 0 1) (.IntConst (-7)) (.IntConst 33)) 0 =
        some (MakeIntConst r) ∧ In32 r ∧ (r < 0 ↔ (-7 : Int) < 0) := by
  obtain ⟨r, h1, h2, _, _, _, h6, _⟩ :=
    FoldSra_correct (exUnary (.SRA 0 1) (.IntConst (-7)) (.IntConst 33)) 0 0 1 (-7) 33
      (by decide) (by decide) (by decide) (by decide)
  exact ⟨by decide, by decide, r, h1, h2, h6⟩

/-! ## Boolean negation -/

theorem FoldXor_eq {s : GlobalUnit} {instr src : Nat} {b : Bool}
    (hk : (getInstr s instr).kind = .XOR src) (h : (getVal s src).kind = .BoolConst b) :
    FoldXor s instr = some (MakeBoolConst (!b)) := by
  simp [FoldXor, hk, IsBoolConst, GetBoolConst, h]

/-- C16: for a boolean-xor instruction whose operand is the boolean constant `b`,
`FoldXor` returns the boolean constant `not b` and `SimplifyXor` replaces the
instruction by it; a boolean-xor of that result folds back to `b`; when the operand is
not a boolean constant (an integer constant included) there is no fold and
`SimplifyXor` returns the program unchanged with `false`. -/
theorem FoldXor_correct (s : GlobalUnit) (instr src : Nat)
    (hk : (getInstr s instr).kind = .XOR src) :
    (∀ b, (getVal s src).kind = .BoolConst b →
      FoldXor s instr = some (MakeBoolConst (!b)) ∧
      SimplifyXor s instr = (ReplaceWithConst s instr (MakeBoolConst (!b)), true) ∧
      ∀ (s' : GlobalUnit) (instr' src' : Nat), (getInstr s' instr').kind = .XOR src' →
        (getVal s' src').kind = (MakeBoolConst (!b)).kind →
        FoldXor s' instr' = some (MakeBoolConst b)) ∧
    ((∀ b, (getVal s src).kind ≠ .BoolConst b) →
      FoldXor s instr = none ∧ SimplifyXor s instr = (s, false)) := by
  constructor
  · intro b h
    refine ⟨FoldXor_eq hk h, by simp [SimplifyXor, simplifyWith, FoldXor_eq hk h], ?_⟩
    intro s' instr' src' hk' h'
    have := FoldXor_eq hk' h'
    simpa using this
  · intro h
    have hf : FoldXor s instr = none := by
      have : IsBoolConst s src = false := by
        unfold IsBoolConst
        cases hv : (getVal s src).kind <;> simp_all
      simp [FoldXor, hk, this]
    exact ⟨hf, by simp [SimplifyXor, simplifyWith, hf]⟩

/-- C16, witness: `xor true` folds to `false`, the xor of that result folds to `true`
again, and `xor (int 1)` is left alone. -/
theorem FoldXor_correct_witness :
    FoldXor exXorChain 0 = some (MakeBoolConst false) ∧
    FoldXor (SimplifyXor exXorChain 0).1 1 = some (MakeBoolConst true) ∧
    SimplifyXor (exUnary (.XOR 0) (.IntConst 1) .Named) 0 =
      (exUnary (.XOR 0) (.IntConst 1) .Named, false) :=
  ⟨((FoldXor_correct exXorChain 0 0 (by decide)).1 true (by decide)).1,
    ((FoldXor_correct exXorChain 0 0 (by decide)).1 true (by decide)).2.2
      (SimplifyXor exXorChain 0).1 1 3 (by decide) (by decide),
    ((FoldXor_correct (exUnary (.XOR 0) (.IntConst 1) .Named) 0 0 (by decide)).2
      (by intro b; show ValKind.IntConst 1 ≠ _; simp)).2⟩

/-! ## What `BuildCFG` keeps -/

theorem instrs_foldl_DelBlock (ds : List Nat) :
    ∀ s : GlobalUnit, (ds.foldl DelBlock s).instrs = s.instrs := by
  induction ds with
  | nil => intro s; rfl
  | cons d ds ih => intro s; rw [List.foldl_cons, ih]; rfl

theorem block_list_foldl_DelBlock (ds : List Nat) :
    ∀ (s : GlobalUnit) (k : Nat), (getFunc (ds.foldl DelBlock s) k).block_list =
      (getFunc s k).block_list.filter (fun x => decide (x ∉ ds)) := by
  induction ds with
  | nil => intro s k; simp
  | cons d ds ih =>
    intro s k
    rw [List.foldl_cons, ih, getFunc_DelBlock, List.filter_filter]
    apply List.filter_congr
    intro x _
    simp [Bool.and_comm]

theorem getBlock_DelBlock_eq (s : GlobalUnit) (d x : Nat)
    (h1 : d ∉ (getBlock s x).succ) (h2 : d ∉ (getBlock s x).pred) :
    getBlock (DelBlock s d) x = getBlock s x := by
  rw [getBlock_DelBlock]
  have e1 : (getBlock s x).succ.filter (fun y => decide (y ≠ d)) = (getBlock s x).succ := by
    apply List.filter_eq_self.mpr
    intro y hy; simp; rintro rfl; exact h1 hy
  have e2 : (getBlock s x).pred.filter (fun y => decide (y ≠ d)) = (getBlock s x).pred := by
    apply List.filter_eq_self.mpr
    intro y hy; simp; rintro rfl; exact h2 hy
  simp only [e1, e2, ite_self]

theorem getBlock_foldl_DelBlock_eq (ds : List Nat) :
    ∀ (s : GlobalUnit) (x : Nat),
      (∀ d ∈ ds, d ∉ (getBlock s x).succ ∧ d ∉ (getBlock s x).pred) →
      getBlock (ds.foldl DelBlock s) x = getBlock s x := by
  induction ds with
  | nil => intro s x _; rfl
  | cons d ds ih =>
    intro s x h
    have hd := h d (List.mem_cons_self _ _)
    have e := getBlock_DelBlock_eq s d x hd.1 hd.2
    rw [List.foldl_cons, ih (DelBlock s d) x (by
      intro d' hd'
      rw [e]
      exact h d' (List.mem_cons_of_mem _ hd')), e]

theorem PrunedFrom_refl (s : GlobalUnit) : PrunedFrom s s :=
  ⟨rfl, fun _ => rfl, fun _ => List.Sublist.refl _, fun _ _ h => h,
    fun _ _ _ _ _ => ⟨rfl, fun h => h⟩, fun _ _ => ⟨rfl, fun _ _ _ _ => rfl⟩⟩

theorem PrunedFrom_trans {s t u : GlobalUnit} (h1 : PrunedFrom s t) (h2 : PrunedFrom t u) :
    PrunedFrom s u := by
  obtain ⟨a1, a2, a3, a4, a5, a6⟩ := h1
  obtain ⟨b1, b2, b3, b4, b5, b6⟩ := h2
  refine ⟨by rw [b1, a1], fun k => by rw [b2, a2], fun k => (b3 k).trans (a3 k),
    fun x y h => a4 x y (b4 x y h), ?_, ?_⟩
  · intro k e he x hx
    have hx' : Reach t e x := Reach_transfer (fun x hx => (a5 k e he x hx).1) x hx
    have he' : (getFunc t k).entry = some e := by rw [a2]; exact he
    obtain ⟨c1, c2⟩ := b5 k e he' x hx'
    obtain ⟨d1, d2⟩ := a5 k e he x hx
    exact ⟨by rw [c1, d1], fun h => c2 (d2 h)⟩
  · intro k he
    obtain ⟨c1, c2⟩ := a6 k he
    have he' : (getFunc t k).entry = none := by rw [a2]; exact he
    obtain ⟨d1, d2⟩ := b6 k he'
    refine ⟨by rw [d1, c1], ?_⟩
    intro x hx hs hp
    have e := c2 x hx hs hp
    rw [d2 x (by rw [c1]; exact hx) (by rw [e, c1]; exact hs) (by rw [e, c1]; exact hp), e]

theorem pruneFunc_frame (fuel : Nat) (s s' : GlobalUnit) (j : Nat)
    (hown : ReachOwned s) (h : pruneFunc fuel s j = some s') : PrunedFrom s s' := by
  unfold pruneFunc at h
  cases hej : (getFunc s j).entry with
  | none =>
    simp only [hej] at h
    cases h
    exact PrunedFrom_refl s
  | some ej =>
    simp only [hej] at h
    cases hb : bfs fuel s [ej] [] with
    | none => simp [hb] at h
    | some vis =>
      simp only [hb, Option.some.injEq] at h
      have hvis := bfs_reach s ej fuel vis hb
      obtain ⟨ho1, ho2⟩ := hown
      have K : ∀ k e, (getFunc s k).entry = some e → ∀ u, Reach s e u →
          u ∉ (getFunc s j).block_list.filter (fun it => decide (it ∉ vis)) := by
        intro k e he u hu hmem
        obtain ⟨hm1, hm2⟩ := List.mem_filter.mp hmem
        have hkj : k = j := ho2 k j u (ho1 k e he u hu) hm1
        subst hkj
        rw [hej] at he
        cases he
        have : u ∈ vis := (hvis u).mpr hu
        simp [this] at hm2
      have hbl := block_list_foldl_DelBlock
        ((getFunc s j).block_list.filter (fun it => decide (it ∉ vis))) s
      rw [h] at hbl
      refine ⟨?_, ?_, ?_, ?_, ?_, ?_⟩
      · rw [← h]; exact instrs_foldl_DelBlock _ _
      · intro k; rw [← h]; exact entry_foldl_DelBlock _ _ _
      · intro k; rw [hbl]; exact List.filter_sublist _
      · intro x y hy
        rw [← h] at hy
        exact succ_foldl_DelBlock_sub _ _ _ _ hy
      · intro k e he u hu
        refine ⟨?_, ?_⟩
        · rw [← h]
          apply succ_foldl_DelBlock_eq
          intro d hd hds
          exact K k e he d (Reach.step hu hds) hd
        · intro hmem
          rw [hbl]
          exact List.mem_filter.mpr ⟨hmem, decide_eq_true (K k e he u hu)⟩
      · intro k he
        have hkj : ∀ d ∈ (getFunc s j).block_list.filter (fun it => decide (it ∉ vis)),
            d ∉ (getFunc s k).block_list := by
          intro d hd hdk
          have : k = j := ho2 k j d hdk (List.mem_filter.mp hd).1
          subst this
          rw [hej] at he
          cases he
        refine ⟨?_, ?_⟩
        · have e1 : (getFunc s' k).entry = (getFunc s k).entry := by
            rw [← h]; exact entry_foldl_DelBlock _ _ _
          have e2 : (getFunc s' k).block_list = (getFunc s k).block_list := by
            rw [hbl]
            apply List.filter_eq_self.mpr
            intro x hx
            exact decide_eq_true (fun hd => hkj x hd hx)
          cases hf' : getFunc s' k
          cases hf : getFunc s k
          rw [hf'] at e1 e2
          rw [hf] at e1 e2
          simp only at e1 e2
          rw [e1, e2]
        · intro x _ hs hp
          rw [← h]
          apply getBlock_foldl_DelBlock_eq
          intro d hd
          exact ⟨fun hds => hkj d hd (hs d hds), fun hdp => hkj d hd (hp d hdp)⟩

theorem pruneFuncs_frame (fuel : Nat) :
    ∀ (ks : List Nat) (s s' : GlobalUnit), ReachOwned s → pruneFuncs fuel s ks = some s' →
      PrunedFrom s s' := by
  intro ks
  induction ks with
  | nil =>
    intro s s' _ h
    simp only [pruneFuncs, Option.some.injEq] at h
    subst h
    exact PrunedFrom_refl s
  | cons j ks ih =>
    intro s s' hown h
    simp only [pruneFuncs] at h
    cases h1 : pruneFunc fuel s j with
    | none => simp [h1] at h
    | some s1 =>
      simp only [h1] at h
      obtain ⟨a1, _⟩ := pruneFunc_step fuel s s1 j hown h1
      exact PrunedFrom_trans (pruneFunc_frame fuel s s1 j hown h1) (ih s1 s' a1 h)

theorem BuildCFG_pruned (fuel : Nat) (s s' : GlobalUnit) (hown : BlocksOwned s)
    (h : BuildCFG fuel s = some s') : ReachOwned s' ∧ ∀ k, Pruned s' k := by
  have hro := ReachOwned_of_BlocksOwned hown
  obtain ⟨h1, _, h3, h4⟩ := pruneFuncs_correct fuel _ s s' hro h
  refine ⟨h1, ?_⟩
  intro k e he
  have hk : k < s'.func_table.length := by
    by_contra hc
    rw [getFunc_default_of_le s' k (by omega)] at he
    cases he
  exact h3 k (List.mem_range.mpr (by omega)) e he

/-- C20: on a program whose blocks are owned by their functions, `BuildCFG` removes only
unreachable blocks.  For every function with an entry block, every block of the block
sequence that is reachable from the entry (the entry included, when it is in the
sequence) is still in the sequence afterwards; every block sequence afterwards is a
subsequence of the original one, so the kept blocks keep their relative order; every
kept block of a function with an entry has the successor list it had; and a function
without entry block keeps its record, and also its blocks when their edges stay inside
the function.  No instruction is changed. -/
theorem BuildCFG_removes_only_unreachable (s : GlobalUnit) (hown : BlocksOwned s)
    (fuel : Nat) (s' : GlobalUnit) (h : BuildCFG fuel s = some s') :
    s'.instrs = s.instrs ∧
    (∀ k e, (getFunc s k).entry = some e →
      (getFunc s' k).entry = some e ∧
      (∀ b ∈ (getFunc s k).block_list, Reach s e b → b ∈ (getFunc s' k).block_list) ∧
      (e ∈ (getFunc s k).block_list → e ∈ (getFunc s' k).block_list) ∧
      (∀ b ∈ (getFunc s' k).block_list, (getBlock s' b).succ = (getBlock s b).succ)) ∧
    (∀ k, (getFunc s' k).block_list.Sublist (getFunc s k).block_list) ∧
    (∀ k, (getFunc s k).entry = none → getFunc s' k = getFunc s k ∧
      ∀ x ∈ (getFunc s k).block_list,
        (∀ y ∈ (getBlock s x).succ, y ∈ (getFunc s k).block_list) →
        (∀ y ∈ (getBlock s x).pred, y ∈ (getFunc s k).block_list) →
        getBlock s' x = getBlock s x) := by
  have hro := ReachOwned_of_BlocksOwned hown
  obtain ⟨a1, a2, a3, a4, a5, a6⟩ := pruneFuncs_frame fuel _ s s' hro h
  obtain ⟨_, hp⟩ := BuildCFG_pruned fuel s s' hown h
  refine ⟨a1, ?_, a3, a6⟩
  intro k e he
  have he' : (getFunc s' k).entry = some e := by rw [a2]; exact he
  refine ⟨he', fun b hb hr => (a5 k e he b hr).2 hb, fun hmem => (a5 k e he e Reach.refl).2 hmem, ?_⟩
  intro b hb
  have hr' : Reach s' e b := hp k e he' b hb
  have hr : Reach s e b := Reach_mono a4 b hr'
  exact (a5 k e he b hr).1

/-- C20, witness: in `exCFGDecl` the blocks 3 and 5 go, the sequences `[0, 1, 2]` and
`[4]` stay in order, the declaration keeps `[6]`, and the kept block 1 keeps its
successor list. -/
theorem BuildCFG_removes_only_unreachable_witness :
    BlocksOwned exCFGDecl ∧
    (∃ s', BuildCFG (searchBound exCFGDecl) exCFGDecl = some s' ∧
      s'.func_table = [⟨some 0, [0, 1, 2]⟩, ⟨none, [6]⟩, ⟨some 4, [4]⟩] ∧
      (2 ∈ (getFunc s' 0).block_list) ∧
      (getBlock s' 1).succ = (getBlock exCFGDecl 1).succ ∧
      getFunc s' 1 = getFunc exCFGDecl 1) := by
  have hown : BlocksOwned exCFGDecl := by decide
  obtain ⟨s', hs⟩ : ∃ s', BuildCFG (searchBound exCFGDecl) exCFGDecl = some s' :=
    ⟨_, (by decide : BuildCFG (searchBound exCFGDecl) exCFGDecl = some
      { exCFGDecl with
        blocks := [⟨[0], [1], []⟩, ⟨[1], [2], [0, 2]⟩, ⟨[2], [1], [1]⟩, ⟨[3], [1], []⟩,
               ⟨[4], [], []⟩, ⟨[5], [4], []⟩, ⟨[], [], []⟩]
        func_table := [⟨some 0, [0, 1, 2]⟩, ⟨none, [6]⟩, ⟨some 4, [4]⟩] })⟩
  have hft : s'.func_table = [⟨some 0, [0, 1, 2]⟩, ⟨none, [6]⟩, ⟨some 4, [4]⟩] := by
    have : BuildCFG (searchBound exCFGDecl) exCFGDecl = some
      { exCFGDecl with
        blocks := [⟨[0], [1], []⟩, ⟨[1], [2], [0, 2]⟩, ⟨[2], [1], [1]⟩, ⟨[3], [1], []⟩,
               ⟨[4], [], []⟩, ⟨[5], [4], []⟩, ⟨[], [], []⟩]
        func_table := [⟨some 0, [0, 1, 2]⟩, ⟨none, [6]⟩, ⟨some 4, [4]⟩] } := by decide
    rw [hs] at this
    cases this
    rfl
  obtain ⟨_, h2, _, h4⟩ := BuildCFG_removes_only_unreachable exCFGDecl hown _ s' hs
  obtain ⟨_, h22, _, h24⟩ := h2 0 0 (by decide)
  have hr2 : Reach exCFGDecl 0 2 :=
    Reach.step (Reach.step Reach.refl (by decide : 1 ∈ (getBlock exCFGDecl 0).succ))
      (by decide : 2 ∈ (getBlock exCFGDecl 1).succ)
  have hr1 : Reach exCFGDecl 0 1 :=
    Reach.step Reach.refl (by decide : 1 ∈ (getBlock exCFGDecl 0).succ)
  exact ⟨hown, s', hs, hft, h22 2 (by decide) hr2, h24 1 (h22 1 (by decide) hr1),
    (h4 1 (by decide)).1⟩

/-! ## A second run of `BuildCFG` -/

theorem pruneFunc_fixed (fuel : Nat) (s s' : GlobalUnit) (j : Nat)
    (hp : Pruned s j) (h : pruneFunc fuel s j = some s') : s' = s := by
  unfold pruneFunc at h
  cases hej : (getFunc s j).entry with
  | none =>
    simp only [hej] at h
    cases h; rfl
  | some ej =>
    simp only [hej] at h
    cases hb : bfs fuel s [ej] [] with
    | none => simp [hb] at h
    | some vis =>
      simp only [hb, Option.some.injEq] at h
      have hvis := bfs_reach s ej fuel vis hb
      have hnil : (getFunc s j).block_list.filter (fun it => decide (it ∉ vis)) = [] := by
        apply List.filter_eq_nil_iff.mpr
        intro b hb'
        have : b ∈ vis := (hvis b).mpr (hp ej hej b hb')
        simp [this]
      rw [hnil] at h
      exact h.symm

theorem pruneFuncs_fixed (fuel : Nat) (s : GlobalUnit) (hp : ∀ k, Pruned s k) :
    ∀ (ks : List Nat) (s' : GlobalUnit), pruneFuncs fuel s ks = some s' → s' = s := by
  intro ks
  induction ks with
  | nil =>
    intro s' h
    simp only [pruneFuncs, Option.some.injEq] at h
    exact h.symm
  | cons j ks ih =>
    intro s' h
    simp only [pruneFuncs] at h
    cases h1 : pruneFunc fuel s j with
    | none => simp [h1] at h
    | some s1 =>
      simp only [h1] at h
      have := pruneFunc_fixed fuel s s1 j (hp j) h1
      subst this
      exact ih s' h

theorem bfs_congr (s t : GlobalUnit) (e : Nat)
    (hst : ∀ x, Reach s e x → (getBlock t x).succ = (getBlock s x).succ) :
    ∀ (fuel : Nat) (q vis : List Nat), (∀ x ∈ q, Reach s e x) →
      bfs fuel t q vis = bfs fuel s q vis := by
  intro fuel
  induction fuel with
  | zero =>
    intro q vis _
    cases q <;> rfl
  | succ n ih =>
    intro q vis hq
    cases q with
    | nil => rfl
    | cons b q =>
      simp only [bfs]
      have hb : Reach s e b := hq b (List.mem_cons_self _ _)
      have hq' : ∀ x ∈ q, Reach s e x := fun x hx => hq x (List.mem_cons_of_mem _ hx)
      rw [hst b hb]
      split
      · exact ih q vis hq'
      · apply ih
        intro x hx
        rcases List.mem_append.mp hx with hx | hx
        · exact hq' x hx
        · exact Reach.step hb hx

theorem pruneFuncs_rerun (fuel : Nat) :
    ∀ (ks : List Nat) (s s' t : GlobalUnit), ReachOwned s → pruneFuncs fuel s ks = some s' →
      PrunedFrom s' t → (∀ k, Pruned t k) → pruneFuncs fuel t ks = some t := by
  intro ks
  induction ks with
  | nil => intro s s' t _ _ _ _; rfl
  | cons j ks ih =>
    intro s s' t hown h hst hp
    simp only [pruneFuncs] at h
    cases h1 : pruneFunc fuel s j with
    | none => simp [h1] at h
    | some s1 =>
      simp only [h1] at h
      obtain ⟨a1, _⟩ := pruneFunc_step fuel s s1 j hown h1
      have f1 := pruneFunc_frame fuel s s1 j hown h1
      have f2 := pruneFuncs_frame fuel ks s1 s' a1 h
      have f := PrunedFrom_trans f1 (PrunedFrom_trans f2 hst)
      have hret : ∃ t', pruneFunc fuel t j = some t' := by
        unfold pruneFunc
        unfold pruneFunc at h1
        rw [f.2.1 j]
        cases hej : (getFunc s j).entry with
        | none => exact ⟨t, rfl⟩
        | some ej =>
          simp only [hej] at h1
          simp only []
          rw [bfs_congr s t ej (fun x hx => (f.2.2.2.2.1 j ej hej x hx).1) fuel [ej] []
            (by intro x hx; rw [List.mem_singleton.mp hx]; exact Reach.refl)]
          cases hb : bfs fuel s [ej] [] with
          | none => simp [hb] at h1
          | some vis => exact ⟨_, rfl⟩
      obtain ⟨t', ht'⟩ := hret
      have := pruneFunc_fixed fuel t t' j (hp j) ht'
      subst this
      simp only [pruneFuncs, ht']
      exact ih s1 s' t' a1 h hst hp

theorem searchBound_pruneFuncs_le (fuel : Nat) :
    ∀ (ks : List Nat) (s s' : GlobalUnit), ReachOwned s → pruneFuncs fuel s ks = some s' →
      searchBound s' ≤ searchBound s := by
  intro ks
  induction ks with
  | nil =>
    intro s s' _ h
    simp only [pruneFuncs, Option.some.injEq] at h
    subst h
    exact le_refl _
  | cons j ks ih =>
    intro s s' hown h
    simp only [pruneFuncs] at h
    cases h1 : pruneFunc fuel s j with
    | none => simp [h1] at h
    | some s1 =>
      simp only [h1] at h
      obtain ⟨a1, _, _, _, a5⟩ := pruneFunc_step fuel s s1 j hown h1
      exact le_trans (ih s1 s' a1 h) a5

/-- C15: `BuildCFG` is idempotent on a program whose blocks are owned by their
functions.  If a first run returns `s1`, then a second run on `s1` with the same number
of iterations, or with any number that is enough for the first program, returns `s1`
itself, and so does every second run that returns: no block is deleted, and every block
sequence and every successor and predecessor set is unchanged. -/
theorem BuildCFG_idempotent (s : GlobalUnit) (hown : BlocksOwned s)
    (fuel : Nat) (s1 : GlobalUnit) (h : BuildCFG fuel s = some s1) :
    BuildCFG fuel s1 = some s1 ∧
    (∀ fuel2, searchBound s ≤ fuel2 → BuildCFG fuel2 s1 = some s1) ∧
    (∀ fuel2 s2, BuildCFG fuel2 s1 = some s2 → s2 = s1) := by
  have hro := ReachOwned_of_BlocksOwned hown
  obtain ⟨hro1, hp⟩ := BuildCFG_pruned fuel s s1 hown h
  have hfix : ∀ fuel2 s2, BuildCFG fuel2 s1 = some s2 → s2 = s1 :=
    fun fuel2 s2 h2 => pruneFuncs_fixed fuel2 s1 hp _ s2 h2
  have hlen : s1.func_table.length = s.func_table.length :=
    (pruneFuncs_correct fuel _ s s1 hro h).2.2.2
  refine ⟨?_, ?_, hfix⟩
  · unfold BuildCFG
    rw [hlen]
    exact pruneFuncs_rerun fuel _ s s1 s1 hro h (PrunedFrom_refl s1) hp
  · intro fuel2 hf
    have hle : searchBound s1 ≤ searchBound s := searchBound_pruneFuncs_le fuel _ s s1 hro h
    obtain ⟨s2, h2⟩ := pruneFuncs_terminates fuel2 (List.range s1.func_table.length) s1 hro1
      (le_trans hle hf)
    have h2' : BuildCFG fuel2 s1 = some s2 := h2
    rw [h2', hfix fuel2 s2 h2']

/-- C15, witness: a second run on the pruned `exCFG` returns the same program. -/
theorem BuildCFG_idempotent_witness :
    BlocksOwned exCFG ∧ BuildCFG (searchBound exCFG) exCFG = some exCFGPruned ∧
    BuildCFG (searchBound exCFG) exCFGPruned = some exCFGPruned :=
  ⟨by decide, by decide,
    (BuildCFG_idempotent exCFG (by decide) (searchBound exCFG) exCFGPruned (by decide)).1⟩

/-! ## The normal form `ScalarOpt` reaches -/

theorem rules_of_simplifyInstr (s : GlobalUnit) (i : Nat)
    (h : (simplifyInstr s i).2 = false) :
    (SimplifyBinary s i).2 = false ∧ (SimplifyCmp s i).2 = false ∧
    (SimplifyZExt s i).2 = false ∧ (SimplifyXor s i).2 = false ∧
    (SimplifyFNeg s i).2 = false ∧ (SimplifySll s i).2 = false ∧
    (SimplifySra s i).2 = false ∧ (SimplifyCondBr s i).2 = false := by
  unfold simplifyInstr at h
  cases hk : (getInstr s i).kind <;> simp only [hk] at h <;>
    refine ⟨?_, ?_, ?_, ?_, ?_, ?_, ?_, ?_⟩ <;>
    first
    | exact h
    | simp [SimplifyBinary, SimplifyCmp, SimplifyZExt, SimplifyXor, SimplifyFNeg, SimplifySll,
        SimplifySra, SimplifyCondBr, simplifyWith, FoldCmp, FoldZExt, FoldXor, FoldFNeg,
        FoldSll, FoldSra, hk]

/-- C19: on a program whose functions own their code, when `ScalarOpt` returns the
graph `s1`, every instruction in the instruction sequence of every block of every
function with an entry block is live (not tombstoned), and none of the rules
`SimplifyBinary`, `SimplifyCmp`, `SimplifyZExt`, `SimplifyXor`, `SimplifyFNeg`,
`SimplifySll`, `SimplifySra`, `SimplifyCondBr` reports a change on it (a rule reports
no change on an instruction of another class). -/
theorem ScalarOpt_normal_form (s : GlobalUnit) (hsep : FunctionsSeparate s) (fuel : Nat)
    (s1 : GlobalUnit) (h : ScalarOpt fuel s = some s1) :
    ∀ k e, (getFunc s1 k).entry = some e →
      ∀ b ∈ (getFunc s1 k).block_list, ∀ i ∈ (getBlock s1 b).local_instr,
        (getInstr s1 i).deleted = false ∧ (simplifyInstr s1 i).2 = false ∧
        (SimplifyBinary s1 i).2 = false ∧ (SimplifyCmp s1 i).2 = false ∧
        (SimplifyZExt s1 i).2 = false ∧ (SimplifyXor s1 i).2 = false ∧
        (SimplifyFNeg s1 i).2 = false ∧ (SimplifySll s1 i).2 = false ∧
        (SimplifySra s1 i).2 = false ∧ (SimplifyCondBr s1 i).2 = false := by
  obtain ⟨_, a2, _, a4⟩ := optFuncs_invariant fuel _ s s1
    (Separate_of_FunctionsSeparate hsep) (List.nodup_range _) h
  have gF : ∀ x, getFunc s1 x = getFunc s x := fun x => by unfold getFunc; rw [a2]
  intro k e he b hb i hi
  have hne : (getFunc s1 k).entry ≠ none := by rw [he]; simp
  have hk : k < s.func_table.length := by
    by_contra hc
    rw [gF, getFunc_default_of_le s k (by omega)] at hne
    exact hne rfl
  obtain ⟨_, hset⟩ := a4 k (List.mem_range.mpr hk) (by rw [← gF]; exact hne)
  obtain ⟨h1, h2⟩ := (hset b hb).2 i hi
  exact ⟨h1, h2, rules_of_simplifyInstr s1 i h2⟩

/-- C19, witness: in `exTwoBlocks` the fold of the comparison in block 1 turns the
`zext` of block 0, already passed over in the same sweep, into `zext (bool true)`; the
next sweep folds it, and in the result block 0 holds only the reader, of `int 1`, on
which no rule fires. -/
theorem ScalarOpt_normal_form_witness :
    FunctionsSeparate exTwoBlocks ∧
    (SimplifyZExt exTwoBlocks 0).2 = false ∧
    (SimplifyZExt (SimplifyCmp exTwoBlocks 2).1 0).2 = true ∧
    ∃ s1, ScalarOpt 10 exTwoBlocks = some s1 ∧
      (getBlock s1 0).local_instr = [1] ∧ (getBlock s1 1).local_instr = [] ∧
      (getInstr s1 1).kind = .OTHER [5] ∧ (getVal s1 5).kind = .IntConst 1 ∧
      (getInstr s1 1).deleted = false ∧ (simplifyInstr s1 1).2 = false :=
  ⟨by decide, by decide, by decide, _, rfl, by decide, by decide, by decide, by decide,
    (ScalarOpt_normal_form exTwoBlocks (by decide) 10 _ rfl 0 0 (by decide) 0 (by decide)
      1 (by decide)).1,
    (ScalarOpt_normal_form exTwoBlocks (by decide) 10 _ rfl 0 0 (by decide) 0 (by decide)
      1 (by decide)).2.1⟩

/-! ## Soundness of the rewrites of `SimplifyBinary` -/

theorem signmag_tdiv (a b : Int) :
    a.sign * b.sign * ((a.natAbs / b.natAbs : Nat) : Int) = Int.tdiv a b := by
  obtain ⟨m, rfl | rfl⟩ := Int.eq_nat_or_neg a <;> obtain ⟨n, rfl | rfl⟩ := Int.eq_nat_or_neg b <;>
    rcases Nat.eq_zero_or_pos m with hm | hm <;> rcases Nat.eq_zero_or_pos n with hn | hn <;>
    first
    | (subst hm; simp)
    | (subst hn; simp)
    | (have h1 : Int.sign (m : Int) = 1 := Int.sign_eq_one_of_pos (by exact_mod_cast hm)
       have h2 : Int.sign (n : Int) = 1 := Int.sign_eq_one_of_pos (by exact_mod_cast hn)
       simp [Int.sign_neg, Int.natAbs_neg, Int.tdiv_neg, Int.neg_tdiv, h1, h2]
       exact (Int.tdiv_eq_ediv (Int.ofNat_nonneg m) (Int.ofNat_nonneg n)).symm)

theorem signmag_tmod (a b : Int) :
    a.sign * ((a.natAbs % b.natAbs : Nat) : Int) = Int.tmod a b := by
  obtain ⟨m, rfl | rfl⟩ := Int.eq_nat_or_neg a <;> obtain ⟨n, rfl | rfl⟩ := Int.eq_nat_or_neg b <;>
    rcases Nat.eq_zero_or_pos m with hm | hm <;>
    first
    | (subst hm; simp)
    | (have h1 : Int.sign (m : Int) = 1 := Int.sign_eq_one_of_pos (by exact_mod_cast hm)
       simp [Int.sign_neg, Int.natAbs_neg, Int.tmod_neg, neg_tmod, h1]
       exact (Int.tmod_eq_emod (Int.ofNat_nonneg m) (Int.ofNat_nonneg n)).symm)

theorem fromU32_toU32 (x : Int) : fromU32 (toU32 x) = wrap32 x := by
  unfold fromU32 toU32 wrap32
  split <;> omega

theorem fromU32_ofNat {n : Nat} (h : n < 4294967296) : fromU32 n = wrap32 (Int.ofNat n) := by
  unfold fromU32 wrap32
  simp only [Int.ofNat_eq_coe]
  split <;> omega

theorem toU32_mul (a b : Int) : (toU32 a * toU32 b) % 4294967296 = toU32 (a * b) := by
  unfold toU32
  have ha : (0 : Int) ≤ a % 4294967296 := Int.emod_nonneg _ (by decide)
  have hb : (0 : Int) ≤ b % 4294967296 := Int.emod_nonneg _ (by decide)
  have hab : (0 : Int) ≤ (a * b) % 4294967296 := Int.emod_nonneg _ (by decide)
  apply Int.ofNat_inj.mp
  push_cast
  rw [Int.toNat_of_nonneg ha, Int.toNat_of_nonneg hb, Int.toNat_of_nonneg hab]
  exact (Int.mul_emod a b 4294967296).symm

/-- The evaluation agrees with the arithmetic of `FoldBinary`. -/
theorem evalBinary_eq (a b : Int) :
    evalBinary .ADD a b = some (wrap32 (a + b)) ∧
    evalBinary .SUB a b = some (wrap32 (a - b)) ∧
    evalBinary .MUL a b = some (wrap32 (a * b)) ∧
    (b ≠ 0 → evalBinary .DIV a b = some (wrap32 (Int.tdiv a b))) ∧
    (b ≠ 0 → evalBinary .MOD a b = some (wrap32 (Int.tmod a b))) ∧
    evalBinary .AND a b = some (and32 a b) ∧
    evalBinary .OR a b = some (or32 a b) := by
  refine ⟨?_, ?_, ?_, ?_, ?_, ?_, ?_⟩
  · simp only [evalBinary, Option.some.injEq]
    unfold fromU32 toU32 wrap32
    split <;> omega
  · simp only [evalBinary, Option.some.injEq]
    unfold fromU32 toU32 wrap32
    split <;> omega
  · simp only [evalBinary, Option.some.injEq]
    rw [toU32_mul, fromU32_toU32]
  · intro hb
    simp only [evalBinary, hb, if_false, Option.some.injEq]
    rw [fromU32_toU32, signmag_tdiv]
  · intro hb
    simp only [evalBinary, hb, if_false, Option.some.injEq]
    rw [fromU32_toU32, signmag_tmod]
  · simp only [evalBinary, Option.some.injEq]
    unfold and32
    exact fromU32_ofNat (lt_of_le_of_lt Nat.and_le_left (toU32_lt a))
  · simp only [evalBinary, Option.some.injEq]
    unfold or32
    exact fromU32_ofNat (@Nat.or_lt_two_pow _ _ 32 (toU32_lt a) (toU32_lt b))

theorem toU32_zero : toU32 0 = 0 := by decide

theorem toU32_one : toU32 1 = 1 := by decide

/-- The identities the rule uses, as facts of the evaluation on 32-bit values. -/
theorem evalBinary_identities (x : Int) (hx : In32 x) :
    evalBinary .ADD 0 x = some x ∧ evalBinary .ADD x 0 = some x ∧
    evalBinary .SUB x 0 = some x ∧
    evalBinary .MUL 0 x = some 0 ∧ evalBinary .MUL x 0 = some 0 ∧
    evalBinary .MUL 1 x = some x ∧ evalBinary .MUL x 1 = some x ∧
    evalBinary .AND 0 x = some 0 ∧ evalBinary .AND x 0 = some 0 ∧
    evalBinary .OR 0 x = some x ∧ evalBinary .OR x 0 = some x := by
  have hw : fromU32 (toU32 x) = x := by rw [fromU32_toU32, wrap32_of_in32 hx]
  have hlt := toU32_lt x
  have hmod : toU32 x % 4294967296 = toU32 x := Nat.mod_eq_of_lt hlt
  have h0 : fromU32 0 = 0 := by decide
  refine ⟨?_, ?_, ?_, ?_, ?_, ?_, ?_, ?_, ?_, ?_, ?_⟩ <;>
    simp only [evalBinary, toU32_zero, toU32_one, Nat.zero_add, Nat.add_zero, Nat.zero_mul,
      Nat.mul_zero, Nat.one_mul, Nat.mul_one, Nat.sub_zero, Nat.add_mod_right, hmod,
      Nat.zero_mod, hw, h0, Option.some.injEq]
  · show fromU32 (0 &&& toU32 x) = 0
    rw [Nat.zero_and]; exact h0
  · show fromU32 (toU32 x &&& 0) = 0
    rw [Nat.and_zero]; exact h0
  · show fromU32 (0 ||| toU32 x) = x
    rw [Nat.zero_or]; exact hw
  · show fromU32 (toU32 x ||| 0) = x
    rw [Nat.or_zero]; exact hw

theorem kind_of_IsIntConst {s : GlobalUnit} {v : Nat} (h : IsIntConst s v = true) :
    ∃ c, (getVal s v).kind = .IntConst c := by
  unfold IsIntConst at h
  cases hk : (getVal s v).kind <;> simp_all

theorem valueOf_of_kind {s : GlobalUnit} {env : Nat → Int} {v : Nat} {c : Int}
    (h : (getVal s v).kind = .IntConst c) : valueOf s env v = c := by
  simp [valueOf, h]

theorem valueOf_of_isIntConstOf {s : GlobalUnit} {env : Nat → Int} {v : Nat} {c : Int}
    (h : isIntConstOf s v c = true) : valueOf s env v = c :=
  valueOf_of_kind (of_decide_eq_true h)

theorem valueOf_in32 (s : GlobalUnit) (env : Nat → Int) (henv : ∀ v, In32 (env v))
    (hc : ∀ v c, (getVal s v).kind = .IntConst c → In32 c) (v : Nat) :
    In32 (valueOf s env v) := by
  unfold valueOf
  cases hk : (getVal s v).kind with
  | IntConst c => exact hc v c hk
  | Named => exact henv v
  | BoolConst b => exact henv v
  | FloatConst n m => exact henv v

/-- What the identity rules keep has the value the instruction computes. -/
theorem identitySurvivor_sound (s : GlobalUnit) (env : Nat → Int) (op : OpTy) (src1 src2 : Nat)
    (h1 : In32 (valueOf s env src1)) (h2 : In32 (valueOf s env src2)) :
    (∀ v, identitySurvivor s op src1 src2 = some (.operand v) →
      (v = src1 ∨ v = src2) ∧
      evalBinary op (valueOf s env src1) (valueOf s env src2) = some (valueOf s env v)) ∧
    (identitySurvivor s op src1 src2 = some .zero →
      evalBinary op (valueOf s env src1) (valueOf s env src2) = some 0) := by
  obtain ⟨a1, a2, a3, a4, a5, a6, a7, a8, a9, a10, a11⟩ :=
    evalBinary_identities (valueOf s env src1) h1
  obtain ⟨b1, b2, b3, b4, b5, b6, b7, b8, b9, b10, b11⟩ :=
    evalBinary_identities (valueOf s env src2) h2
  constructor
  · intro v hv
    cases op <;> simp only [identitySurvivor] at hv
    case ADD =>
      split at hv
      next h => cases hv; rw [valueOf_of_isIntConstOf h]; exact ⟨Or.inr rfl, b1⟩
      next =>
        split at hv
        next h => cases hv; rw [@valueOf_of_isIntConstOf s env src2 0 h]; exact ⟨Or.inl rfl, a2⟩
        next => cases hv
    case SUB =>
      split at hv
      next h => cases hv; rw [@valueOf_of_isIntConstOf s env src2 0 h]; exact ⟨Or.inl rfl, a3⟩
      next => cases hv
    case MUL =>
      split at hv
      next => cases hv
      next =>
        split at hv
        next h => cases hv; rw [@valueOf_of_isIntConstOf s env src1 1 h]; exact ⟨Or.inr rfl, b6⟩
        next =>
          split at hv
          next h => cases hv; rw [@valueOf_of_isIntConstOf s env src2 1 h]; exact ⟨Or.inl rfl, a7⟩
          next => cases hv
    case AND => split at hv <;> cases hv
    case OR =>
      split at hv
      next h => cases hv; rw [@valueOf_of_isIntConstOf s env src1 0 h]; exact ⟨Or.inr rfl, b10⟩
      next =>
        split at hv
        next h => cases hv; rw [@valueOf_of_isIntConstOf s env src2 0 h]; exact ⟨Or.inl rfl, a11⟩
        next => cases hv
    all_goals cases hv
  · intro hv
    cases op <;> simp only [identitySurvivor] at hv
    case ADD => split at hv <;> [cases hv; (split at hv <;> cases hv)]
    case SUB => split at hv <;> cases hv
    case MUL =>
      split at hv
      next h =>
        rcases Bool.or_eq_true_iff.mp h with h | h
        · rw [@valueOf_of_isIntConstOf s env src1 0 h]; exact b4
        · rw [@valueOf_of_isIntConstOf s env src2 0 h]; exact a5
      next => split at hv <;> [cases hv; (split at hv <;> cases hv)]
    case AND =>
      split at hv
      next h =>
        rcases Bool.or_eq_true_iff.mp h with h | h
        · rw [@valueOf_of_isIntConstOf s env src1 0 h]; exact b8
        · rw [@valueOf_of_isIntConstOf s env src2 0 h]; exact a9
      next => cases hv
    case OR => split at hv <;> [cases hv; (split at hv <;> cases hv)]
    all_goals cases hv

/-- C18: every rewrite of `SimplifyBinary` is sound for the 32-bit two's-complement
evaluation `evalBinary`.  With the integer constants and the run-time values `env` of
the other operands in the 32-bit range: whenever `SimplifyBinary` reports a change, the
evaluation of the instruction is defined, with a 32-bit value `r`, and the rule either
rewires the result to one of the two operands, whose value is `r`, or calls
`ReplaceWithConst` with the integer constant `r` (the folded constant or the fresh 0);
and a division or modulo whose divisor is the constant 0, for which the evaluation is
undefined, is left unchanged. -/
theorem SimplifyBinary_sound (s : GlobalUnit) (instr : Nat) (op : OpTy)
    (src1 src2 dst : Nat) (env : Nat → Int)
    (hk : (getInstr s instr).kind = .BINARY op src1 src2 dst)
    (henv : ∀ v, In32 (env v))
    (hc : ∀ v c, (getVal s v).kind = .IntConst c → In32 c) :
    ((SimplifyBinary s instr).2 = true →
      ∃ r : Int, evalBinary op (valueOf s env src1) (valueOf s env src2) = some r ∧ In32 r ∧
        ((∃ v, (v = src1 ∨ v = src2) ∧ valueOf s env v = r ∧
            SimplifyBinary s instr = (replaceByOperand s instr dst v, true)) ∨
          SimplifyBinary s instr = (ReplaceWithConst s instr (MakeIntConst r), true))) ∧
    ((op = .DIV ∨ op = .MOD) → (getVal s src2).kind = .IntConst 0 →
      SimplifyBinary s instr = (s, false) ∧
      evalBinary op (valueOf s env src1) (valueOf s env src2) = none) := by
  have hin := valueOf_in32 s env henv hc
  by_cases hboth : IsIntConst s src1 = true ∧ IsIntConst s src2 = true
  · obtain ⟨c1, c2⟩ := hboth
    obtain ⟨a, ka⟩ := kind_of_IsIntConst c1
    obtain ⟨b, kb⟩ := kind_of_IsIntConst c2
    have g1 := GetIntConst_of_kind ka
    have g2 := GetIntConst_of_kind kb
    rw [valueOf_of_kind ka, valueOf_of_kind kb]
    obtain ⟨e1, e2, e3, e4, e5, e6, e7⟩ := evalBinary_eq a b
    constructor
    · intro hflag
      cases op with
      | ADD =>
        exact ⟨_, e1, wrap32_in32 _, Or.inr (by simp [SimplifyBinary, FoldBinary, hk, c1, c2, g1, g2])⟩
      | SUB =>
        exact ⟨_, e2, wrap32_in32 _, Or.inr (by simp [SimplifyBinary, FoldBinary, hk, c1, c2, g1, g2])⟩
      | MUL =>
        exact ⟨_, e3, wrap32_in32 _, Or.inr (by simp [SimplifyBinary, FoldBinary, hk, c1, c2, g1, g2])⟩
      | DIV =>
        by_cases hb : b = 0
        · exfalso; revert hflag; simp [SimplifyBinary, FoldBinary, hk, c1, c2, g1, g2, hb]
        · exact ⟨_, e4 hb, wrap32_in32 _,
            Or.inr (by simp [SimplifyBinary, FoldBinary, hk, c1, c2, g1, g2, hb])⟩
      | MOD =>
        by_cases hb : b = 0
        · exfalso; revert hflag; simp [SimplifyBinary, FoldBinary, hk, c1, c2, g1, g2, hb]
        · exact ⟨_, e5 hb, wrap32_in32 _,
            Or.inr (by simp [SimplifyBinary, FoldBinary, hk, c1, c2, g1, g2, hb])⟩
      | AND =>
        exact ⟨_, e6, wrap32_in32 _, Or.inr (by simp [SimplifyBinary, FoldBinary, hk, c1, c2, g1, g2])⟩
      | OR =>
        exact ⟨_, e7, wrap32_in32 _, Or.inr (by simp [SimplifyBinary, FoldBinary, hk, c1, c2, g1, g2])⟩
      | _ => exfalso; revert hflag; simp [SimplifyBinary, FoldBinary, hk, c1, c2]
    · intro hop h0
      rw [kb] at h0
      cases h0
      rcases hop with h | h <;> subst h <;>
        simp [SimplifyBinary, FoldBinary, hk, c1, c2, g2, evalBinary]
  · have heq := SimplifyBinary_identity_eq s instr op src1 src2 dst hk hboth
    obtain ⟨i1, i2⟩ := identitySurvivor_sound s env op src1 src2 (hin src1) (hin src2)
    constructor
    · intro hflag
      rw [heq] at hflag ⊢
      cases hs : identitySurvivor s op src1 src2 with
      | none => rw [hs] at hflag; cases hflag
      | some keep =>
        cases keep with
        | operand v =>
          obtain ⟨hv, he⟩ := i1 v hs
          exact ⟨_, he, hin v, Or.inl ⟨v, hv, rfl, rfl⟩⟩
        | zero => exact ⟨0, i2 hs, by decide, Or.inr rfl⟩
    · intro hop h0
      rw [valueOf_of_kind h0]
      rw [heq]
      rcases hop with h | h <;> subst h <;> simp [identitySurvivor, evalBinary]

/-- C18, witness: `add(x, int 0)` is replaced by `x`, whose value is the sum;
`mul(int 0, x)` by the constant 0; the evaluation of `div(int -2^31, int -1)` is the
wrapped quotient; and `div(x, int 0)` is left alone. -/
theorem SimplifyBinary_sound_witness :
    (∃ r : Int, evalBinary .ADD (valueOf (exBinaryOf .ADD .Named (.IntConst 0))
          (fun _ => 2147483647) 0) (valueOf (exBinaryOf .ADD .Named (.IntConst 0))
          (fun _ => 2147483647) 1) = some r ∧ In32 r ∧ r = 2147483647) ∧
    SimplifyBinary (exBinaryOf .ADD .Named (.IntConst 0)) 0 =
      (replaceByOperand (exBinaryOf .ADD .Named (.IntConst 0)) 0 2 0, true) ∧
    evalBinary .MUL 0 (-5) = some 0 ∧
    evalBinary .DIV (-2147483648) (-1) = some (-2147483648) ∧
    evalBinary .DIV 7 (-2) = some (-3) ∧ evalBinary .MOD (-7) 2 = some (-1) ∧
    SimplifyBinary (exBinaryOf .DIV .Named (.IntConst 0)) 0 =
      (exBinaryOf .DIV .Named (.IntConst 0), false) := by
  have hc : ∀ (x y : ValKind) (op : OpTy),
      (∀ c, x = .IntConst c → In32 c) → (∀ c, y = .IntConst c → In32 c) →
      ∀ v c, (getVal (exBinaryOf op x y) v).kind = .IntConst c → In32 c := by
    intro x y op hx hy v c h
    match v, h with
    | 0, h => exact hx c h
    | 1, h => exact hy c h
    | 2, h => cases h
    | n + 3, h => cases h
  obtain ⟨r, h1, h2, h3⟩ :=
    (SimplifyBinary_sound (exBinaryOf .ADD .Named (.IntConst 0)) 0 .ADD 0 1 2
      (fun _ => 2147483647) (by decide) (fun _ => (by decide : In32 (2147483647 : Int)))
      (hc _ _ _ (by intro c h; cases h) (by intro c h; cases h; decide))).1
      (by decide)
  have hr : r = 2147483647 := by
    have : evalBinary .ADD (valueOf (exBinaryOf .ADD .Named (.IntConst 0))
          (fun _ => 2147483647) 0) (valueOf (exBinaryOf .ADD .Named (.IntConst 0))
          (fun _ => 2147483647) 1) = some 2147483647 := by decide
    rw [this] at h1
    cases h1
    rfl
  exact ⟨⟨r, h1, h2, hr⟩, by decide, by decide, by decide, by decide, by decide,
    ((SimplifyBinary_sound (exBinaryOf .DIV .Named (.IntConst 0)) 0 .DIV 0 1 2
      (fun _ => 0) (by decide) (fun _ => (by decide : In32 (0 : Int)))
      (hc _ _ _ (by intro c h; cases h) (by intro c h; cases h; decide))).2
      (Or.inl rfl) (by decide)).1⟩

/-! ## What `Constlize` leaves alone -/

theorem constlizeLoads_pairs (c : Nat) :
    ∀ (loads : List Nat) (st st' : GlobalUnit), constlizeLoads st c loads = some st' →
      ∃ ps, st' = applyPairs st ps ∧
        ∀ q ∈ ps, q.2 = c ∧ ∃ l ∈ loads, loadValue st l = some q.1 := by
  intro loads
  induction loads with
  | nil =>
    intro st st' h
    simp only [constlizeLoads, Option.some.injEq] at h
    exact ⟨[], h.symm, by simp⟩
  | cons l loads ih =>
    intro st st' h
    simp only [constlizeLoads] at h
    cases hd : (getInstr st l).def_list with
    | nil => simp [hd] at h
    | cons v rest =>
      simp only [hd] at h
      obtain ⟨ps, e, hps⟩ := ih _ _ h
      refine ⟨(v, c) :: ps, by rw [applyPairs_cons]; exact e, ?_⟩
      intro q hq
      rcases List.mem_cons.mp hq with rfl | hq
      · exact ⟨rfl, l, List.mem_cons_self _ _, by simp [loadValue, hd]⟩
      · obtain ⟨e1, l', hl', e2⟩ := hps q hq
        rw [loadValue_replaceAllUsesOf] at e2
        exact ⟨e1, l', List.mem_cons_of_mem _ hl', e2⟩

theorem constlizeSymbols_pairs :
    ∀ (syms : List Symbol) (st st' : GlobalUnit), constlizeSymbols st syms = some st' →
      ∃ ps, st' = applyPairs st ps ∧
        ∀ q ∈ ps, ∃ g ∈ syms, isConstSymbol g = true ∧ q.2 = g.constVal ∧
          ∃ l ∈ g.use, loadValue st l = some q.1 := by
  intro syms
  induction syms with
  | nil =>
    intro st st' h
    simp only [constlizeSymbols, Option.some.injEq] at h
    exact ⟨[], h.symm, by simp⟩
  | cons g syms ih =>
    intro st st' h
    simp only [constlizeSymbols] at h
    by_cases hg : isConstSymbol g = true
    · simp only [hg, if_true] at h
      cases hl : constlizeLoads st g.constVal g.use with
      | none => simp [hl] at h
      | some s1 =>
        simp only [hl] at h
        obtain ⟨ps, e, hps⟩ := constlizeLoads_pairs _ _ _ _ hl
        obtain ⟨qs, e', hqs⟩ := ih _ _ h
        refine ⟨ps ++ qs, by rw [applyPairs_append, ← e]; exact e', ?_⟩
        intro q hq
        rcases List.mem_append.mp hq with hq | hq
        · obtain ⟨e1, l, hl', e2⟩ := hps q hq
          exact ⟨g, List.mem_cons_self _ _, hg, e1, l, hl', e2⟩
        · obtain ⟨g', hg', c1, c2, l, hl', e2⟩ := hqs q hq
          rw [e, loadValue_applyPairs] at e2
          exact ⟨g', List.mem_cons_of_mem _ hg', c1, c2, l, hl', e2⟩
    · simp only [hg, if_false, Bool.false_eq_true] at h
      obtain ⟨qs, e', hqs⟩ := ih _ _ h
      refine ⟨qs, e', ?_⟩
      intro q hq
      obtain ⟨g', hg', c1, c2, l, hl', e2⟩ := hqs q hq
      exact ⟨g', List.mem_cons_of_mem _ hg', c1, c2, l, hl', e2⟩

/-- A sequence of substitutions touches operands and use lists only. -/
theorem applyPairs_frame (ps : List (Nat × Nat)) :
    ∀ st : GlobalUnit,
      (applyPairs st ps).blocks = st.blocks ∧
      (applyPairs st ps).func_table = st.func_table ∧
      (applyPairs st ps).global_symbol_table = st.global_symbol_table ∧
      (applyPairs st ps).instrs.length = st.instrs.length ∧
      (applyPairs st ps).vals.length = st.vals.length ∧
      (∀ i, (getInstr (applyPairs st ps) i).deleted = (getInstr st i).deleted ∧
        (getInstr (applyPairs st ps) i).def_list = (getInstr st i).def_list ∧
        (getInstr (applyPairs st ps) i).block = (getInstr st i).block) ∧
      (∀ v, (getVal (applyPairs st ps) v).kind = (getVal st v).kind) := by
  induction ps with
  | nil => intro st; exact ⟨rfl, rfl, rfl, rfl, rfl, fun _ => ⟨rfl, rfl, rfl⟩, fun _ => rfl⟩
  | cons q ps ih =>
    intro st
    rw [applyPairs_cons]
    obtain ⟨a1, a2, a3, a4, a5, a6, a7⟩ := ih (replaceAllUsesOf st q.1 q.2)
    refine ⟨a1, a2, a3, ?_, ?_, ?_, ?_⟩
    · rw [a4]; simp [replaceAllUsesOf, length_mapFrom]
    · rw [a5]; simp [replaceAllUsesOf, length_updAt]
    · intro i
      obtain ⟨b1, b2, b3⟩ := a6 i
      rw [b1, b2, b3, getInstr_replaceAllUsesOf]
      split <;> exact ⟨rfl, rfl, rfl⟩
    · intro v
      rw [a7, getVal_replaceAllUsesOf_kind]

/-- A value that no substitution names keeps its use list and its operand slots, and an
instruction that uses none of the substituted values is unchanged. -/
theorem applyPairs_apart (x : Nat) :
    ∀ (ps : List (Nat × Nat)) (st : GlobalUnit), (∀ q ∈ ps, q.1 ≠ x ∧ q.2 ≠ x) →
      (getVal (applyPairs st ps) x).use = (getVal st x).use ∧
      ∀ (i p : Nat), (operands (getInstr (applyPairs st ps) i).kind)[p]? = some x ↔
        (operands (getInstr st i).kind)[p]? = some x := by
  intro ps
  induction ps with
  | nil => intro st _; exact ⟨rfl, fun _ _ => Iff.rfl⟩
  | cons q ps ih =>
    intro st h
    obtain ⟨h1, h2⟩ := h q (List.mem_cons_self _ _)
    obtain ⟨a1, a2⟩ := ih (replaceAllUsesOf st q.1 q.2)
      (fun q' hq' => h q' (List.mem_cons_of_mem _ hq'))
    rw [applyPairs_cons]
    refine ⟨by rw [a1, use_replaceAllUsesOf_other st q.1 q.2 x (Ne.symm h1) (Ne.symm h2)], ?_⟩
    intro i p
    rw [a2, slot_replaceAllUsesOf]
    split
    · cases hs : (operands (getInstr st i).kind)[p]? with
      | none => simp
      | some y =>
        simp only [Option.map_some', Option.some.injEq, subst]
        split
        · next hy => subst hy; exact ⟨fun e => absurd e h2, fun e => absurd e h1⟩
        · exact Iff.rfl
    · exact Iff.rfl

/-- An instruction that uses none of the substituted values is unchanged, when no
substitute is itself substituted. -/
theorem applyPairs_nonuser (i : Nat) :
    ∀ (ps : List (Nat × Nat)) (st : GlobalUnit),
      (∀ q ∈ ps, ∀ q' ∈ ps, q.2 ≠ q'.1) → (∀ q ∈ ps, i ∉ (getVal st q.1).use) →
      getInstr (applyPairs st ps) i = getInstr st i := by
  intro ps
  induction ps with
  | nil => intro st _ _; rfl
  | cons q ps ih =>
    intro st h1 h2
    have hq := h2 q (List.mem_cons_self _ _)
    rw [applyPairs_cons, ih (replaceAllUsesOf st q.1 q.2)
      (fun a ha b hb => h1 a (List.mem_cons_of_mem _ ha) b (List.mem_cons_of_mem _ hb))]
    · rw [getInstr_replaceAllUsesOf]; simp [hq]
    · intro q' hq'
      by_cases e1 : q'.1 = q.1
      · rw [e1, getVal_replaceAllUsesOf_old]; simp
      · rw [use_replaceAllUsesOf_other st q.1 q.2 q'.1 e1
          (fun e => h1 q (List.mem_cons_self _ _) q' (List.mem_cons_of_mem _ hq') e.symm)]
        exact h2 q' (List.mem_cons_of_mem _ hq')

/-- C17: `Constlize` changes operands and use lists only.  When it returns `s1`: the
blocks (instruction sequences, successor and predecessor sets), the function table and
the symbol table are those of `s`; no instruction or value is added or removed; every
instruction keeps its tombstone flag, its defined values and its block (the substituted
loads stay in place); every value keeps its variant.  On a program whose loads of the
other symbols are apart from the substituted ones, the result value of every load of an
array-typed global or of a scalar global with a store keeps its use list, and exactly
the operand slots that held it hold it afterwards.  On a program whose loads are well
formed `Constlize` returns, and an instruction that uses no result of a load of a scalar
without stores is unchanged. -/
theorem Constlize_frame (s : GlobalUnit) (hap : LoadsApart s) :
    (LoadsWellFormed s → ∃ s1, Constlize s = some s1) ∧
    ∀ s1, Constlize s = some s1 →
      (LoadsWellFormed s → ∀ i,
        (∀ g ∈ s.global_symbol_table, g.isArrayType = false → g.defs = [] →
          ∀ load ∈ g.use, ∀ v, loadValue s load = some v → i ∉ (getVal s v).use) →
        getInstr s1 i = getInstr s i) ∧
      s1.blocks = s.blocks ∧ s1.func_table = s.func_table ∧
      s1.global_symbol_table = s.global_symbol_table ∧
      s1.instrs.length = s.instrs.length ∧ s1.vals.length = s.vals.length ∧
      (∀ i, (getInstr s1 i).deleted = (getInstr s i).deleted ∧
        (getInstr s1 i).def_list = (getInstr s i).def_list ∧
        (getInstr s1 i).block = (getInstr s i).block) ∧
      (∀ v, (getVal s1 v).kind = (getVal s v).kind) ∧
      (∀ g ∈ s.global_symbol_table, (g.isArrayType = true ∨ g.defs ≠ []) →
        ∀ load ∈ g.use, ∀ v, loadValue s load = some v →
          (getVal s1 v).use = (getVal s v).use ∧
          ∀ (i p : Nat), (operands (getInstr s1 i).kind)[p]? = some v ↔
            (operands (getInstr s i).kind)[p]? = some v) := by
  constructor
  · intro hwf
    exact ⟨_, constlizeSymbols_eq s s.global_symbol_table s (fun _ => rfl)
      (fun g hg hc l hl => ((hwf.1 g hg hc).2 l hl).1)⟩
  · intro s1 h
    obtain ⟨ps, e, hps⟩ := constlizeSymbols_pairs _ _ _ h
    obtain ⟨a1, a2, a3, a4, a5, a6, a7⟩ := applyPairs_frame ps s
    rw [← e] at a1 a2 a3 a4 a5 a6 a7
    refine ⟨?_, a1, a2, a3, a4, a5, a6, a7, ?_⟩
    · intro hwf i hi
      rw [e]
      apply applyPairs_nonuser i ps s
      · intro q hq q' hq' hc
        obtain ⟨g, hg, c1, c2, _⟩ := hps q hq
        obtain ⟨g', hg', c1', _, l', hl', e2'⟩ := hps q' hq'
        have k1 := (hwf.1 g hg c1).1
        have k2 := ((hwf.1 g' hg' c1').2 l' hl').2 q'.1 (by rw [e2']; exact rfl)
        rw [← c2, hc] at k1
        exact k1 k2
      · intro q hq
        obtain ⟨g, hg, c1, _, l, hl, e2⟩ := hps q hq
        have hcs : g.isArrayType = false ∧ g.defs = [] := by
          unfold isConstSymbol at c1
          cases hd : g.defs with
          | nil => simpa [hd] using c1
          | cons a r => simp [hd] at c1
        exact hi g hg hcs.1 hcs.2 l hl q.1 e2
    intro g hg hnc load hload v hv
    have hng : isConstSymbol g = false := by
      unfold isConstSymbol
      rcases hnc with h1 | h1
      · simp [h1]
      · cases hd : g.defs with
        | nil => exact absurd hd h1
        | cons a l => simp
    rw [e]
    apply applyPairs_apart v ps s
    intro q hq
    obtain ⟨g', hg', c1, c2, l, hl, e2⟩ := hps q hq
    obtain ⟨n1, n2⟩ := hap g hg hng load hload v (by rw [hv]; exact rfl) g' hg' c1
    constructor
    · intro hc
      exact n2 l hl (by rw [e2, hc])
    · intro hc
      exact n1 (by rw [← hc, c2])

/-- C17, witness: in `exGlobals` the loads of the array (value 5) and of the stored-to
scalar (value 7) keep their user, instruction 6, which is unchanged; the two substituted
loads stay in the block, not tombstoned. -/
theorem Constlize_frame_witness :
    LoadsApart exGlobals ∧ LoadsWellFormed exGlobals ∧
    ∃ s1, Constlize exGlobals = some s1 ∧
      s1.blocks = exGlobals.blocks ∧
      (getInstr s1 0).deleted = false ∧ (getInstr s1 1).deleted = false ∧
      (getVal s1 5).use = [6] ∧ (getVal s1 7).use = [6] ∧
      (getInstr s1 6).kind = .OTHER [5, 7] ∧
      (getInstr s1 2).kind = .BINARY .ADD 0 0 3 := by
  obtain ⟨s1, h⟩ := (Constlize_frame exGlobals (by decide)).1 (by decide)
  have hs : Constlize exGlobals = some (applyPairs exGlobals [(1, 0), (2, 0)]) := by decide
  have e : s1 = applyPairs exGlobals [(1, 0), (2, 0)] := by
    rw [h] at hs; cases hs; rfl
  obtain ⟨_, a1, _, _, _, _, a6, _, a8⟩ := (Constlize_frame exGlobals (by decide)).2 s1 h
  have u5 := (a8 ⟨true, [], [4], 4⟩ (by decide) (Or.inl rfl) 4 (by decide) 5 (by decide)).1
  have u7 := (a8 ⟨false, [7], [5], 6⟩ (by decide) (Or.inr (by decide)) 5 (by decide) 7
    (by decide)).1
  refine ⟨by decide, by decide, s1, h, a1, (a6 0).1, (a6 1).1, u5, u7, ?_, ?_⟩
  · rw [e]; decide
  · rw [e]; decide

/-! ## Def-use consistency under the rewrites of `SimplifyBinary` -/

theorem getVal_default_of_le (s : GlobalUnit) (v : Nat) (h : s.vals.length ≤ v) :
    getVal s v = default := by
  unfold getVal; exact getD_default_of_le _ _ _ h

theorem getInstr_default_of_le (s : GlobalUnit) (i : Nat) (h : s.instrs.length ≤ i) :
    getInstr s i = default := by
  unfold getInstr; exact getD_default_of_le _ _ _ h

theorem DefUse_of_checked {s : GlobalUnit} (h : DefUseChecked s) : DefUse s := by
  intro v i
  constructor
  · intro hi
    have hv : v < s.vals.length := by
      by_contra hc
      rw [getVal_default_of_le s v (by omega)] at hi
      cases hi
    exact h.1 v hv i hi
  · intro hv
    have hi : i < s.instrs.length := by
      by_contra hc
      rw [getInstr_default_of_le s i (by omega)] at hv
      cases hv
    exact h.2 i hi v hv

/-- In a consistent graph an operand is a value of the arena. -/
theorem DefUse_operand_lt {s : GlobalUnit} (h : DefUse s) {v i : Nat}
    (hv : v ∈ operands (getInstr s i).kind) : v < s.vals.length := by
  by_contra hc
  have := (h v i).mpr hv
  rw [getVal_default_of_le s v (by omega)] at this
  cases this

theorem mem_foldl_insertUse_iff (l2 : List Nat) :
    ∀ (l1 : List Nat) (u : Nat), u ∈ l2.foldl insertUse l1 ↔ u ∈ l1 ∨ u ∈ l2 := by
  induction l2 with
  | nil => intro l1 u; simp
  | cons a l2 ih =>
    intro l1 u
    simp only [List.foldl_cons, ih, List.mem_cons]
    unfold insertUse
    split
    · next ha =>
      constructor
      · rintro (h | h)
        · exact Or.inl h
        · exact Or.inr (Or.inr h)
      · rintro (h | h | h)
        · exact Or.inl h
        · subst h; exact Or.inl ha
        · exact Or.inr h
    · simp only [List.mem_append, List.mem_singleton]
      tauto

theorem mem_map_subst {o n v : Nat} {l : List Nat} (ho : v ≠ o) :
    v ∈ l.map (subst o n) ↔ (v ∈ l ∨ (v = n ∧ o ∈ l)) := by
  simp only [List.mem_map, subst]
  constructor
  · rintro ⟨y, hy, e⟩
    split at e
    · next h => subst h; exact Or.inr ⟨e.symm, hy⟩
    · subst e; exact Or.inl hy
  · rintro (h | ⟨h1, h2⟩)
    · exact ⟨v, h, by simp [ho]⟩
    · exact ⟨o, h2, by simp [h1]⟩

theorem not_mem_map_subst {o n : Nat} {l : List Nat} (hne : o ≠ n) :
    o ∉ l.map (subst o n) := by
  simp only [List.mem_map, subst, not_exists, not_and]
  intro y _ e
  split at e
  · exact hne e.symm
  · next h => exact h e

/-- The call `replaceAllUsesOf(old, new)` keeps a consistent graph consistent. -/
theorem DefUse_replaceAllUsesOf {s : GlobalUnit} (h : DefUse s) {o n : Nat}
    (hne : o ≠ n) (hn : n < s.vals.length) : DefUse (replaceAllUsesOf s o n) := by
  intro v i
  have hops : operands (getInstr (replaceAllUsesOf s o n) i).kind =
      if i ∈ (getVal s o).use then (operands (getInstr s i).kind).map (subst o n)
      else operands (getInstr s i).kind := by
    rw [getInstr_replaceAllUsesOf]
    split
    · exact operands_replaceOperand _ _ _
    · rfl
  rw [hops]
  by_cases hvo : v = o
  · subst hvo
    rw [getVal_replaceAllUsesOf_old]
    constructor
    · intro hc; cases hc
    · intro hc
      exfalso
      split at hc
      · exact not_mem_map_subst hne hc
      · next hi => exact hi ((h v i).mpr hc)
  · rw [getVal_replaceAllUsesOf_use s o n v hvo]
    by_cases hvn : v = n
    · subst hvn
      simp only [hn, and_self, if_true, mem_foldl_insertUse_iff]
      split
      · next hi =>
        rw [mem_map_subst hvo]
        exact ⟨fun _ => Or.inr ⟨rfl, (h o i).mp hi⟩, fun _ => Or.inr hi⟩
      · next hi =>
        constructor
        · rintro (hc | hc)
          · exact (h v i).mp hc
          · exact absurd hc hi
        · intro hc; exact Or.inl ((h v i).mpr hc)
    · simp only [hvn, false_and, if_false]
      split
      · rw [mem_map_subst hvo]
        constructor
        · intro hc; exact Or.inl ((h v i).mp hc)
        · rintro (hc | ⟨hc, _⟩)
          · exact (h v i).mpr hc
          · exact absurd hc hvn
      · exact h v i

/-- A fresh value without users keeps a consistent graph consistent. -/
theorem DefUse_addValue {s : GlobalUnit} (h : DefUse s) {c : ValueRef} (hc : c.use = []) :
    DefUse (addValue s c) := by
  intro v i
  rw [getVal_addValue, getInstr_addValue]
  split
  · next hv =>
    subst hv
    rw [hc]
    constructor
    · intro e; cases e
    · intro e; exact absurd (DefUse_operand_lt h e) (lt_irrefl _)
  · exact h v i

/-- The call `DeleteInstruction(instr)` on a consistent graph: the instruction is in no
use list any more, and the other instructions are as consistent as before. -/
theorem DefUse_DeleteInstruction {s : GlobalUnit} (h : DefUse s) (instr : Nat) :
    (∀ v i, i ≠ instr →
      (i ∈ (getVal (DeleteInstruction s instr) v).use ↔
        v ∈ operands (getInstr (DeleteInstruction s instr) i).kind)) ∧
    (∀ v, instr ∉ (getVal (DeleteInstruction s instr) v).use) ∧
    (∀ v, (getVal (DeleteInstruction s instr) v).use =
      (getVal s v).use.filter (fun u => decide (u ≠ instr))) := by
  have huse : ∀ v, (getVal (DeleteInstruction s instr) v).use =
      (getVal s v).use.filter (fun u => decide (u ≠ instr)) := by
    intro v
    rw [getVal_DeleteInstruction]
    simp only
    split
    · rfl
    · next hv =>
      symm
      apply List.filter_eq_self.mpr
      intro u hu
      simp only [decide_eq_true_eq]
      rintro rfl
      exact hv ((h v u).mp hu)
  have hops : ∀ i, operands (getInstr (DeleteInstruction s instr) i).kind =
      operands (getInstr s i).kind := by
    intro i
    rw [getInstr_DeleteInstruction]
    split <;> rfl
  refine ⟨?_, ?_, huse⟩
  · intro v i hi
    rw [huse, hops, List.mem_filter]
    simp only [decide_eq_true_eq]
    exact ⟨fun hc => (h v i).mp hc.1, fun hc => ⟨(h v i).mpr hc, hi⟩⟩
  · intro v
    rw [huse, List.mem_filter]
    simp

/-- The rewrite `replaceAllUsesOf(old, new); DeleteInstruction(instr);` on a consistent
graph. -/
theorem DefUse_rewire {s : GlobalUnit} (h : DefUse s) {o n : Nat} (instr : Nat)
    (hne : o ≠ n) (hn : n < s.vals.length) :
    (∀ v i, i ≠ instr →
      (i ∈ (getVal (DeleteInstruction (replaceAllUsesOf s o n) instr) v).use ↔
        v ∈ operands (getInstr (DeleteInstruction (replaceAllUsesOf s o n) instr) i).kind)) ∧
    (∀ v, instr ∉ (getVal (DeleteInstruction (replaceAllUsesOf s o n) instr) v).use) :=
  ⟨(DefUse_DeleteInstruction (DefUse_replaceAllUsesOf h hne hn) instr).1,
    (DefUse_DeleteInstruction (DefUse_replaceAllUsesOf h hne hn) instr).2.1⟩

theorem length_filter_ne_of_nodup (a : Nat) :
    ∀ l : List Nat, l.Nodup → a ∈ l →
      (l.filter (fun u => decide (u ≠ a))).length + 1 = l.length := by
  intro l
  induction l with
  | nil => intro _ h; cases h
  | cons x l ih =>
    intro hnd hmem
    obtain ⟨hx, hnd'⟩ := List.nodup_cons.mp hnd
    by_cases hxa : x = a
    · subst hxa
      have : l.filter (fun u => decide (u ≠ x)) = l := by
        apply List.filter_eq_self.mpr
        intro u hu
        simp only [decide_eq_true_eq]
        rintro rfl
        exact hx hu
      rw [List.filter_cons_of_neg (by simp), this]
      rfl
    · have hm : a ∈ l := by
        rcases List.mem_cons.mp hmem with h | h
        · exact absurd h.symm hxa
        · exact h
      rw [List.filter_cons_of_pos (by simpa using hxa)]
      have := ih hnd' hm
      simp only [List.length_cons]
      omega

theorem identitySurvivor_operand {s : GlobalUnit} {op : OpTy} {src1 src2 v : Nat}
    (h : identitySurvivor s op src1 src2 = some (.operand v)) : v = src1 ∨ v = src2 := by
  cases op <;> simp only [identitySurvivor] at h
  case ADD => split at h <;> [skip; split at h] <;> cases h <;> simp
  case SUB => split at h <;> cases h; simp
  case MUL => split at h <;> [skip; (split at h <;> [skip; split at h])] <;> cases h <;> simp
  case AND => split at h <;> cases h
  case OR => split at h <;> [skip; split at h] <;> cases h <;> simp
  all_goals cases h

/-- The three outcomes of `SimplifyBinary`. -/
theorem SimplifyBinary_outcome (s : GlobalUnit) (instr : Nat) (op : OpTy)
    (src1 src2 dst : Nat) (hk : (getInstr s instr).kind = .BINARY op src1 src2 dst) :
    SimplifyBinary s instr = (s, false) ∨
    (∃ v, (v = src1 ∨ v = src2) ∧
      SimplifyBinary s instr = (replaceByOperand s instr dst v, true)) ∨
    (∃ c : ValueRef, c.use = [] ∧ SimplifyBinary s instr = (ReplaceWithConst s instr c, true)) := by
  by_cases hboth : IsIntConst s src1 = true ∧ IsIntConst s src2 = true
  · obtain ⟨c1, c2⟩ := hboth
    cases hf : FoldBinary s instr with
    | none => exact Or.inl (by simp [SimplifyBinary, hk, c1, c2, hf])
    | some c => exact Or.inr (Or.inr ⟨c, FoldBinary_use hf, SimplifyBinary_of_fold hk c1 c2 hf⟩)
  · rw [SimplifyBinary_identity_eq s instr op src1 src2 dst hk hboth]
    cases hs : identitySurvivor s op src1 src2 with
    | none => exact Or.inl rfl
    | some keep =>
      cases keep with
      | operand v => exact Or.inr (Or.inl ⟨v, identitySurvivor_operand hs, rfl⟩)
      | zero => exact Or.inr (Or.inr ⟨MakeIntConst 0, rfl, rfl⟩)

theorem ReplaceWithConst_eq {s : GlobalUnit} {instr d : Nat} {rest : List Nat}
    (c : ValueRef) (hdef : (getInstr s instr).def_list = d :: rest) :
    ReplaceWithConst s instr c =
      DeleteInstruction (replaceAllUsesOf (addValue s c) d s.vals.length) instr := by
  simp [ReplaceWithConst, hdef]

theorem SimplifyBinary_mul_zero {s : GlobalUnit} {instr src1 src2 dst : Nat}
    (hk : (getInstr s instr).kind = .BINARY .MUL src1 src2 dst)
    (h0 : (getVal s src1).kind = .IntConst 0) :
    SimplifyBinary s instr = (ReplaceWithConst s instr (MakeIntConst 0), true) := by
  have c1 := IsIntConst_of_kind h0
  have g1 := GetIntConst_of_kind h0
  by_cases c2 : IsIntConst s src2 = true
  · have hw : wrap32 0 = 0 := by decide
    simp [SimplifyBinary, FoldBinary, hk, c1, c2, g1, hw]
  · rw [SimplifyBinary_identity_eq s instr .MUL src1 src2 dst hk (fun h => c2 h.2)]
    have : isIntConstOf s src1 0 = true := decide_eq_true h0
    simp [identitySurvivor, this]

/-- Where the instruction holds its result as defined value, def-use consistency is
preserved by every rewrite of `SimplifyBinary`.  On a
graph in which, for all `v` and `i`, instruction `i` is in the use list of value `v`
exactly when `v` is among the operands of `i`, and for a binary instruction that defines
its result value and does not read it: after `SimplifyBinary` the same holds for every
live instruction, and indeed for every instruction but the rewritten one, which is
tombstoned and in no use list when a change is reported.  In particular when
`mul(int 0, x)` is rewritten the instruction leaves the use list of `x`, which is
otherwise as before (one entry less, the use list being a set), the fresh value is
`int 0`, and every former user of the result has it among its operands. -/
theorem SimplifyBinary_preserves_def_use (s : GlobalUnit) (instr : Nat) (op : OpTy)
    (src1 src2 dst : Nat)
    (hk : (getInstr s instr).kind = .BINARY op src1 src2 dst)
    (hdef : (getInstr s instr).def_list = [dst])
    (hdst : dst < s.vals.length)
    (hself : dst ≠ src1 ∧ dst ≠ src2)
    (hdu : DefUse s) :
    (∀ v i, (getInstr (SimplifyBinary s instr).1 i).deleted = false →
      (i ∈ (getVal (SimplifyBinary s instr).1 v).use ↔
        v ∈ operands (getInstr (SimplifyBinary s instr).1 i).kind)) ∧
    (∀ v i, i ≠ instr →
      (i ∈ (getVal (SimplifyBinary s instr).1 v).use ↔
        v ∈ operands (getInstr (SimplifyBinary s instr).1 i).kind)) ∧
    ((SimplifyBinary s instr).2 = true →
      (getInstr (SimplifyBinary s instr).1 instr).deleted = true ∧
      ∀ v, instr ∉ (getVal (SimplifyBinary s instr).1 v).use) ∧
    (op = .MUL → (getVal s src1).kind = .IntConst 0 →
      (SimplifyBinary s instr).2 = true ∧
      instr ∈ (getVal s src2).use ∧
      instr ∉ (getVal (SimplifyBinary s instr).1 src2).use ∧
      (getVal (SimplifyBinary s instr).1 src2).use =
        (getVal s src2).use.filter (fun u => decide (u ≠ instr)) ∧
      ((getVal s src2).use.Nodup →
        (getVal (SimplifyBinary s instr).1 src2).use.length + 1 = (getVal s src2).use.length) ∧
      (getVal (SimplifyBinary s instr).1 s.vals.length).kind = .IntConst 0 ∧
      ∀ u ∈ (getVal s dst).use,
        s.vals.length ∈ operands (getInstr (SimplifyBinary s instr).1 u).kind) := by
  have hi : instr < s.instrs.length := lt_of_getInstr_kind (by rw [hk]; simp)
  have hop1 : src1 ∈ operands (getInstr s instr).kind := by simp [hk, operands]
  have hop2 : src2 ∈ operands (getInstr s instr).kind := by simp [hk, operands]
  have hconst : ∀ c : ValueRef, c.use = [] →
      (∀ v i, i ≠ instr →
        (i ∈ (getVal (ReplaceWithConst s instr c) v).use ↔
          v ∈ operands (getInstr (ReplaceWithConst s instr c) i).kind)) ∧
      (∀ v, instr ∉ (getVal (ReplaceWithConst s instr c) v).use) ∧
      (getInstr (ReplaceWithConst s instr c) instr).deleted = true := by
    intro c hc
    have hd1 : DefUse (addValue s c) := DefUse_addValue hdu hc
    have hne : dst ≠ s.vals.length := by omega
    have hn : s.vals.length < (addValue s c).vals.length := by simp [addValue]
    obtain ⟨r1, r2⟩ := DefUse_rewire hd1 instr hne hn
    rw [ReplaceWithConst_eq c hdef]
    exact ⟨r1, r2, (rewire_effect (addValue s c) instr dst s.vals.length hi).1⟩
  have hpost : (∀ v i, i ≠ instr →
      (i ∈ (getVal (SimplifyBinary s instr).1 v).use ↔
        v ∈ operands (getInstr (SimplifyBinary s instr).1 i).kind)) ∧
      ((SimplifyBinary s instr).2 = true →
        (getInstr (SimplifyBinary s instr).1 instr).deleted = true ∧
        ∀ v, instr ∉ (getVal (SimplifyBinary s instr).1 v).use) ∧
      ((SimplifyBinary s instr).2 = false → (SimplifyBinary s instr).1 = s) := by
    rcases SimplifyBinary_outcome s instr op src1 src2 dst hk with h | ⟨v, hv, h⟩ | ⟨c, hc, h⟩
    · rw [h]
      exact ⟨fun v i _ => hdu v i, (fun e => by cases e), fun _ => rfl⟩
    · rw [h]
      have hne : dst ≠ v := by rcases hv with e | e <;> rw [e] <;> [exact hself.1; exact hself.2]
      have hn : v < s.vals.length := by
        rcases hv with e | e <;> rw [e] <;>
          [exact DefUse_operand_lt hdu hop1; exact DefUse_operand_lt hdu hop2]
      obtain ⟨r1, r2⟩ := DefUse_rewire hdu instr hne hn
      exact ⟨r1, fun _ => ⟨(rewire_effect s instr dst v hi).1, r2⟩, fun e => by cases e⟩
    · rw [h]
      obtain ⟨r1, r2, r3⟩ := hconst c hc
      exact ⟨r1, fun _ => ⟨r3, r2⟩, fun e => by cases e⟩
  obtain ⟨p1, p2, p3⟩ := hpost
  refine ⟨?_, p1, p2, ?_⟩
  · intro v i hlive
    cases hflag : (SimplifyBinary s instr).2 with
    | false => rw [p3 hflag]; exact hdu v i
    | true =>
      apply p1 v i
      rintro rfl
      rw [(p2 hflag).1] at hlive
      cases hlive
  · intro hmul h0
    subst hmul
    have heq := SimplifyBinary_mul_zero hk h0
    have hmem : instr ∈ (getVal s src2).use := (hdu src2 instr).mpr hop2
    have hsrc2 : src2 < s.vals.length := DefUse_operand_lt hdu hop2
    have hd1 : DefUse (addValue s (MakeIntConst 0)) := DefUse_addValue hdu rfl
    have hd2 : DefUse (replaceAllUsesOf (addValue s (MakeIntConst 0)) dst s.vals.length) :=
      DefUse_replaceAllUsesOf hd1 (by omega) (by simp [addValue])
    have huse : (getVal (ReplaceWithConst s instr (MakeIntConst 0)) src2).use =
        (getVal s src2).use.filter (fun u => decide (u ≠ instr)) := by
      rw [ReplaceWithConst_eq _ hdef, (DefUse_DeleteInstruction hd2 instr).2.2,
        use_replaceAllUsesOf_other _ _ _ _ (Ne.symm hself.2) (by omega), getVal_addValue]
      have : src2 ≠ s.vals.length := by omega
      simp [this]
    obtain ⟨_, e2, e3, _⟩ :=
      ReplaceWithConst_effect s instr dst [] (MakeIntConst 0) hdef hdst hi
    rw [heq]
    refine ⟨rfl, hmem, (hconst _ rfl).2.1 src2, huse, ?_, e2, ?_⟩
    · intro hnd
      show (getVal (ReplaceWithConst s instr (MakeIntConst 0)) src2).use.length + 1 = _
      rw [huse]
      exact length_filter_ne_of_nodup instr _ hnd hmem
    · intro u hu
      show s.vals.length ∈ operands (getInstr (ReplaceWithConst s instr (MakeIntConst 0)) u).kind
      rw [e3 u hu]
      exact List.mem_map.mpr ⟨dst, (hdu dst u).mp hu, by simp⟩

/-- An instance: `mul(int 0, x)` that defines its result, followed by a reader of the
product.  After the rewrite `x` has no user left, the reader reads the fresh `int 0` and
is its only user. -/
theorem SimplifyBinary_preserves_def_use_witness :
    DefUseChecked (exBinaryOf .MUL (.IntConst 0) .Named) ∧
    (getVal (exBinaryOf .MUL (.IntConst 0) .Named) 1).use = [0] ∧
    (getVal (SimplifyBinary (exBinaryOf .MUL (.IntConst 0) .Named) 0).1 1).use = [] ∧
    (getInstr (SimplifyBinary (exBinaryOf .MUL (.IntConst 0) .Named) 0).1 1).kind = .OTHER [3] ∧
    (getVal (SimplifyBinary (exBinaryOf .MUL (.IntConst 0) .Named) 0).1 3) =
      ⟨.IntConst 0, [1]⟩ ∧
    (∀ v i, (getInstr (SimplifyBinary (exBinaryOf .MUL (.IntConst 0) .Named) 0).1 i).deleted
        = false →
      (i ∈ (getVal (SimplifyBinary (exBinaryOf .MUL (.IntConst 0) .Named) 0).1 v).use ↔
        v ∈ operands (getInstr (SimplifyBinary (exBinaryOf .MUL (.IntConst 0) .Named) 0).1
          i).kind)) :=
  ⟨by decide, by decide, by decide, by decide, by decide,
    (SimplifyBinary_preserves_def_use (exBinaryOf .MUL (.IntConst 0) .Named) 0 .MUL 0 1 2
      (by decide) (by decide) (by decide) (by decide)
      (DefUse_of_checked (by decide))).1⟩

/-- C11, the failing input: `mul(int 0, x)` held by an instruction without defined
value, in a consistent graph.  `SimplifyBinary` reports a change, and afterwards the
instruction is not deleted, it is still in the use list of `x`, which is as long as
before, no `int 0` is entered in the graph and the former user of the result still reads
the result. -/
theorem SimplifyBinary_mul_zero_fails :
    DefUseChecked exMulNoDef ∧
    (getInstr exMulNoDef 0).kind = .BINARY .MUL 0 1 2 ∧
    (getInstr exMulNoDef 0).def_list = [] ∧
    (getVal exMulNoDef 0).kind = .IntConst 0 ∧
    (SimplifyBinary exMulNoDef 0).2 = true ∧
    (getInstr (SimplifyBinary exMulNoDef 0).1 0).deleted = false ∧
    0 ∈ (getVal (SimplifyBinary exMulNoDef 0).1 1).use ∧
    (getVal (SimplifyBinary exMulNoDef 0).1 1).use.length = (getVal exMulNoDef 1).use.length ∧
    (getVal exMulNoDef 2).use = [1] ∧
    operands (getInstr (SimplifyBinary exMulNoDef 0).1 1).kind = [2] ∧
    (SimplifyBinary exMulNoDef 0).1.vals.length = exMulNoDef.vals.length := by
  decide

end Bifang
